import Mathlib

/-!
Verification development for the atlatl finite subsequential transducer
library: a shallow embedding of the builder (`src/fst/builder.rs`), the
segment free-list (`src/segment.rs`), the double-array packer
(`src/fst/intermediate.rs`) and the query engine (`src/fst/mod.rs`),
together with theorems settling the specification claims.

Machine integers are embedded as `Nat`/`Int`; the generic index type `I`
becomes `Nat` together with an explicit bound `ibound = I::bound()`, and
`I::as_index` becomes reduction modulo `ibound + 1`.  The output monoid `O`
is embedded generically as an additive commutative group with an arbitrary
longest-common-prefix operation `pf` (the source calls it `Output::prefix`;
that identifier is spelled `Lcp` here).  Rust panics are unreachable under
the invariants proved below; where a panic branch must be given a value the
embedding takes a harmless default, noted at the definition.
-/

set_option maxRecDepth 100000
set_option linter.unusedSectionVars false
set_option linter.unnecessarySimpa false

namespace Atlatl

/-- Longest-common-prefix operation of the signed integer outputs
(`impl_output_signed!` in `src/fst/output.rs`): the minimum of two
positives, the maximum of two non-positives, zero on mixed signs. -/
def signedLcp (a b : Int) : Int :=
  if 0 < a then (if 0 < b then min a b else 0)
  else (if 0 < b then 0 else max a b)

/-- Error type of `src/fst/error.rs`.  `OutOfBounds reached maximum`
mirrors the struct variant `OutOfBounds { reached, maximum }`. -/
inductive Error where
  | Duplicate : List Nat → Error
  | OutOfOrder : List Nat → List Nat → Error
  | OutOfBounds : Nat → Nat → Error
deriving DecidableEq

/-- Lexicographic strict order on byte strings, as `Ord` on Rust slices:
a proper Lean translation of `key < prev.as_slice()` in `validate_key`. -/
def lexLt : List Nat → List Nat → Bool
  | _, [] => false
  | [], _ :: _ => true
  | a :: as_, b :: bs => a < b || (a == b && lexLt as_ bs)

/-- `I::as_index` for an index type with bound `ib` (`i as u16` truncates;
for `usize` the bound makes this the identity on admissible values). -/
def asIndex (ib i : Nat) : Nat := i % (ib + 1)

section BuilderDefs

variable {O : Type} [AddCommGroup O] [DecidableEq O]

/-- `Transition<I, O>` from `src/fst/builder.rs`, indices embedded as `Nat`. -/
structure Transition (O : Type) where
  label : Nat
  output : O
  destination : Nat
deriving DecidableEq

/-- `State<I, O>` from `src/fst/builder.rs`, called `BState` to keep it
apart from the traversal `State` of `src/fst/mod.rs`. -/
structure BState (O : Type) where
  terminal : Bool
  final_output : O
  transitions : List (Transition O)
deriving DecidableEq

/-- `DanglingArc<O>`: a transition without a fixed destination state. -/
structure DanglingArc (O : Type) where
  label : Nat
  output : O
deriving DecidableEq

/-- `DanglingState<I, O>`: a builder state with an optional last arc. -/
structure DanglingState (O : Type) where
  state : BState O
  last_arc : Option (DanglingArc O)
deriving DecidableEq

/-- `State::default()` (Rust `derive(Default)`): non-terminal, zero
final output, no transitions. -/
def BState.empty : BState O := { terminal := false, final_output := 0, transitions := [] }

/-- `DanglingState::default()`. -/
def DanglingState.base : DanglingState O := { state := BState.empty, last_arc := none }

/-- `DanglingArc::from_label`: the output field takes `O::default() = 0`. -/
def DanglingArc.from_label (l : Nat) : DanglingArc O := { label := l, output := 0 }

/-- `DanglingState::from_label`. -/
def DanglingState.from_label (l : Nat) : DanglingState O :=
  { state := BState.empty, last_arc := some (DanglingArc.from_label l) }

/-- `DanglingState::empty_terminal`. -/
def DanglingState.empty_terminal : DanglingState O :=
  { state := { terminal := true, final_output := 0, transitions := [] }, last_arc := none }

/-- `DanglingState::affix_last`: move the last arc, destination now known,
into the frozen transition list. -/
def DanglingState.affix_last (d : DanglingState O) (destination : Nat) : DanglingState O :=
  match d.last_arc with
  | some a =>
      { state := { d.state with
          transitions := d.state.transitions ++ [⟨a.label, a.output, destination⟩] },
        last_arc := none }
  | none => d

/-- `DanglingState::redistribute_output`: push `diff` into every output
stored in the state. -/
def DanglingState.redistribute_output (d : DanglingState O) (diff : O) : DanglingState O :=
  if diff = 0 then d
  else
    { state := { terminal := d.state.terminal
               , final_output :=
                   if d.state.terminal then d.state.final_output + diff else d.state.final_output
               , transitions := d.state.transitions.map (fun t => { t with output := t.output + diff }) }
    , last_arc := d.last_arc.map (fun a => { a with output := a.output + diff }) }

variable (pf : O → O → O)

/-- The while-loop of `DanglingPath::redistribute_prefix`, expressed as a
structural walk down the stack: at each matched depth the arc keeps the
common part `pf arc.output out`, and the difference is pushed into the next
dangling state.  Returns the rewritten stack, the matched length, and the
remaining output.  (The Rust loop indexes `stack[i]`/`stack[i+1]`; an index
past the stack would panic there and is a no-op here, and is unreachable
because the deepest dangling state never carries a last arc.) -/
def redistLoop : List (DanglingState O) → List Nat → O → List (DanglingState O) × Nat × O
  | [], _, out => ([], 0, out)
  | d :: rest, [], out => (d :: rest, 0, out)
  | d :: rest, c :: ks, out =>
    match d.last_arc with
    | some t =>
      if t.label = c then
        let p := pf t.output out
        let diff := t.output - p
        let d' : DanglingState O := { d with last_arc := some { t with output := p } }
        let rest' := match rest with
          | [] => []
          | e :: tl => e.redistribute_output diff :: tl
        let r := redistLoop rest' ks (out - p)
        (d' :: r.1, r.2.1 + 1, r.2.2)
      else (d :: rest, 0, out)
    | none => (d :: rest, 0, out)

/-- `DanglingPath::set_root_output` (the empty stack would panic in Rust
and is left unchanged here; the stack is never empty). -/
def setRootOutput (stk : List (DanglingState O)) (out : O) : List (DanglingState O) :=
  match stk with
  | [] => []
  | r :: rest =>
      { r with state := { r.state with terminal := true, final_output := out } } :: rest

/-- `DanglingPath::add_suffix`: give the current top of the stack a last
arc labelled with the first suffix byte carrying `out`, push one dangling
state per further byte, and finish with an empty terminal state. -/
def addSuffix (stk : List (DanglingState O)) (suffix : List Nat) (out : O) :
    List (DanglingState O) :=
  match suffix with
  | [] => stk
  | c :: cs =>
    match stk.getLast? with
    | none => stk
    | some last =>
        (stk.dropLast ++ [{ last with last_arc := some ⟨c, out⟩ }])
          ++ cs.map DanglingState.from_label ++ [DanglingState.empty_terminal]

/-- `Builder<I, O>`.  The registry hash map becomes an association list in
insertion order; `ibound` carries `I::bound()`, part of the Rust type. -/
structure Builder (O : Type) where
  registry : List (BState O × Nat)
  dangling : List (DanglingState O)
  previous_key : Option (List Nat)
  transition_count : Nat
  usable_index : Nat
  language_size : Nat
  root : Nat
  ibound : Nat
deriving DecidableEq

/-- A fresh builder as made by `Builder::from_iter`: default fields with
`DanglingPath::new()`, which holds one default dangling state. -/
def newBuilder (ib : Nat) : Builder O :=
  { registry := [], dangling := [DanglingState.base], previous_key := none,
    transition_count := 0, usable_index := 0, language_size := 0, root := 0, ibound := ib }

/-- `Builder::register`: intern a state in the registry.  An occupied entry
returns its index unchanged; a vacant one takes the next usable index,
accounts its transitions, and fails with `OutOfBounds` when either count
exceeds the index bound (the counters are bumped either way, as in the
source). -/
def registerR (b : Builder O) (s : BState O) : Builder O × Except Error Nat :=
  match b.registry.find? (fun e => e.1 = s) with
  | some e => (b, .ok e.2)
  | none =>
    let s_i := b.usable_index
    let trans' := b.transition_count + s.transitions.length
    if s_i > b.ibound ∨ trans' > b.ibound then
      ({ b with usable_index := s_i + 1, transition_count := trans' },
        .error (.OutOfBounds (max s_i trans') b.ibound))
    else
      ({ b with
          usable_index := s_i + 1,
          transition_count := trans',
          registry := b.registry ++ [(s, asIndex b.ibound s_i)] },
        .ok (asIndex b.ibound s_i))

/-- `DanglingPath::finalize_last` applied when the loop of
`finalize_subpath` ends with a registered index in hand. -/
def finalizeLast (b : Builder O) : Option Nat → Builder O
  | none => b
  | some i =>
    match b.dangling.getLast? with
    | none => b
    | some d => { b with dangling := b.dangling.dropLast ++ [d.affix_last i] }

/-- The loop of `Builder::finalize_subpath`: pop the deepest dangling state
(affixing the previously registered index if there is one), register it,
and continue while more than `path_start + 1` states remain; finally affix
the last registered index to the new top.  Fuel bounds the iteration count;
`dangling.length` always suffices since every iteration pops one state. -/
def fsLoop (path_start : Nat) : Nat → Builder O → Option Nat → Builder O × Option Error
  | 0, b, idx => (finalizeLast b idx, none)
  | fuel + 1, b, idx =>
    if path_start + 1 < b.dangling.length then
      match b.dangling.getLast? with
      | none => (finalizeLast b idx, none)
      | some d =>
        let popped := match idx with
          | some i => d.affix_last i
          | none => d
        let b1 := { b with dangling := b.dangling.dropLast }
        match registerR b1 popped.state with
        | (b2, .error e) => (b2, some e)
        | (b2, .ok i') => fsLoop path_start fuel b2 (some i')
    else (finalizeLast b idx, none)

/-- `Builder::finalize_subpath`. -/
def finalizeSubpath (b : Builder O) (path_start : Nat) : Builder O × Option Error :=
  fsLoop path_start b.dangling.length b none

/-- The body of `Builder::insert` past key validation: record the key as
previous, handle the empty key by setting the root output, and otherwise
redistribute along the common prefix, freeze the divergent subpath and
graft the new suffix. -/
def insertBody (b : Builder O) (key : List Nat) (v : O) : Builder O × Option Error :=
  let b0 := { b with previous_key := some key }
  if key = [] then
    ({ b0 with dangling := setRootOutput b0.dangling v, language_size := 1 }, none)
  else
    let r := redistLoop pf b0.dangling key v
    let b1 := { b0 with dangling := r.1 }
    match finalizeSubpath b1 r.2.1 with
    | (b2, some e) => (b2, some e)
    | (b2, none) =>
      ({ b2 with
          dangling := addSuffix b2.dangling (key.drop r.2.1) r.2.2,
          language_size := b2.language_size + 1 }, none)

/-- `Builder::insert`.  The result carries the (possibly mutated) builder
and the error, mirroring `&mut self` with `Result<()>`: a `Duplicate` or
`OutOfOrder` error happens before any mutation (`validate_key` checks
equality, then the lexicographic order, before touching the builder). -/
def insertR (b : Builder O) (key : List Nat) (v : O) : Builder O × Option Error :=
  match b.previous_key with
  | some prev =>
    if key = prev then (b, some (.Duplicate key))
    else if lexLt key prev then (b, some (.OutOfOrder key prev))
    else insertBody pf b key v
  | none => insertBody pf b key v

/-- `Builder::finish`: freeze the whole dangling path, then register the
root (`pop_root` asserts a singleton stack with no last arc; other shapes
are unreachable and left unchanged here). -/
def finishR (b : Builder O) : Builder O × Option Error :=
  match finalizeSubpath b 0 with
  | (b1, some e) => (b1, some e)
  | (b1, none) =>
    match b1.dangling with
    | [r] =>
      let b2 := { b1 with dangling := [] }
      match registerR b2 r.state with
      | (b3, .error e) => (b3, some e)
      | (b3, .ok i) => ({ b3 with root := i }, none)
    | _ => (b1, none)

/-- Folding `Builder::insert` over a pair list, stopping at the first
error, as the loop of `Builder::from_iter` does. -/
def insertAll (b : Builder O) : List (List Nat × O) → Builder O × Option Error
  | [] => (b, none)
  | (k, v) :: ps =>
    match insertR pf b k v with
    | (b', none) => insertAll b' ps
    | (b', some e) => (b', some e)

/-- `Builder::from_iter`: build from scratch, insert every pair, finish. -/
def fromIter (ib : Nat) (ps : List (List Nat × O)) : Builder O × Option Error :=
  match insertAll pf (newBuilder ib) ps with
  | (b, some e) => (b, some e)
  | (b, none) => finishR b

/-- Look up the registered state carrying index `i` (the inverse of the
registry map; indices are unique in every reachable builder). -/
def lookupState (reg : List (BState O × Nat)) (i : Nat) : Option (BState O) :=
  (reg.find? (fun e => e.2 = i)).map (fun e => e.1)

/-- Value of the remaining key from a registered state: sum the arc outputs
along the key's path and the final output of the state it ends in. -/
def regVal (reg : List (BState O × Nat)) : Nat → List Nat → O → Option O
  | i, [], acc =>
    match lookupState reg i with
    | some s => if s.terminal then some (acc + s.final_output) else none
    | none => none
  | i, c :: ks, acc =>
    match lookupState reg i with
    | some s =>
      match s.transitions.find? (fun t => t.label = c) with
      | some t => regVal reg t.destination ks (acc + t.output)
      | none => none
    | none => none

/-- Value of the remaining key from a dangling state: a matching last arc
continues down the dangling path, a frozen transition continues in the
registry, and an exhausted key reads the state's terminality. -/
def dangVal (reg : List (BState O × Nat)) : List (DanglingState O) → List Nat → O → Option O
  | [], _, _ => none
  | d :: _, [], acc =>
    if d.state.terminal then some (acc + d.state.final_output) else none
  | d :: rest, c :: ks, acc =>
    match d.last_arc with
    | some a =>
      if a.label = c then dangVal reg rest ks (acc + a.output)
      else
        match d.state.transitions.find? (fun t => t.label = c) with
        | some t => regVal reg t.destination ks (acc + t.output)
        | none => none
    | none =>
      match d.state.transitions.find? (fun t => t.label = c) with
      | some t => regVal reg t.destination ks (acc + t.output)
      | none => none

/-- The value a key takes in the builder's logical transducer: the walk
starts at the dangling root and moves through the dangling path and the
registry, summing arc outputs and the reached state's final output. -/
def bval (b : Builder O) (key : List Nat) : Option O :=
  dangVal b.registry b.dangling key 0

end BuilderDefs

section BuilderInvariantDefs

variable {O : Type} [AddCommGroup O] [DecidableEq O]

/-- Effect of `DanglingPath::finalize_last` on the dangling stack alone:
affix the registered index, when there is one, to the pending arc of the
deepest state. -/
def affixTop (D : List (DanglingState O)) : Option Nat → List (DanglingState O)
  | none => D
  | some i =>
    match D.getLast? with
    | none => D
    | some d => D.dropLast ++ [d.affix_last i]

/-- Sum of the dangling-arc outputs of the first `n` states of a stack
(states without a pending arc contribute zero). -/
def arcOuts : List (DanglingState O) → Nat → O
  | _, 0 => 0
  | [], _ + 1 => 0
  | d :: rest, n + 1 =>
    (match d.last_arc with
     | some a => a.output
     | none => 0) + arcOuts rest n

/-- Length of the longest common prefix of two byte strings. -/
def lcpLen : List Nat → List Nat → Nat
  | c :: ks, d :: ps => if c = d then lcpLen ks ps + 1 else 0
  | _, _ => 0

/-- Closure of a state's transition destinations in a registry: every
destination is an index the registry knows. -/
def regClosed (reg : List (BState O × Nat)) (s : BState O) : Prop :=
  ∀ t ∈ s.transitions, (reg.find? (fun x => x.2 = t.destination)).isSome = true

/-- Shape of a dangling stack that spells the byte string `p`: one state
per byte plus the root, the pending arc at depth `j` labelled `p[j]` and
strictly above every frozen label of that state, and a deepest state with
no pending arc and no frozen transitions. -/
def Spells (D : List (DanglingState O)) (p : List Nat) : Prop :=
  D.length = p.length + 1
  ∧ (∀ j, j < p.length → ∃ a,
      (D.getD j DanglingState.base).last_arc = some a
      ∧ a.label = p.getD j 0
      ∧ ∀ t ∈ (D.getD j DanglingState.base).state.transitions, t.label < a.label)
  ∧ ∃ dl, D.getLast? = some dl ∧ dl.last_arc = none ∧ dl.state.transitions = []

/-- Well-formedness of a reachable builder: registry indices are assigned
densely in insertion order, the usable index is the next one, transition
destinations stay inside the registry, and the dangling stack spells the
previous key. -/
def BWF (b : Builder O) : Prop :=
  b.registry.map (fun e => e.2) = List.range b.registry.length
  ∧ b.usable_index = b.registry.length
  ∧ (∀ e ∈ b.registry, regClosed b.registry e.1)
  ∧ (∀ d ∈ b.dangling, regClosed b.registry d.state)
  ∧ (match b.previous_key with
     | none => b.dangling = [DanglingState.base]
     | some p => Spells b.dangling p)

/-- Output multiset of a frozen builder state: the outputs of its arcs,
plus the final output when the state is terminal. -/
def stateOuts (s : BState O) : List O :=
  s.transitions.map (fun t => t.output)
    ++ (if s.terminal then [s.final_output] else [])

/-- Output multiset of a dangling builder state: the frozen outputs plus
the pending arc's output when there is one. -/
def mOuts (d : DanglingState O) : List O :=
  stateOuts d.state
    ++ (match d.last_arc with
        | some a => [a.output]
        | none => [])

/-- Sign mixture of an integer output list: some element is non-positive
and some element is non-negative. -/
def PZ (l : List Int) : Prop :=
  (∃ x ∈ l, x ≤ 0) ∧ (∃ x ∈ l, 0 ≤ x)

/-- Fold of the signed longest-common-prefix operation over an output
list (zero on the empty list). -/
def lcpFold : List Int → Int
  | [] => 0
  | x :: xs => xs.foldl signedLcp x

end BuilderInvariantDefs

/-! The segment free-list of `src/segment.rs`. -/

/-- `IndexLink`: one unit of the circular doubly linked free list. -/
structure IndexLink where
  previous : Nat
  next : Nat
  fixed : Bool
deriving DecidableEq

/-- `IndexLink::default()`. -/
def IndexLink.base : IndexLink := { previous := 0, next := 0, fixed := false }

/-- `IndexLink::from_pair`. -/
def IndexLink.from_pair (previous next : Nat) : IndexLink :=
  { previous := previous, next := next, fixed := false }

/-- `IndexSegments`: the free-list over double-array cells. -/
structure IndexSegments where
  vacancy : Option Nat
  links : List IndexLink
  block_size : Nat
deriving DecidableEq

/-- `IndexSegments::default()`: empty links, no vacancy, block size 256. -/
def IndexSegments.base : IndexSegments :=
  { vacancy := none, links := [], block_size := 256 }

/-- `IndexSegments::admits_symbol`: the cell `base + 1 + symbol` exists and
is unfixed. -/
def IndexSegments.admits_symbol (s : IndexSegments) (base symbol : Nat) : Bool :=
  match s.links.get? (base + 1 + symbol) with
  | some l => !l.fixed
  | none => false

/-- `IndexSegments::admits`: the base accommodates every symbol. -/
def IndexSegments.admits (s : IndexSegments) (base : Nat) (symbols : List Nat) : Bool :=
  symbols.all (s.admits_symbol base)

/-- The walk of `IndexSegments::usher`, starting from the vacancy `v`:
return the first visited cell admitting all symbols, or none upon
returning to `v`.  The fuel bounds the walk; `links.length + 1` always
suffices for a well-formed free list, which visits each free cell once. -/
def usherLoop (s : IndexSegments) (v : Nat) (symbols : List Nat) :
    Nat → Nat → Option Nat
  | 0, _ => none
  | fuel + 1, base =>
    if s.admits base symbols then some base
    else
      let nb := (s.links.getD base IndexLink.base).next
      if nb = v then none else usherLoop s v symbols fuel nb

/-- `IndexSegments::usher`: find the first index admitting all symbols. -/
def IndexSegments.usher (s : IndexSegments) (symbols : List Nat) : Option Nat :=
  s.vacancy.bind (fun v => usherLoop s v symbols (s.links.length + 1) v)

/-- `IndexSegments::abridge`: splice a cell out of the free list and adjust
the vacancy head. -/
def IndexSegments.abridge (s : IndexSegments) (i : Nat) : IndexSegments :=
  let prev := (s.links.getD i IndexLink.base).previous
  let next := (s.links.getD i IndexLink.base).next
  let links1 := s.links.set next { s.links.getD next IndexLink.base with previous := prev }
  let links2 := links1.set prev { links1.getD prev IndexLink.base with next := next }
  { s with
      links := links2,
      vacancy :=
        match s.vacancy with
        | some v => if v = i then (if i = next then none else some next) else some v
        | none => none }

/-- `IndexSegments::affix`: mark an index as fixed (the source asserts it
was not already fixed) after mending the links around it. -/
def IndexSegments.affix (s : IndexSegments) (i : Nat) : IndexSegments :=
  let s1 := s.abridge i
  { s1 with links := s1.links.set i { s1.links.getD i IndexLink.base with fixed := true } }

/-- `IndexSegments::settle`: usher the symbols to a base, then affix the
base and each transition cell.  The segments are returned unchanged when no
admissible base exists. -/
def IndexSegments.settle (s : IndexSegments) (symbols : List Nat) :
    Option Nat × IndexSegments :=
  match s.usher symbols with
  | none => (none, s)
  | some base =>
    let s1 := s.affix base
    let s2 := symbols.foldl (fun acc sym => acc.affix (base + 1 + sym)) s1
    (some base, s2)

/-- `IndexSegments::expand`: append one block of fresh cells, linked in
sequence, and splice the block in front of the current vacancy (or install
it as the whole list). -/
def IndexSegments.expand (s : IndexSegments) : IndexSegments :=
  let start := s.links.length
  let stop := start + s.block_size
  let extension := (List.range' start s.block_size).map
    (fun i => IndexLink.from_pair (i - 1) (i + 1))
  let links := s.links ++ extension
  match s.vacancy with
  | some i =>
    let empty_tail := (links.getD i IndexLink.base).previous
    let l1 := links.set start { links.getD start IndexLink.base with previous := empty_tail }
    let l2 := l1.set empty_tail { l1.getD empty_tail IndexLink.base with next := start }
    let l3 := l2.set i { l2.getD i IndexLink.base with previous := stop - 1 }
    let l4 := l3.set (stop - 1) { l3.getD (stop - 1) IndexLink.base with next := i }
    { s with links := l4 }
  | none =>
    let l1 := links.set start { links.getD start IndexLink.base with previous := stop - 1 }
    let l2 := l1.set (stop - 1) { l1.getD (stop - 1) IndexLink.base with next := start }
    { s with links := l2, vacancy := some start }

/-- Modelled from the spec: `IndexSegments::settle_index`, used by the
packer to settle the root at cell 0, is absent from `src/segment.rs`.
Following §4.3 step 2 (reserve the root's cell and settle the root's
outgoing labels there), it fixes the given index and its transition cells
when the index is itself free and admits every symbol, and otherwise
leaves the segments unchanged. -/
def IndexSegments.settle_index (s : IndexSegments) (symbols : List Nat) (i : Nat) :
    Option Nat × IndexSegments :=
  match s.links.get? i with
  | some l =>
    if !l.fixed && s.admits i symbols then
      let s1 := s.affix i
      let s2 := symbols.foldl (fun acc sym => acc.affix (i + 1 + sym)) s1
      (some i, s2)
    else (none, s)
  | none => (none, s)

/-- `IndexSegments::unfixed_count`. -/
def IndexSegments.unfixed_count (s : IndexSegments) : Nat :=
  (s.links.filter (fun l => !l.fixed)).length

/-- The still-available cell indices of a free list, in ascending order. -/
def freeCells (s : IndexSegments) : List Nat :=
  (List.range s.links.length).filter (fun i => !(s.links.getD i IndexLink.base).fixed)

/-- The successor pointer of a cell. -/
def nextOf (s : IndexSegments) (i : Nat) : Nat :=
  (s.links.getD i IndexLink.base).next

/-- Well-formedness of a free-list state: the vacancy is the least free
cell and the successor pointers chain the free cells cyclically in
ascending order.  Every state reachable through `expand`, `settle` and
`settle_index` satisfies this. -/
def SegWF (s : IndexSegments) : Prop :=
  s.vacancy = (freeCells s).head?
  ∧ ∀ k, k < (freeCells s).length →
      nextOf s ((freeCells s).getD k 0) =
        (freeCells s).getD ((k + 1) % (freeCells s).length) 0

instance (s : IndexSegments) : Decidable (SegWF s) := by
  unfold SegWF; infer_instance

/-- The specification target of `settle`: index `i` is still available as
a state base, and for every symbol the transition slot `i + 1 + ℓ` exists
and is still available. -/
def Settleable (s : IndexSegments) (symbols : List Nat) (i : Nat) : Prop :=
  i < s.links.length ∧ (s.links.getD i IndexLink.base).fixed = false
  ∧ ∀ l ∈ symbols, i + 1 + l < s.links.length
      ∧ (s.links.getD (i + 1 + l) IndexLink.base).fixed = false

instance (s : IndexSegments) (symbols : List Nat) (i : Nat) :
    Decidable (Settleable s symbols i) := by
  unfold Settleable; infer_instance

/-- A concrete well-formed four-cell free list, used to instantiate the
claim about `settle`. -/
def segWitness : IndexSegments :=
  { vacancy := some 0,
    links := [⟨3, 1, false⟩, ⟨0, 2, false⟩, ⟨1, 3, false⟩, ⟨2, 0, false⟩],
    block_size := 256 }

/-! The double-array FST of `src/fst/mod.rs` and the packer of
`src/fst/intermediate.rs`. -/

/-- `Terminal`: finality of a transition's destination state. -/
inductive Terminal where
  | Not
  | Empty
  | Inner
deriving DecidableEq

/-- `Terminal::is`. -/
def Terminal.is : Terminal → Bool
  | .Not => false
  | _ => true

/-- `Terminal::is_inner`. -/
def Terminal.is_inner : Terminal → Bool
  | .Inner => true
  | _ => false

/-- `Stipe`: the per-cell check label and terminality tag.  The default
value has `check = 0` (the `u8` default), as derived in the source. -/
structure Stipe where
  check : Nat
  terminal : Terminal
deriving DecidableEq

/-- `Stipe::default()`. -/
def Stipe.base : Stipe := { check := 0, terminal := .Not }

section FstDefs

variable {O : Type} [AddCommGroup O] [DecidableEq O]

/-- `FST<I, O>` with the `Dart` arrays inlined: the three parallel vectors
`stipe`, `next`, `output`, and the sparse `state_output` map embedded as an
association list (fresh bases are distinct, so insertion order is
irrelevant). -/
structure Fst (O : Type) where
  stipe : List Stipe
  next : List Nat
  output : List O
  state_output : List (Nat × O)
deriving DecidableEq

/-- `FST::default()`: empty arrays. -/
def Fst.base : Fst O := { stipe := [], next := [], output := [], state_output := [] }

/-- Lookup in the `state_output` map; an absent key panics in Rust
(`HashMap` indexing) and yields zero here, a branch unreachable on packed
FSTs (claim C10). -/
def soLookup (m : List (Nat × O)) (i : Nat) : O :=
  match m.find? (fun e => e.1 = i) with
  | some e => e.2
  | none => 0

/-- `FST::transition`: from base `state` on byte `input`, the cell
`state + 1 + input` is taken when its check matches, giving the pair of
`next[e]` and the stored terminality. -/
def Fst.transition (f : Fst O) (state input : Nat) : Option (Nat × Terminal) :=
  let e := state + 1 + input
  match f.stipe.get? e with
  | some st => if st.check = input then some (f.next.getD e 0, st.terminal) else none
  | none => none

/-- The loop of `FST::contains`, threading the traversal `State` pair
(index, terminal) whose initial value is `State::default()`. -/
def containsLoop (f : Fst O) : List Nat → Nat × Terminal → Bool
  | [], st => st.2.is
  | c :: ks, st =>
    match f.transition st.1 c with
    | some st' => containsLoop f ks st'
    | none => false

/-- `FST::contains`. -/
def Fst.contains (f : Fst O) (key : List Nat) : Bool :=
  containsLoop f key (0, Terminal.Not)

/-- The loop of `FST::get`: accumulate arc outputs along the key. -/
def getLoop (f : Fst O) : List Nat → Nat → Terminal → O → Option O
  | [], state, terminal, out =>
    match terminal with
    | .Not => none
    | .Empty => some out
    | .Inner => some (out + soLookup f.state_output state)
  | c :: ks, state, _, out =>
    let e := state + 1 + c
    match f.stipe.get? e with
    | some st =>
      if st.check = c then getLoop f ks (f.next.getD e 0) st.terminal (out + f.output.getD e 0)
      else none
    | none => none

/-- `FST::get`.  The unconditional `stipe[0]` read panics on an empty
array in Rust; the default here is unreachable on packed FSTs (claim
C10). -/
def Fst.get (f : Fst O) (key : List Nat) : Option O :=
  getLoop f key 0 (f.stipe.getD 0 Stipe.base).terminal 0

/-- One `next()` walk shared by `Reaper` and `RootlessReaper`: consume
query bytes from `state`, failing on a missing transition, and suspend
with a yielded pair upon entering a terminal state.  Returns the item and
the remaining (query, position, state, output). -/
def reapWalk (f : Fst O) : List Nat → Nat → Nat → O →
    Option ((Nat × O) × (List Nat × Nat × Nat × O))
  | [], _, _, _ => none
  | c :: ks, pos, state, out =>
    let e := state + 1 + c
    match f.stipe.get? e with
    | some st =>
      if st.check = c then
        let out' := out + f.output.getD e 0
        let st' := f.next.getD e 0
        match st.terminal with
        | .Not => reapWalk f ks (pos + 1) st' out'
        | .Empty => some ((pos + 1, out'), (ks, pos + 1, st', out'))
        | .Inner => some ((pos + 1, out' + soLookup f.state_output st'), (ks, pos + 1, st', out'))
      else none
    | none => none

/-- Iterator state of `Reaper<'a, 'q, I, O>`. -/
structure ReapSt (O : Type) where
  query : List Nat
  position : Nat
  root_output : Option (Nat × O)
  state : Nat
  output : O
deriving DecidableEq

/-- Iterator state of `RootlessReaper<'a, 'q, I, O>`. -/
structure RootlessSt (O : Type) where
  query : List Nat
  position : Nat
  state : Nat
  output : O
deriving DecidableEq

/-- `FST::reap`: the initial `Reaper`, whose `root_output` holds the
empty-prefix item when the root is final. -/
def Fst.reap (f : Fst O) (query : List Nat) : ReapSt O :=
  { query := query, position := 0,
    root_output :=
      match (f.stipe.getD 0 Stipe.base).terminal with
      | .Not => none
      | .Empty => some (0, 0)
      | .Inner => some (0, soLookup f.state_output 0),
    state := 0, output := 0 }

/-- `FST::reap_past_root`: the initial `RootlessReaper`. -/
def Fst.reap_past_root (_f : Fst O) (query : List Nat) : RootlessSt O :=
  { query := query, position := 0, state := 0, output := 0 }

/-- `Reaper::next`: take the pending root item first, then walk. -/
def reapNext (f : Fst O) (s : ReapSt O) : Option ((Nat × O) × ReapSt O) :=
  match s.root_output with
  | some it => some (it, { s with root_output := none })
  | none =>
    match reapWalk f s.query s.position s.state s.output with
    | some (it, (q, p, st, out)) =>
        some (it, { query := q, position := p, root_output := none, state := st, output := out })
    | none => none

/-- `RootlessReaper::next`. -/
def rootlessNext (f : Fst O) (s : RootlessSt O) : Option ((Nat × O) × RootlessSt O) :=
  match reapWalk f s.query s.position s.state s.output with
  | some (it, (q, p, st, out)) =>
      some (it, { query := q, position := p, state := st, output := out })
  | none => none

/-- The sequence an iterator produces: collect items until the first
`none`, with fuel bounding the count (a query of length `n` yields at most
`n + 1` items, so `n + 2` fuel is always enough). -/
def reapSeqAux (f : Fst O) : Nat → ReapSt O → List (Nat × O)
  | 0, _ => []
  | fuel + 1, s =>
    match reapNext f s with
    | some (it, s') => it :: reapSeqAux f fuel s'
    | none => []

/-- Sequence of `FST::reap`. -/
def Fst.reapSeq (f : Fst O) (query : List Nat) : List (Nat × O) :=
  reapSeqAux f (query.length + 2) (f.reap query)

/-- Collect the rootless iterator's items until the first `none`. -/
def rootlessSeqAux (f : Fst O) : Nat → RootlessSt O → List (Nat × O)
  | 0, _ => []
  | fuel + 1, s =>
    match rootlessNext f s with
    | some (it, s') => it :: rootlessSeqAux f fuel s'
    | none => []

/-- Sequence of `FST::reap_past_root`. -/
def Fst.rootlessSeq (f : Fst O) (query : List Nat) : List (Nat × O) :=
  rootlessSeqAux f (query.length + 2) (f.reap_past_root query)

/-- `Intermediary<I, O>`: the packer's working state.  Its `registry`
(indexed by builder-state id) maps to the assigned double-array base. -/
structure Intermediary (O : Type) where
  stack : List Nat
  registry : List (Option Nat)
  segments : IndexSegments
  fst : Fst O
deriving DecidableEq

/-- `FST::len` (both asserts hold on packed FSTs, claim C10). -/
def Fst.len (f : Fst O) : Nat := f.stipe.length

/-- `FST::resize` to a given length with default cells. -/
def Fst.resize (f : Fst O) (length : Nat) : Fst O :=
  { f with
      stipe := f.stipe ++ List.replicate (length - f.stipe.length) Stipe.base,
      next := f.next ++ List.replicate (length - f.next.length) 0,
      output := f.output ++ List.replicate (length - f.output.length) (0 : O) }

/-- `Intermediary::expand`: grow the arrays by one block and extend the
free list in step. -/
def Intermediary.expand (m : Intermediary O) : Intermediary O :=
  let old := m.fst.len
  { m with fst := m.fst.resize (old + m.segments.block_size), segments := m.segments.expand }

/-- `Intermediary::first_available`: settle, expanding once upon failure.
The final `unwrap` can panic in Rust; that is the `none` case here. -/
def Intermediary.first_available (m : Intermediary O) (symbols : List Nat) :
    Option (Nat × Intermediary O) :=
  match m.segments.settle symbols with
  | (some base, segs) => some (base, { m with segments := segs })
  | (none, _) =>
    let m1 := m.expand
    match m1.segments.settle symbols with
    | (some base, segs) => some (base, { m1 with segments := segs })
    | (none, _) => none

/-- `Intermediary::settle`: find a base for the state's labels and check
it against the index bound.  The outer `none` is the unwrap panic. -/
def Intermediary.settleSt (m : Intermediary O) (ib : Nat) (st : BState O) :
    Option (Except Error (Nat × Intermediary O)) :=
  let inputs := st.transitions.map (fun t => t.label)
  match m.first_available inputs with
  | none => none
  | some (base, m1) =>
    if base > ib then some (.error (.OutOfBounds base ib))
    else some (.ok (base, m1))

/-- `classify` of the packer: the terminality tag of a destination state. -/
def classifyState (s : BState O) : Terminal :=
  if s.terminal then (if s.final_output = 0 then .Empty else .Inner) else .Not

/-- The output and stipe writes of one arc of the packer's depth-first
loop. -/
def arcWrite (m1 : Intermediary O) (e : Nat) (tr : Transition O) (terminal : Terminal) :
    Intermediary O :=
  { m1 with fst := { m1.fst with
      output := m1.fst.output.set e tr.output,
      stipe := m1.fst.stipe.set e { check := tr.label, terminal := terminal } } }

/-- The next-cell write of one arc whose destination already has a base. -/
def setNextCell (m : Intermediary O) (e i : Nat) : Intermediary O :=
  { m with fst := { m.fst with next := m.fst.next.set e i } }

/-- First visit of a destination state: record its fresh base, push it for
traversal, write the next cell, and record its tail output when the arc is
tagged `Inner`. -/
def freshDest (m3 : Intermediary O) (e t nxt : Nat) (terminal : Terminal) (fo : O) :
    Intermediary O :=
  { m3 with
      registry := m3.registry.set t (some nxt),
      stack := t :: m3.stack,
      fst := { m3.fst with
          next := m3.fst.next.set e nxt,
          state_output :=
            if terminal.is_inner then m3.fst.state_output ++ [(nxt, fo)]
            else m3.fst.state_output } }

/-- One arc write of the packer's depth-first loop: place the transition's
cell, settling the destination state on first visit (recording its tail
output when `Inner`) and pushing it for traversal.  The outer `none` is a
Rust panic (`unwrap` of the source base or a missing `states` entry is
unreachable). -/
def transStep (states : List (BState O)) (ib : Nat) (s_i : Nat) (m : Intermediary O)
    (tr : Transition O) : Option (Except Error (Intermediary O)) :=
  let t := tr.destination
  let tstate := states.getD t BState.empty
  let terminal := classifyState tstate
  match m.registry.getD s_i none with
  | none => none
  | some base =>
    let e := base + 1 + tr.label
    let m1 := if e ≥ m.fst.len then m.expand else m
    let m2 := arcWrite m1 e tr terminal
    match m2.registry.getD t none with
    | some i => some (.ok (setNextCell m2 e i))
    | none =>
      match m2.settleSt ib tstate with
      | none => none
      | some (.error err) => some (.error err)
      | some (.ok (nb, m3)) =>
        some (.ok (freshDest m3 e t (asIndex ib nb) terminal tstate.final_output))

/-- The arc loop of the packer over one state's transitions. -/
def transFold (states : List (BState O)) (ib : Nat) (s_i : Nat) :
    Intermediary O → List (Transition O) → Option (Except Error (Intermediary O))
  | m, [] => some (.ok m)
  | m, tr :: trs =>
    match transStep states ib s_i m tr with
    | none => none
    | some (.error e) => some (.error e)
    | some (.ok m') => transFold states ib s_i m' trs

/-- The depth-first stack loop of `Intermediary::from_builder`.  Fuel
bounds the pops; every builder state is pushed at most once, so
`states.length + 1` suffices. -/
def dfsLoop (states : List (BState O)) (ib : Nat) :
    Nat → Intermediary O → Option (Except Error (Intermediary O))
  | 0, _ => none
  | fuel + 1, m =>
    match m.stack with
    | [] => some (.ok m)
    | s_i :: stk =>
      match transFold states ib s_i { m with stack := stk } (states.getD s_i BState.empty).transitions with
      | none => none
      | some (.error e) => some (.error e)
      | some (.ok m') => dfsLoop states ib fuel m'

/-- The `states` array of the packer: one builder state per registry
index, materialized from the registry map. -/
def materializeStates (b : Builder O) : List (BState O) :=
  b.registry.foldl (fun acc e => acc.set e.2 e.1) (List.replicate b.registry.length BState.empty)

/-- The root bookkeeping of the packer: store the root's base in cell 0,
record its terminality in `stipe[0]` (and its tail output in the
state-output map when final with nonzero output), assign the base in the
packer registry and seed the traversal stack with the root. -/
def rootSetup (rootState : BState O) (root_idx : Nat) (m3 : Intermediary O)
    (root_next : Nat) : Intermediary O :=
  let f1 := { m3.fst with next := m3.fst.next.set 0 root_next }
  let f2 :=
    if rootState.terminal then
      if rootState.final_output = 0 then
        { f1 with stipe := f1.stipe.set 0 { f1.stipe.getD 0 Stipe.base with terminal := .Empty } }
      else
        { f1 with
            stipe := f1.stipe.set 0 { f1.stipe.getD 0 Stipe.base with terminal := .Inner },
            state_output := f1.state_output ++ [(0, rootState.final_output)] }
    else
      { f1 with stipe := f1.stipe.set 0 { f1.stipe.getD 0 Stipe.base with terminal := .Not } }
  { m3 with
      fst := f2,
      registry := m3.registry.set root_idx (some root_next),
      stack := [root_idx] }

/-- `Intermediary::from_builder` followed by `into_dart`, i.e.
`FST::from_builder`: expand, settle the root at cell zero, record the
root's terminality and tail output, then traverse depth-first writing
every arc.  The outer `none` is an unreachable Rust panic (an `unwrap`
failing or fuel exhausting). -/
def fromBuilderR (b : Builder O) : Option (Except Error (Fst O)) :=
  let states := materializeStates b
  let m0 : Intermediary O :=
    { stack := [], registry := List.replicate b.registry.length none,
      segments := IndexSegments.base, fst := Fst.base }
  let m1 := m0.expand
  let root_idx := b.root
  let rootState := states.getD root_idx BState.empty
  let m2 := m1.expand
  match m2.segments.settle_index (rootState.transitions.map (fun t => t.label)) 0 with
  | (none, _) => none
  | (some base, segs) =>
    let root_next := asIndex b.ibound base
    let m3 := { m2 with segments := segs }
    let m4 := rootSetup rootState root_idx m3 root_next
    match dfsLoop states b.ibound (states.length + 1) m4 with
    | none => none
    | some (.error e) => some (.error e)
    | some (.ok m5) => some (.ok m5.fst)

/-- Invariant of the packer's working state (relative to the materialized
`states` array): the three double-array vectors stay in step, with a
positive length that is a multiple of the block size 256, and the
state-output map holds an entry for the destination of every cell tagged
`Inner`, for every base assigned to an `Inner`-classified builder state,
and for the root when it is tagged `Inner`. -/
def PInv (states : List (BState O)) (m : Intermediary O) : Prop :=
  m.fst.next.length = m.fst.stipe.length
  ∧ m.fst.output.length = m.fst.stipe.length
  ∧ 0 < m.fst.stipe.length
  ∧ (∃ k, m.fst.stipe.length = 256 * k)
  ∧ m.segments.block_size = 256
  ∧ (∀ e st, m.fst.stipe.get? e = some st → st.terminal = Terminal.Inner →
      (m.fst.state_output.find? (fun p => p.1 = m.fst.next.getD e 0)).isSome = true)
  ∧ (∀ bi base, m.registry.getD bi none = some base →
      classifyState (states.getD bi BState.empty) = Terminal.Inner →
      (m.fst.state_output.find? (fun p => p.1 = base)).isSome = true)
  ∧ ((m.fst.stipe.getD 0 Stipe.base).terminal = Terminal.Inner →
      (m.fst.state_output.find? (fun p => p.1 = 0)).isSome = true)

end FstDefs

/-! Concrete instances used by several claims: small FSTs produced by the
whole pipeline at `O = Int`, `pf = signedLcp`, with the `usize`-like index
bound `100000`. -/

/-- The finished builder for the single pair `("a", 1)` (byte 97). -/
def exampleBuilderA : Builder Int := (fromIter signedLcp 100000 [([97], 1)]).1

/-- The packed FST for the single pair `("a", 1)`. -/
def exampleFstA : Fst Int :=
  match fromBuilderR exampleBuilderA with
  | some (.ok f) => f
  | _ => Fst.base

/-- The finished builder for the single pair `("", 3)` (the empty key). -/
def exampleBuilderE : Builder Int := (fromIter signedLcp 100000 [([], 3)]).1

/-- The packed FST for the single pair `("", 3)`. -/
def exampleFstE : Fst Int :=
  match fromBuilderR exampleBuilderE with
  | some (.ok f) => f
  | _ => Fst.base

/-- The finished builder for `("ab", 1), ("ac", 2), ("ad", 3)`
(bytes 97, 98, 99, 100). -/
def exampleBuilderB : Builder Int :=
  (fromIter signedLcp 100000 [([97, 98], 1), ([97, 99], 2), ([97, 100], 3)]).1

/-!
Theorems.
-/

/-- C1.  The round-trip claim fails on the code: building from the single
pair `([97], 1)` succeeds in both stages and `get` returns the original
value on the inserted key, but `get [0, 97]` also returns `some 1` even
though `[0, 97]` was never inserted — the unwritten cell at position 1
keeps the default check byte 0, which matches a genuine label-0 query
byte, giving a spurious transition back to the root.  The claim requires
`none` for every byte string other than `[97]`. -/
theorem get_returns_value_on_noninserted_key :
    (fromIter signedLcp 100000 [([97], (1 : Int))]).2 = none
    ∧ fromBuilderR exampleBuilderA = some (Except.ok exampleFstA)
    ∧ exampleFstA.get [97] = some 1
    ∧ exampleFstA.get [0, 97] = some 1
    ∧ ([0, 97] : List Nat) ≠ [97] := by
  refine ⟨by decide, rfl, by decide, by decide, by decide⟩

/-- C2.  The set-semantics claim fails on the code at the empty string:
building from the single pair `([], 3)` succeeds, `get []` returns the
stored value, yet `contains []` is `false` — `contains` starts from
`State::default()`, whose terminality tag is `Not`, and never consults
`stipe[0]`, so the inserted empty key is reported absent. -/
theorem contains_false_on_inserted_empty_key :
    (fromIter signedLcp 100000 [([], (3 : Int))]).2 = none
    ∧ fromBuilderR exampleBuilderE = some (Except.ok exampleFstE)
    ∧ exampleFstE.get [] = some 3
    ∧ exampleFstE.contains [] = false := by
  refine ⟨by decide, rfl, by decide, by decide⟩

/-- C4.  The prefix-enumeration claim fails on the code: on the FST built
from the single pair `([97], 1)`, the iterator for the query `[0, 97]`
yields `(2, 1)` even though no prefix of `[0, 97]` (that is, none of `[]`,
`[0]`, `[0, 97]`) is an inserted key — the default check byte 0 of the
unwritten cell at position 1 lets the walk take a spurious label-0
transition back to the root and then reach the final state of `[97]`.
The claim requires the empty yield sequence here. -/
theorem reap_yields_nonprefix_item :
    fromBuilderR exampleBuilderA = some (Except.ok exampleFstA)
    ∧ exampleFstA.reapSeq [0, 97] = [(2, 1)]
    ∧ exampleFstA.contains [] = false
    ∧ exampleFstA.contains [0] = false
    ∧ exampleFstA.contains [0, 97] = true
    ∧ exampleFstA.get [0, 97] ≠ none := by
  refine ⟨rfl, by decide, by decide, by decide, by decide, by decide⟩

/-- C6 (counterexample).  After finishing the builder for
`("ab", 1), ("ac", 2), ("ad", 3)`, the registry holds, at index 1 —
distinct from the root index 2 — the branching state whose outgoing arcs
are `98 ↦ 0`, `99 ↦ 1`, `100 ↦ 2`; its arcs on 99 and 100 have
`prefix (1, 2) = 1 ≠ 0`, so two outgoing arcs of a non-root registered
state need not have a zero longest common prefix. -/
theorem nonroot_state_with_nonzero_pairwise_lcp :
    (fromIter signedLcp 100000 [([97, 98], (1 : Int)), ([97, 99], 2), ([97, 100], 3)]).2 = none
    ∧ exampleBuilderB.root = 2
    ∧ (({ terminal := false, final_output := 0,
          transitions := [⟨98, 0, 0⟩, ⟨99, 1, 0⟩, ⟨100, 2, 0⟩] } : BState Int), 1)
        ∈ exampleBuilderB.registry
    ∧ signedLcp 1 2 ≠ 0 := by
  refine ⟨by decide, by decide, by decide, by decide⟩

section ErrorClaims

variable {O : Type} [AddCommGroup O] [DecidableEq O] (pf : O → O → O)

/-- Errors produced by `Builder::register` are `OutOfBounds`. -/
theorem registerR_error_shape (b : Builder O) (s : BState O) (e : Error)
    (h : (registerR b s).2 = Except.error e) : ∃ r m, e = Error.OutOfBounds r m := by
  simp only [registerR] at h
  split at h
  · simp at h
  · split at h
    · simp only at h
      exact ⟨_, _, ((Except.error.injEq _ _).mp h).symm⟩
    · simp at h

/-- Errors produced by the freeze loop of `finalize_subpath` are
`OutOfBounds`. -/
theorem fsLoop_error_shape (ps : Nat) :
    ∀ (fuel : Nat) (b : Builder O) (idx : Option Nat) (e : Error),
      (fsLoop ps fuel b idx).2 = some e → ∃ r m, e = Error.OutOfBounds r m := by
  intro fuel
  induction fuel with
  | zero => intro b idx e h; simp [fsLoop] at h
  | succ n ih =>
    intro b idx e h
    unfold fsLoop at h
    split at h
    · rcases hl : b.dangling.getLast? with _ | d
      · rw [hl] at h; simp at h
      · rw [hl] at h
        simp only at h
        rcases hr : registerR { b with dangling := b.dangling.dropLast }
            (match idx with | some i => d.affix_last i | none => d).state with ⟨b2, r⟩
        rcases r with e' | i'
        · rw [hr] at h
          simp only at h
          have he : e' = e := (Option.some.injEq _ _).mp h
          subst he
          exact registerR_error_shape _ _ _ (by rw [hr])
        · rw [hr] at h
          exact ih _ _ _ h
    · simp at h

/-- Errors produced by the body of `insert` past validation are
`OutOfBounds`. -/
theorem insertBody_error_shape (b : Builder O) (k : List Nat) (v : O) (e : Error)
    (h : (insertBody pf b k v).2 = some e) : ∃ r m, e = Error.OutOfBounds r m := by
  simp only [insertBody] at h
  split at h
  · simp at h
  · split at h
    · rename_i b2 e' heq
      simp only at h
      have he : e' = e := (Option.some.injEq _ _).mp h
      subst he
      have h2 := congrArg Prod.snd heq
      simp only [finalizeSubpath] at h2
      exact fsLoop_error_shape _ _ _ _ _ h2
    · simp at h

/-- C7.  Input validation of `insert` with its atomicity: with stored
previous key `p`, inserting `k` fails with `Duplicate k` exactly when
`k = p` and with `OutOfOrder k p` exactly when `k` is lexicographically
smaller than `p`; in either error case the returned builder is exactly the
builder passed in, every component unchanged.  (Validation happens before
any mutation; a greater key can only fail with `OutOfBounds`.) -/
theorem insert_validation_and_atomicity (b : Builder O) (k p : List Nat) (v : O)
    (hp : b.previous_key = some p) :
    ((insertR pf b k v).2 = some (Error.Duplicate k) ↔ k = p)
    ∧ ((insertR pf b k v).2 = some (Error.OutOfOrder k p) ↔ (k ≠ p ∧ lexLt k p = true))
    ∧ ((k = p ∨ lexLt k p = true) → (insertR pf b k v).1 = b) := by
  simp only [insertR, hp]
  by_cases hkp : k = p
  · subst hkp
    rw [if_pos rfl]
    refine ⟨by simp, by simp, fun _ => rfl⟩
  · rw [if_neg hkp]
    by_cases hlt : lexLt k p = true
    · rw [if_pos hlt]
      refine ⟨by simp [hkp], by simp [hkp, hlt], fun _ => rfl⟩
    · rw [if_neg hlt]
      refine ⟨⟨fun h => ?_, fun h => absurd h hkp⟩,
        ⟨fun h => ?_, fun h => absurd h.2 hlt⟩, fun h => ?_⟩
      · rcases insertBody_error_shape pf _ _ _ _ h with ⟨r, m, he⟩
        simp at he
      · rcases insertBody_error_shape pf _ _ _ _ h with ⟨r, m, he⟩
        simp at he
      · rcases h with h | h
        · exact absurd h hkp
        · exact absurd h hlt

/-- Witness for C7: after inserting `[97] ↦ 1`, re-inserting `[97]` is a
`Duplicate`, inserting `[96]` is an `OutOfOrder`, and both leave the
builder untouched. -/
theorem insert_validation_and_atomicity_witness :
    ((insertR signedLcp ((insertAll signedLcp (newBuilder 100) [([97], (1 : Int))]).1)
        [97] 5).2 = some (Error.Duplicate [97]) ↔ ([97] : List Nat) = [97])
    ∧ ((insertR signedLcp ((insertAll signedLcp (newBuilder 100) [([97], (1 : Int))]).1)
        [97] 5).2 = some (Error.OutOfOrder [97] [97]) ↔ (([97] : List Nat) ≠ [97] ∧ lexLt [97] [97] = true)) := by
  have h := insert_validation_and_atomicity (O := Int) signedLcp
    ((insertAll signedLcp (newBuilder 100) [([97], (1 : Int))]).1) [97] [97] 5 (by decide)
  exact ⟨h.1, h.2.1⟩

/-- C8.  `Builder::register` fails with `OutOfBounds` exactly when the
state is fresh and either the index it would take or the new cumulative
transition count exceeds the index bound; the error's `maximum` field is
the bound (`I::max_value()` as usize) and its `reached` field is the
larger of the two counts, which then necessarily exceeds the bound.  In
particular, registration never fails while both counts are within
bounds. -/
theorem register_out_of_bounds_exact (b : Builder O) (s : BState O) (e : Error) :
    (registerR b s).2 = Except.error e ↔
      (b.registry.find? (fun p => p.1 = s) = none
        ∧ (b.ibound < b.usable_index ∨ b.ibound < b.transition_count + s.transitions.length)
        ∧ e = Error.OutOfBounds (max b.usable_index (b.transition_count + s.transitions.length))
              b.ibound
        ∧ b.ibound < max b.usable_index (b.transition_count + s.transitions.length)) := by
  simp only [registerR]
  split
  · rename_i q heq
    simp only
    constructor
    · intro he; simp at he
    · intro hc
      rw [heq] at hc
      simp at hc
  · rename_i heq
    split
    · rename_i hb
      simp only [Except.error.injEq]
      constructor
      · intro he
        exact ⟨heq, hb, he.symm, by rcases hb with h | h <;> omega⟩
      · intro hc
        exact hc.2.2.1.symm
    · rename_i hb
      simp only
      constructor
      · intro he; simp at he
      · intro hc
        exact absurd hc.2.1 hb

end ErrorClaims

section IteratorClaims

variable {O : Type} [AddCommGroup O] [DecidableEq O]

/-- Every yielded item of the shared walk consumes at least one query
byte. -/
theorem reapWalk_consumes (f : Fst O) :
    ∀ (q : List Nat) (pos st : Nat) (out : O) (it : Nat × O)
      (q' : List Nat) (p' s' : Nat) (o' : O),
      reapWalk f q pos st out = some (it, (q', p', s', o')) → q'.length < q.length := by
  intro q
  induction q with
  | nil => intro pos st out it q' p' s' o' h; simp [reapWalk] at h
  | cons c ks ih =>
    intro pos st out it q' p' s' o' h
    simp only [reapWalk] at h
    rcases hs : f.stipe.get? (st + 1 + c) with _ | stp
    · rw [hs] at h; simp at h
    · rw [hs] at h
      simp only at h
      by_cases hc : stp.check = c
      · rw [if_pos hc] at h
        rcases ht : stp.terminal with _ | _ | _ <;> rw [ht] at h
        · exact Nat.lt_trans (ih _ _ _ _ _ _ _ _ h) (Nat.lt_succ_self _)
        · simp only [Option.some.injEq, Prod.mk.injEq] at h
          rcases h with ⟨-, h1, -⟩
          rw [← h1]
          exact Nat.lt_succ_self _
        · simp only [Option.some.injEq, Prod.mk.injEq] at h
          rcases h with ⟨-, h1, -⟩
          rw [← h1]
          exact Nat.lt_succ_self _
      · rw [if_neg hc] at h; simp at h

/-- The rootless sequence does not depend on the fuel once the fuel
exceeds the remaining query length. -/
theorem rootlessSeqAux_fuel_irrelevant (f : Fst O) :
    ∀ (fuel fuel' : Nat) (s : RootlessSt O),
      s.query.length < fuel → s.query.length < fuel' →
      rootlessSeqAux f fuel s = rootlessSeqAux f fuel' s := by
  intro fuel
  induction fuel with
  | zero => intro fuel' s h _; omega
  | succ n ih =>
    intro fuel' s h h'
    rcases fuel' with _ | m
    · omega
    · simp only [rootlessSeqAux]
      rcases hn : rootlessNext f s with _ | ⟨it, s'⟩
      · rfl
      · simp only
        have hlt : s'.query.length < s.query.length := by
          unfold rootlessNext at hn
          rcases hw : reapWalk f s.query s.position s.state s.output with _ | ⟨it2, q', p', st', o'⟩
          · rw [hw] at hn; simp at hn
          · rw [hw] at hn
            simp only [Option.some.injEq, Prod.mk.injEq] at hn
            have := reapWalk_consumes f _ _ _ _ _ _ _ _ _ hw
            rcases hn with ⟨-, hs'⟩
            rw [← hs']
            exact this
        rw [ih m s' (by omega) (by omega)]

/-- After its pending root item is gone, the `Reaper` behaves exactly as
the `RootlessReaper` on the same components. -/
theorem reapSeqAux_none_eq_rootless (f : Fst O) :
    ∀ (fuel : Nat) (q : List Nat) (pos st : Nat) (out : O),
      reapSeqAux f fuel ⟨q, pos, none, st, out⟩ =
        rootlessSeqAux f fuel ⟨q, pos, st, out⟩ := by
  intro fuel
  induction fuel with
  | zero => intro q pos st out; rfl
  | succ n ih =>
    intro q pos st out
    simp only [reapSeqAux, rootlessSeqAux, reapNext, rootlessNext]
    rcases hw : reapWalk f q pos st out with _ | ⟨it, q', p', s', o'⟩
    · rfl
    · simp only
      rw [ih]

/-- A pending root item is emitted first, consuming no fuel but itself. -/
theorem reapSeqAux_root_step (f : Fst O) (n : Nat) (q : List Nat) (pos st : Nat)
    (out : O) (it : Nat × O) :
    reapSeqAux f (n + 1) ⟨q, pos, some it, st, out⟩ =
      it :: reapSeqAux f n ⟨q, pos, none, st, out⟩ := rfl

/-- C5.  For every FST and query, the sequence of `reap` is the sequence
of `reap_past_root` with the empty-prefix item prepended exactly when the
root is final (that is, when the empty string is a key), and the two
sequences are identical otherwise: the pending root item is emitted first
without consuming anything, after which the two iterators run the same
walk from the same state. -/
theorem reap_eq_rootless_with_root_item (f : Fst O) (q : List Nat) :
    f.reapSeq q =
      (match (f.stipe.getD 0 Stipe.base).terminal with
        | .Not => []
        | .Empty => [(0, (0 : O))]
        | .Inner => [(0, soLookup f.state_output 0)]) ++ f.rootlessSeq q := by
  simp only [Fst.reapSeq, Fst.rootlessSeq, Fst.reap, Fst.reap_past_root]
  rcases ht : (f.stipe.getD 0 Stipe.base).terminal with _ | _ | _ <;> simp only [ht]
  · simp only [List.nil_append]
    exact reapSeqAux_none_eq_rootless f _ _ _ _ _
  · rw [reapSeqAux_root_step f (q.length + 1) q 0 0 0 (0, 0)]
    rw [reapSeqAux_none_eq_rootless f (q.length + 1) q 0 0 0]
    simp only [List.cons_append, List.nil_append]
    rw [rootlessSeqAux_fuel_irrelevant f (q.length + 1) (q.length + 2)
      ⟨q, 0, 0, 0⟩ (by show q.length < q.length + 1; omega)
      (by show q.length < q.length + 2; omega)]
  · rw [reapSeqAux_root_step f (q.length + 1) q 0 0 0 (0, soLookup f.state_output 0)]
    rw [reapSeqAux_none_eq_rootless f (q.length + 1) q 0 0 0]
    simp only [List.cons_append, List.nil_append]
    rw [rootlessSeqAux_fuel_irrelevant f (q.length + 1) (q.length + 2)
      ⟨q, 0, 0, 0⟩ (by show q.length < q.length + 1; omega)
      (by show q.length < q.length + 2; omega)]

end IteratorClaims

section SegmentClaims

/-- The free cells are listed in strictly ascending order. -/
theorem freeCells_sorted (s : IndexSegments) : (freeCells s).Sorted (· < ·) :=
  (List.sorted_lt_range _).filter _

/-- The free-cell list has no duplicates. -/
theorem freeCells_nodup (s : IndexSegments) : (freeCells s).Nodup :=
  (List.nodup_range _).filter _

/-- Membership in the free-cell list is being in range and unfixed. -/
theorem mem_freeCells {s : IndexSegments} {i : Nat} :
    i ∈ freeCells s ↔
      i < s.links.length ∧ (s.links.getD i IndexLink.base).fixed = false := by
  unfold freeCells
  rw [List.mem_filter, List.mem_range]
  simp [Bool.not_eq_true']

/-- Reading `getD` within bounds is reading the element. -/
theorem getD_lt {α : Type} (l : List α) (d : α) (n : Nat) (h : n < l.length) :
    l.getD n d = l[n] := by
  rw [List.getD_eq_getElem?_getD, List.getElem?_eq_getElem h]
  rfl

/-- The head of a list through `getD`. -/
theorem getD_zero_of_head {α : Type} {l : List α} {v : α} (d : α)
    (h : l.head? = some v) : l.getD 0 d = v := by
  cases l with
  | nil => simp at h
  | cons x xs =>
    have hx : x = v := by
      have h2 : some x = some v := h
      injection h2
    simp [hx]

/-- The admission test holds exactly when every symbol's slot exists and
is unfixed. -/
theorem admits_iff {s : IndexSegments} {symbols : List Nat} {i : Nat} :
    s.admits i symbols = true ↔
      ∀ l ∈ symbols, i + 1 + l < s.links.length
        ∧ (s.links.getD (i + 1 + l) IndexLink.base).fixed = false := by
  unfold IndexSegments.admits IndexSegments.admits_symbol
  rw [List.all_eq_true]
  constructor
  · intro h l hl
    have hh := h l hl
    rcases hg : s.links.get? (i + 1 + l) with _ | lk
    · rw [hg] at hh; simp at hh
    · rw [hg] at hh
      simp only [Bool.not_eq_true'] at hh
      have hlt : i + 1 + l < s.links.length := by
        by_contra hge
        rw [List.get?_eq_none.mpr (by omega)] at hg
        exact Option.noConfusion hg
      refine ⟨hlt, ?_⟩
      rw [getD_lt _ _ _ hlt]
      have he : s.links[i + 1 + l] = lk := by
        rcases List.get?_eq_some.mp hg with ⟨h2, h3⟩
        simpa [List.get_eq_getElem] using h3
      rw [he]
      exact hh
  · intro h l hl
    rcases h l hl with ⟨hlt, hfx⟩
    rw [List.get?_eq_getElem?, List.getElem?_eq_getElem hlt]
    simp only [Bool.not_eq_true']
    rw [getD_lt _ _ _ hlt] at hfx
    exact hfx

/-- `Settleable` is membership in the free list plus admission. -/
theorem settleable_iff {s : IndexSegments} {symbols : List Nat} {i : Nat} :
    Settleable s symbols i ↔ i ∈ freeCells s ∧ s.admits i symbols = true := by
  rw [mem_freeCells, admits_iff]
  unfold Settleable
  tauto

/-- On a sorted list, everything listed before the found element fails
the test. -/
theorem find?_sorted_lowest {l : List Nat} (hs : l.Sorted (· < ·)) {p : Nat → Bool} :
    ∀ {b : Nat}, l.find? p = some b → ∀ j ∈ l, j < b → p j = false := by
  induction l with
  | nil => intro b h; simp at h
  | cons x xs ih =>
    intro b h j hj hjb
    by_cases hx : p x = true
    · rw [List.find?_cons_of_pos _ hx] at h
      have hbx : x = b := by injection h
      subst hbx
      rcases hj with _ | hj2
      · omega
      · have := (List.sorted_cons.mp hs).1 j (by assumption)
        omega
    · rw [List.find?_cons_of_neg _ hx] at h
      rcases hj with _ | hj2
      · simpa using hx
      · exact ih (List.sorted_cons.mp hs).2 h j (by assumption) hjb

/-- The usher walk from the `k`-th free cell finds the first admitting
free cell at or past `k`, given enough fuel. -/
theorem usherLoop_eq_find (s : IndexSegments) (symbols : List Nat) (v : Nat)
    (hwf : SegWF s) (hv : (freeCells s).head? = some v) :
    ∀ (t k : Nat), k < (freeCells s).length → (freeCells s).length - k ≤ t →
      usherLoop s v symbols t ((freeCells s).getD k 0) =
        ((freeCells s).drop k).find? (fun i => s.admits i symbols) := by
  have hv0 : (freeCells s).getD 0 0 = v := getD_zero_of_head 0 hv
  intro t
  induction t with
  | zero => intro k hk ht; omega
  | succ n ih =>
    intro k hk ht
    have hdrop : (freeCells s).drop k = (freeCells s)[k] :: (freeCells s).drop (k + 1) :=
      List.drop_eq_getElem_cons hk
    have hgetD : (freeCells s).getD k 0 = (freeCells s)[k] := getD_lt _ _ _ hk
    unfold usherLoop
    by_cases ha : s.admits ((freeCells s).getD k 0) symbols = true
    · rw [if_pos ha, hdrop, List.find?_cons_of_pos _ (by rw [← hgetD]; exact ha), hgetD]
    · rw [if_neg ha]
      have hnb : (s.links.getD ((freeCells s).getD k 0) IndexLink.base).next =
          (freeCells s).getD ((k + 1) % (freeCells s).length) 0 := hwf.2 k hk
      rw [show (s.links.getD ((freeCells s).getD k 0) IndexLink.base).next =
          (freeCells s).getD ((k + 1) % (freeCells s).length) 0 from hnb]
      by_cases hk2 : k + 1 < (freeCells s).length
      · rw [Nat.mod_eq_of_lt hk2]
        have hne : (freeCells s).getD (k + 1) 0 ≠ v := by
          rw [getD_lt _ _ _ hk2]
          intro he
          have h0 : 0 < (freeCells s).length := by omega
          have h00 : (freeCells s)[0] = v := by
            rw [← getD_lt (freeCells s) 0 0 h0]
            exact hv0
          rw [← h00] at he
          have := (List.Nodup.getElem_inj_iff (freeCells_nodup s)).mp he
          omega
        rw [if_neg hne, ih (k + 1) hk2 (by omega), hdrop,
          List.find?_cons_of_neg _ (by rw [← hgetD]; exact ha)]
      · have hkm : k + 1 = (freeCells s).length := by omega
        have h0 : 0 < (freeCells s).length := by omega
        rw [hkm, Nat.mod_self, hv0, if_pos rfl, hdrop, hkm,
          List.drop_length, List.find?_cons_of_neg _ (by rw [← hgetD]; exact ha)]
        rfl

/-- Under well-formedness, `usher` is first-fit over the ascending free
cells. -/
theorem usher_eq_find (s : IndexSegments) (symbols : List Nat) (hwf : SegWF s) :
    s.usher symbols = (freeCells s).find? (fun i => s.admits i symbols) := by
  unfold IndexSegments.usher
  rw [hwf.1]
  rcases hv : (freeCells s).head? with _ | v
  · rw [List.head?_eq_none_iff.mp hv]
    rfl
  · have h0 : 0 < (freeCells s).length := by
      cases hfc : freeCells s with
      | nil => rw [hfc] at hv; simp at hv
      | cons w rest => simp
    have hm : (freeCells s).length ≤ s.links.length := by
      have := List.length_filter_le
        (fun i => !(s.links.getD i IndexLink.base).fixed) (List.range s.links.length)
      simpa [freeCells] using this
    have H := usherLoop_eq_find s symbols v hwf hv (s.links.length + 1) 0 h0 (by omega)
    rw [getD_zero_of_head 0 hv] at H
    rw [List.drop_zero] at H
    simpa using H

/-- Reading `getD` after a `set`. -/
theorem getD_set_link (l : List IndexLink) (i j : Nat) (a : IndexLink) :
    ((l.set i a).getD j IndexLink.base) =
      if i = j ∧ i < l.length then a else l.getD j IndexLink.base := by
  rw [List.getD_eq_getElem?_getD, List.getD_eq_getElem?_getD, List.getElem?_set]
  by_cases h1 : i = j
  · subst h1
    by_cases h2 : i < l.length
    · simp [h2]
    · have hn : l[i]? = none := List.getElem?_eq_none (by omega)
      simp [h2, hn]
  · simp [h1]

/-- `abridge` never changes a fixed flag. -/
theorem abridge_fixed (s : IndexSegments) (i j : Nat) :
    (((s.abridge i).links.getD j IndexLink.base)).fixed =
      ((s.links.getD j IndexLink.base)).fixed := by
  unfold IndexSegments.abridge
  simp only
  rw [getD_set_link]
  split_ifs with h1
  · rcases h1 with ⟨h1a, h1b⟩
    rw [← h1a]
    simp only
    rw [getD_set_link]
    split_ifs with h2
    · rcases h2 with ⟨h2a, h2b⟩
      rw [← h2a]
    · rfl
  · rw [getD_set_link]
    split_ifs with h2
    · rcases h2 with ⟨h2a, h2b⟩
      rw [← h2a]
    · rfl

/-- `abridge` preserves the number of cells. -/
theorem abridge_length (s : IndexSegments) (i : Nat) :
    (s.abridge i).links.length = s.links.length := by
  unfold IndexSegments.abridge
  simp [List.length_set]

/-- The fixed flag after `affix`. -/
theorem affix_fixed (s : IndexSegments) (i j : Nat) :
    (((s.affix i).links.getD j IndexLink.base)).fixed = true ↔
      ((i = j ∧ i < s.links.length) ∨ ((s.links.getD j IndexLink.base)).fixed = true) := by
  unfold IndexSegments.affix
  simp only
  rw [getD_set_link]
  rw [abridge_length]
  split_ifs with h1
  · rcases h1 with ⟨h1e, h1b⟩
    subst h1e
    simp [h1b]
  · rw [abridge_fixed]
    constructor
    · intro h; exact Or.inr h
    · intro h
      rcases h with h | h
      · exact absurd h h1
      · exact h

/-- `affix` preserves the number of cells. -/
theorem affix_length (s : IndexSegments) (i : Nat) :
    (s.affix i).links.length = s.links.length := by
  unfold IndexSegments.affix
  simp [List.length_set, abridge_length]

/-- The fixed flags after affixing every symbol cell of a base. -/
theorem foldl_affix_fixed (base : Nat) :
    ∀ (symbols : List Nat) (s0 : IndexSegments) (j : Nat),
      (((symbols.foldl (fun acc sym => acc.affix (base + 1 + sym)) s0).links.getD j
          IndexLink.base)).fixed = true ↔
        ((∃ l ∈ symbols, j = base + 1 + l ∧ base + 1 + l < s0.links.length)
          ∨ ((s0.links.getD j IndexLink.base)).fixed = true) := by
  intro symbols
  induction symbols with
  | nil => intro s0 j; simp
  | cons sym rest ih =>
    intro s0 j
    simp only [List.foldl_cons]
    rw [ih, affix_fixed, affix_length]
    constructor
    · intro h
      rcases h with ⟨l, hl, hj, hlt⟩ | ⟨he, hlt⟩ | h
      · exact Or.inl ⟨l, List.mem_cons_of_mem _ hl, hj, hlt⟩
      · exact Or.inl ⟨sym, List.mem_cons_self _ _, he.symm, hlt⟩
      · exact Or.inr h
    · intro h
      rcases h with ⟨l, hl, hj, hlt⟩ | h
      · rcases List.mem_cons.mp hl with rfl | hl2
        · exact Or.inr (Or.inl ⟨hj.symm, hlt⟩)
        · exact Or.inl ⟨l, hl2, hj, hlt⟩
      · exact Or.inr (Or.inr h)

/-- Lengths after the symbol-affixing fold. -/
theorem foldl_affix_length (base : Nat) :
    ∀ (symbols : List Nat) (s0 : IndexSegments),
      (symbols.foldl (fun acc sym => acc.affix (base + 1 + sym)) s0).links.length =
        s0.links.length := by
  intro symbols
  induction symbols with
  | nil => intro s0; rfl
  | cons sym rest ih =>
    intro s0
    simp only [List.foldl_cons]
    rw [ih, affix_length]

/-- C9.  Specification of `IndexSegments::settle` on a well-formed free
list: when it returns `some base`, `base` is the lowest index that is
still available as a state base and whose symbol slots `base + 1 + ℓ` all
exist and are still available, and the cells marked fixed afterwards are
exactly the previously fixed ones together with `base` and its symbol
slots (all other cells keep their availability, and the cell count is
unchanged); when it returns `none`, no such base exists and the segments
are returned unchanged. -/
theorem settle_lowest_base_and_fixes_exactly (s : IndexSegments) (symbols : List Nat)
    (hwf : SegWF s) :
    (∀ base s2, s.settle symbols = (some base, s2) →
        Settleable s symbols base
        ∧ (∀ j, j < base → ¬ Settleable s symbols j)
        ∧ s2.links.length = s.links.length
        ∧ (∀ i, ((s2.links.getD i IndexLink.base)).fixed = true ↔
            (((s.links.getD i IndexLink.base)).fixed = true ∨ i = base
              ∨ ∃ l ∈ symbols, i = base + 1 + l)))
    ∧ (∀ s2, s.settle symbols = (none, s2) →
        (∀ i, ¬ Settleable s symbols i) ∧ s2 = s) := by
  constructor
  · intro base s2 h
    unfold IndexSegments.settle at h
    rw [usher_eq_find s symbols hwf] at h
    rcases hu : (freeCells s).find? (fun i => s.admits i symbols) with _ | b
    · rw [hu] at h; exact absurd h (by simp)
    · rw [hu] at h
      simp only [Prod.mk.injEq, Option.some.injEq] at h
      rcases h with ⟨hb, hs2⟩
      rw [hb] at hu hs2
      have hmem : base ∈ freeCells s := List.mem_of_find?_eq_some hu
      have hadm0 := List.find?_some hu
      have hadm : s.admits base symbols = true := by simpa using hadm0
      have hsb : Settleable s symbols base := settleable_iff.mpr ⟨hmem, hadm⟩
      refine ⟨hsb, ?_, ?_, ?_⟩
      · intro j hj hsj
        rcases settleable_iff.mp hsj with ⟨hjm, hja⟩
        have := find?_sorted_lowest (freeCells_sorted s) hu j hjm hj
        rw [this] at hja
        exact Bool.noConfusion hja
      · rw [← hs2, foldl_affix_length, affix_length]
      · intro i
        rw [← hs2, foldl_affix_fixed, affix_fixed]
        have hbl : base < s.links.length := hsb.1
        have hrange : ∀ l ∈ symbols, base + 1 + l < s.links.length :=
          fun l hl => (hsb.2.2 l hl).1
        rw [affix_length]
        constructor
        · intro h
          rcases h with ⟨l, hl, hi, -⟩ | ⟨hbe, -⟩ | h
          · exact Or.inr (Or.inr ⟨l, hl, hi⟩)
          · exact Or.inr (Or.inl hbe.symm)
          · exact Or.inl h
        · intro h
          rcases h with h | hbe | ⟨l, hl, hi⟩
          · exact Or.inr (Or.inr h)
          · exact Or.inr (Or.inl ⟨hbe.symm, hbl⟩)
          · exact Or.inl ⟨l, hl, hi, hrange l hl⟩
  · intro s2 h
    unfold IndexSegments.settle at h
    rw [usher_eq_find s symbols hwf] at h
    rcases hu : (freeCells s).find? (fun i => s.admits i symbols) with _ | b
    · rw [hu] at h
      simp only [Prod.mk.injEq] at h
      refine ⟨?_, h.2.symm⟩
      intro i hsi
      rcases settleable_iff.mp hsi with ⟨him, hia⟩
      have := List.find?_eq_none.mp hu i him
      simp [hia] at this
    · rw [hu] at h
      exact absurd h (by simp)

/-- Witness for C9 on the four-cell free list: the theorem applied at the
concrete state shows base 0 is settleable for the one-symbol set `[1]`. -/
theorem settle_lowest_base_witness : Settleable segWitness [1] 0 := by
  have h := (settle_lowest_base_and_fixes_exactly segWitness [1] (by decide)).1 0
    (segWitness.settle [1]).2 (by decide)
  exact h.1

end SegmentClaims

section PackerClaims

variable {O : Type} [AddCommGroup O] [DecidableEq O]

/-- A successful find survives appending on the right. -/
theorem find?_isSome_append {α : Type} (l l2 : List α) (p : α → Bool)
    (h : (l.find? p).isSome = true) : ((l ++ l2).find? p).isSome = true := by
  rw [List.find?_append]
  rcases hf : l.find? p with _ | x
  · rw [hf] at h; simp at h
  · simp

/-- Appending an entry with the sought key makes the find succeed. -/
theorem find?_append_key {l : List (Nat × O)} (k : Nat) (v : O) :
    ((l ++ [(k, v)]).find? (fun p => p.1 = k)).isSome = true := by
  induction l with
  | nil => simp
  | cons x xs ih =>
    by_cases hx : x.1 = k
    · simp [List.find?_cons, hx]
    · simpa [List.find?_cons, hx] using ih

/-- Reading `getD` after `set` in general. -/
theorem getD_set_any {α : Type} (l : List α) (i j : Nat) (a d : α) :
    (l.set i a).getD j d = if i = j ∧ i < l.length then a else l.getD j d := by
  rw [List.getD_eq_getElem?_getD, List.getD_eq_getElem?_getD, List.getElem?_set]
  by_cases h1 : i = j
  · subst h1
    by_cases h2 : i < l.length
    · simp [h2]
    · have hn : l[i]? = none := List.getElem?_eq_none (by omega)
      simp [h2, hn]
  · simp [h1]

/-- Reading `get?` after `set` at a different index. -/
theorem get?_set_ne {α : Type} (l : List α) (i j : Nat) (a : α) (h : i ≠ j) :
    (l.set i a).get? j = l.get? j := by
  rw [List.get?_eq_getElem?, List.get?_eq_getElem?, List.getElem?_set, if_neg h]

/-- Reading `get?` after `set` at the same index, within bounds. -/
theorem get?_set_self {α : Type} (l : List α) (i : Nat) (a : α) (h : i < l.length) :
    (l.set i a).get? i = some a := by
  rw [List.get?_eq_getElem?, List.getElem?_set, if_pos rfl, if_pos h]

/-- `set` within bounds reaches the written value through `getD`. -/
theorem getD_set_self {α : Type} (l : List α) (i : Nat) (a d : α) (h : i < l.length) :
    (l.set i a).getD i d = a := by
  rw [getD_set_any, if_pos ⟨rfl, h⟩]

/-- A `get?` hit inside an appended replicate block is the default. -/
theorem get?_append_replicate {α : Type} (l : List α) (n : Nat) (d : α) (e : Nat)
    {st : α} (h : (l ++ List.replicate n d).get? e = some st) :
    l.get? e = some st ∨ st = d := by
  by_cases he : e < l.length
  · rw [List.get?_eq_getElem?, List.getElem?_append_left he] at h
    rw [List.get?_eq_getElem?]
    exact Or.inl h
  · rw [List.get?_eq_getElem?, List.getElem?_append_right (by omega)] at h
    rcases List.getElem?_eq_some_iff.mp h with ⟨h1, h2⟩
    simp at h2
    exact Or.inr h2.symm

/-- `getD` is unchanged by appending when the index is within the
original list. -/
theorem getD_append_left {α : Type} (l l2 : List α) (e : Nat) (d : α)
    (h : e < l.length) : (l ++ l2).getD e d = l.getD e d := by
  rw [List.getD_eq_getElem?_getD, List.getD_eq_getElem?_getD, List.getElem?_append_left h]

/-- `abridge` keeps the block size. -/
theorem abridge_block (s : IndexSegments) (i : Nat) :
    (s.abridge i).block_size = s.block_size := rfl

/-- `affix` keeps the block size. -/
theorem affix_block (s : IndexSegments) (i : Nat) :
    (s.affix i).block_size = s.block_size := rfl

/-- The symbol-affixing fold keeps the block size. -/
theorem foldl_affix_block (base : Nat) :
    ∀ (symbols : List Nat) (s0 : IndexSegments),
      (symbols.foldl (fun acc sym => acc.affix (base + 1 + sym)) s0).block_size =
        s0.block_size := by
  intro symbols
  induction symbols with
  | nil => intro s0; rfl
  | cons sym rest ih => intro s0; simp only [List.foldl_cons]; rw [ih, affix_block]

/-- `settle` keeps the block size. -/
theorem settle_snd_block (s : IndexSegments) (symbols : List Nat) :
    (s.settle symbols).2.block_size = s.block_size := by
  unfold IndexSegments.settle
  rcases s.usher symbols with _ | base
  · rfl
  · simp only
    rw [foldl_affix_block, affix_block]

/-- `IndexSegments::expand` keeps the block size. -/
theorem iseg_expand_block (s : IndexSegments) : s.expand.block_size = s.block_size := by
  unfold IndexSegments.expand
  rcases s.vacancy with _ | i <;> rfl

/-- `Intermediary::expand` preserves the packer invariant. -/
theorem expand_pinv (states : List (BState O)) (m : Intermediary O)
    (h : PInv states m) : PInv states m.expand := by
  obtain ⟨h1, h2, h3, ⟨k, hk⟩, h5, h6, h7, h8⟩ := h
  unfold Intermediary.expand Fst.resize Fst.len
  refine ⟨?_, ?_, ?_, ?_, ?_, ?_, ?_, ?_⟩
  · simp only [List.length_append, List.length_replicate]
    omega
  · simp only [List.length_append, List.length_replicate]
    omega
  · simp only [List.length_append, List.length_replicate]
    omega
  · refine ⟨k + 1, ?_⟩
    simp only [List.length_append, List.length_replicate]
    omega
  · rw [iseg_expand_block]
    exact h5
  · intro e st hget hin
    simp only at hget
    rcases get?_append_replicate _ _ _ _ hget with hold | hdef
    · have he : e < m.fst.stipe.length := by
        by_contra hge
        rw [List.get?_eq_none.mpr (by omega)] at hold
        exact Option.noConfusion hold
      have := h6 e st hold hin
      simp only
      rw [getD_append_left _ _ _ _ (by omega)]
      exact this
    · rw [hdef] at hin
      exact absurd hin (by simp [Stipe.base])
  · intro bi base hreg hcl
    exact h7 bi base hreg hcl
  · intro hin
    simp only at hin
    rw [getD_append_left _ _ _ _ (by omega)] at hin
    exact h8 hin

/-- `first_available` returns the packer with its arrays untouched or
expanded by one block; the registry and the block size are untouched. -/
theorem first_available_structure (m : Intermediary O) (symbols : List Nat)
    {base : Nat} {m2 : Intermediary O}
    (hr : m.first_available symbols = some (base, m2)) :
    (m2.fst = m.fst ∨ m2.fst = m.expand.fst)
    ∧ m2.registry = m.registry
    ∧ m2.segments.block_size = m.segments.block_size := by
  unfold Intermediary.first_available at hr
  rcases hs : m.segments.settle symbols with ⟨ob, segs⟩
  rcases ob with _ | b
  · rw [hs] at hr
    simp only at hr
    rcases hs2 : m.expand.segments.settle symbols with ⟨ob2, segs2⟩
    rcases ob2 with _ | b2
    · rw [hs2] at hr; exact absurd hr (by simp)
    · rw [hs2] at hr
      simp only [Option.some.injEq, Prod.mk.injEq] at hr
      obtain ⟨-, hm⟩ := hr
      rw [← hm]
      refine ⟨Or.inr rfl, rfl, ?_⟩
      have hb := settle_snd_block m.expand.segments symbols
      rw [hs2] at hb
      rw [hb]
      exact iseg_expand_block m.segments
  · rw [hs] at hr
    simp only [Option.some.injEq, Prod.mk.injEq] at hr
    obtain ⟨-, hm⟩ := hr
    rw [← hm]
    refine ⟨Or.inl rfl, rfl, ?_⟩
    have hb := settle_snd_block m.segments symbols
    rw [hs] at hb
    exact hb

/-- `Intermediary::settle` leaves the arrays as they were or appends one
default block to each array, and keeps the registry and block size. -/
theorem settleSt_structure (m : Intermediary O) (ib : Nat) (st : BState O)
    {nb : Nat} {m3 : Intermediary O}
    (hr : m.settleSt ib st = some (.ok (nb, m3))) :
    (m3.fst = m.fst ∨ m3.fst = m.expand.fst)
    ∧ m3.registry = m.registry
    ∧ m3.segments.block_size = m.segments.block_size := by
  unfold Intermediary.settleSt at hr
  simp only at hr
  rcases hf : m.first_available (st.transitions.map (fun t => t.label)) with _ | ⟨fb, fm⟩
  · rw [hf] at hr; exact absurd hr (by simp)
  · rw [hf] at hr
    simp only at hr
    split at hr
    · exact absurd hr (by simp)
    · simp only [Option.some.injEq, Except.ok.injEq, Prod.mk.injEq] at hr
      obtain ⟨-, hm⟩ := hr
      rw [← hm]
      exact first_available_structure m _ hf

/-- The expanded arrays append one default block to each vector and keep
the state-output map. -/
theorem expand_fst_shape (m : Intermediary O)
    (h1 : m.fst.next.length = m.fst.stipe.length)
    (h2 : m.fst.output.length = m.fst.stipe.length) :
    m.expand.fst.stipe = m.fst.stipe ++ List.replicate m.segments.block_size Stipe.base
    ∧ m.expand.fst.next = m.fst.next ++ List.replicate m.segments.block_size 0
    ∧ m.expand.fst.output =
        m.fst.output ++ List.replicate m.segments.block_size (0 : O)
    ∧ m.expand.fst.state_output = m.fst.state_output := by
  unfold Intermediary.expand Fst.resize Fst.len
  refine ⟨?_, ?_, ?_, rfl⟩
  · simp only
    rw [show m.fst.stipe.length + m.segments.block_size - m.fst.stipe.length =
        m.segments.block_size from by omega]
  · simp only
    rw [show m.fst.stipe.length + m.segments.block_size - m.fst.next.length =
        m.segments.block_size from by omega]
  · simp only
    rw [show m.fst.stipe.length + m.segments.block_size - m.fst.output.length =
        m.segments.block_size from by omega]

/-- One arc write of the depth-first loop preserves the packer
invariant. -/
theorem transStep_pinv (states : List (BState O)) (ib s_i : Nat)
    (m : Intermediary O) (tr : Transition O) (h : PInv states m)
    {m4 : Intermediary O} (hr : transStep states ib s_i m tr = some (.ok m4)) :
    PInv states m4 := by
  unfold transStep at hr
  simp only at hr
  rcases hreg : m.registry.getD s_i none with _ | base
  · rw [hreg] at hr; exact absurd hr (by simp)
  rw [hreg] at hr
  simp only at hr
  set T := classifyState (states.getD tr.destination BState.empty) with hT
  set e := base + 1 + tr.label with hedef
  set m1 := if m.fst.len ≤ e then m.expand else m with hm1def
  have hm1P : PInv states m1 := by
    rw [hm1def]
    split
    · exact expand_pinv states m h
    · exact h
  obtain ⟨p1, p2, p3, p4, p5, p6, p7, p8⟩ := hm1P
  set m2 := arcWrite m1 e tr T with hm2def
  have he1 : 1 ≤ e := by rw [hedef]; omega
  have areg : m2.registry = m1.registry := by rw [hm2def]; rfl
  have aseg : m2.segments = m1.segments := by rw [hm2def]; rfl
  have aso : m2.fst.state_output = m1.fst.state_output := by rw [hm2def]; rfl
  have anext : m2.fst.next = m1.fst.next := by rw [hm2def]; rfl
  have aslen : m2.fst.stipe.length = m1.fst.stipe.length := by
    rw [hm2def]
    unfold arcWrite
    simp [List.length_set]
  have aolen : m2.fst.output.length = m1.fst.output.length := by
    rw [hm2def]
    unfold arcWrite
    simp [List.length_set]
  have asne : ∀ e2, e2 ≠ e → m2.fst.stipe.get? e2 = m1.fst.stipe.get? e2 := by
    intro e2 hne
    rw [hm2def]
    unfold arcWrite
    simp only
    exact get?_set_ne _ _ _ _ (fun hh => hne hh.symm)
  have asself : e < m1.fst.stipe.length →
      m2.fst.stipe.get? e = some { check := tr.label, terminal := T } := by
    intro hlt
    rw [hm2def]
    unfold arcWrite
    simp only
    exact get?_set_self _ _ _ hlt
  have asnone : ¬ e < m1.fst.stipe.length → m2.fst.stipe.get? e = none := by
    intro hge
    rw [hm2def]
    unfold arcWrite
    simp only
    rw [List.get?_eq_getElem?]
    exact List.getElem?_eq_none (by simp [List.length_set]; omega)
  have aszero : m2.fst.stipe.getD 0 Stipe.base = m1.fst.stipe.getD 0 Stipe.base := by
    rw [hm2def]
    unfold arcWrite
    simp only
    rw [getD_set_any, if_neg (by omega)]
  -- lengths of the written packer state
  have w1 : m2.fst.next.length = m2.fst.stipe.length := by rw [anext, aslen]; exact p1
  have w2 : m2.fst.output.length = m2.fst.stipe.length := by rw [aolen, aslen]; exact p2
  have w3 : 0 < m2.fst.stipe.length := by rw [aslen]; exact p3
  have w4 : ∃ k, m2.fst.stipe.length = 256 * k := by rw [aslen]; exact p4
  rcases hrt : m2.registry.getD tr.destination none with _ | i
  · rw [hrt] at hr
    simp only at hr
    rcases hst : m2.settleSt ib (states.getD tr.destination BState.empty) with _ | r
    · rw [hst] at hr; exact Option.noConfusion hr
    rcases r with err | ⟨nb, m3⟩
    · rw [hst] at hr
      simp only [Option.some.injEq] at hr
      exact Except.noConfusion hr
    rw [hst] at hr
    simp only [Option.some.injEq, Except.ok.injEq] at hr
    obtain ⟨hfst, hregs, hblk⟩ := settleSt_structure m2 ib _ hst
    -- facts about the settled packer state m3
    have F5 : m3.fst.state_output = m2.fst.state_output := by
      rcases hfst with hE | hE
      · rw [hE]
      · rw [hE, (expand_fst_shape m2 w1 w2).2.2.2]
    have F1 : m3.fst.next.length = m3.fst.stipe.length := by
      rcases hfst with hE | hE
      · rw [hE]; exact w1
      · rw [hE, (expand_fst_shape m2 w1 w2).1, (expand_fst_shape m2 w1 w2).2.1]
        simp [List.length_append, w1]
    have F2 : m3.fst.output.length = m3.fst.stipe.length := by
      rcases hfst with hE | hE
      · rw [hE]; exact w2
      · rw [hE, (expand_fst_shape m2 w1 w2).1, (expand_fst_shape m2 w1 w2).2.2.1]
        simp [List.length_append, w2]
    have F3 : 0 < m3.fst.stipe.length := by
      rcases hfst with hE | hE
      · rw [hE]; exact w3
      · rw [hE, (expand_fst_shape m2 w1 w2).1]
        simp only [List.length_append]
        omega
    have F4 : ∃ k, m3.fst.stipe.length = 256 * k := by
      rcases hfst with hE | hE
      · rw [hE]; exact w4
      · obtain ⟨k, hk⟩ := w4
        refine ⟨k + 1, ?_⟩
        rw [hE, (expand_fst_shape m2 w1 w2).1]
        have hb2 : m2.segments.block_size = 256 := by rw [aseg]; exact p5
        simp only [List.length_append, List.length_replicate]
        omega
    have F6 : m2.fst.stipe.length ≤ m3.fst.stipe.length := by
      rcases hfst with hE | hE
      · rw [hE]
      · rw [hE, (expand_fst_shape m2 w1 w2).1]
        simp
    have F7 : ∀ e2 st, m3.fst.stipe.get? e2 = some st →
        (m2.fst.stipe.get? e2 = some st ∨ st = Stipe.base) := by
      intro e2 st hg
      rcases hfst with hE | hE
      · rw [hE] at hg; exact Or.inl hg
      · rw [hE, (expand_fst_shape m2 w1 w2).1] at hg
        exact get?_append_replicate _ _ _ _ hg
    have F8 : ∀ e2, e2 < m2.fst.next.length →
        m3.fst.next.getD e2 0 = m2.fst.next.getD e2 0 := by
      intro e2 hlt
      rcases hfst with hE | hE
      · rw [hE]
      · rw [hE, (expand_fst_shape m2 w1 w2).2.1]
        exact getD_append_left _ _ _ _ hlt
    have F9 : m3.fst.stipe.getD 0 Stipe.base = m2.fst.stipe.getD 0 Stipe.base := by
      rcases hfst with hE | hE
      · rw [hE]
      · rw [hE, (expand_fst_shape m2 w1 w2).1]
        exact getD_append_left _ _ _ _ w3
    -- the state-output map of the result, monotone over m1's
    rw [← hr]
    have soMono : ∀ (p : Nat × O → Bool),
        ((m1.fst.state_output.find? p).isSome = true) →
        (((freshDest m3 e tr.destination (asIndex ib nb) T
            (states.getD tr.destination BState.empty).final_output).fst.state_output.find?
              p).isSome = true) := by
      intro p hp
      unfold freshDest
      simp only
      split
      · rw [F5, aso]
        exact find?_isSome_append _ _ _ hp
      · rw [F5, aso]
        exact hp
    refine ⟨?_, ?_, ?_, ?_, ?_, ?_, ?_, ?_⟩
    · unfold freshDest
      simp only [List.length_set]
      exact F1
    · unfold freshDest
      simp only
      exact F2
    · unfold freshDest
      simp only
      exact F3
    · unfold freshDest
      simp only
      exact F4
    · unfold freshDest
      simp only
      rw [hblk, aseg]
      exact p5
    · intro e2 st hget hin
      unfold freshDest at hget ⊢
      simp only at hget ⊢
      by_cases he2 : e2 = e
      · subst he2
        rcases F7 e st hget with hold | hbase
        · by_cases hlt : e < m1.fst.stipe.length
          · rw [asself hlt] at hold
            have hstv : st = { check := tr.label, terminal := T } := by
              injection hold with hh
              exact hh.symm
            rw [hstv] at hin
            simp only at hin
            have hnx : ((m3.fst.next.set e (asIndex ib nb)).getD e 0) = asIndex ib nb := by
              apply getD_set_self
              rw [F1]
              have h9 : e < m2.fst.stipe.length := by rw [aslen]; exact hlt
              omega
            rw [hnx]
            have hinner : T.is_inner = true := by rw [hin]; rfl
            rw [hinner]
            simp only [if_pos rfl]
            exact find?_append_key _ _
          · rw [asnone hlt] at hold
            exact Option.noConfusion hold
        · rw [hbase] at hin
          exact absurd hin (by simp [Stipe.base])
      · rcases F7 e2 st hget with hold | hbase
        · have hlt2 : e2 < m2.fst.stipe.length := by
            by_contra hge
            rw [List.get?_eq_getElem?, List.getElem?_eq_none (by omega)] at hold
            exact Option.noConfusion hold
          rw [asne e2 he2] at hold
          have hfind := p6 e2 st hold hin
          have hnx : ((m3.fst.next.set e (asIndex ib nb)).getD e2 0) =
              m1.fst.next.getD e2 0 := by
            rw [getD_set_any, if_neg (by intro hc; exact he2 hc.1.symm)]
            rw [F8 e2 (by rw [w1]; exact hlt2), anext]
          rw [hnx]
          split
          · rw [F5, aso]
            exact find?_isSome_append _ _ _ hfind
          · rw [F5, aso]
            exact hfind
        · rw [hbase] at hin
          exact absurd hin (by simp [Stipe.base])
    · intro bi b2 hb2 hcl
      unfold freshDest at hb2 ⊢
      simp only at hb2 ⊢
      rw [hregs, areg] at hb2
      rw [getD_set_any] at hb2
      split at hb2
      · rename_i hcond
        obtain ⟨hcond1, -⟩ := hcond
        have hbv : b2 = asIndex ib nb := by injection hb2 with hh; exact hh.symm
        rw [← hcond1] at hcl
        rw [← hT] at hcl
        have hinner : T.is_inner = true := by rw [hcl]; rfl
        rw [hinner]
        simp only [if_pos rfl]
        rw [hbv]
        exact find?_append_key _ _
      · have hfind := p7 bi b2 hb2 hcl
        split
        · rw [F5, aso]
          exact find?_isSome_append _ _ _ hfind
        · rw [F5, aso]
          exact hfind
    · intro hin
      unfold freshDest at hin ⊢
      simp only at hin ⊢
      rw [F9, aszero] at hin
      have hfind := p8 hin
      split
      · rw [F5, aso]
        exact find?_isSome_append _ _ _ hfind
      · rw [F5, aso]
        exact hfind
  · rw [hrt] at hr
    simp only [Option.some.injEq, Except.ok.injEq] at hr
    rw [← hr]
    refine ⟨?_, ?_, ?_, ?_, ?_, ?_, ?_, ?_⟩
    · unfold setNextCell
      simp only [List.length_set]
      exact w1
    · unfold setNextCell
      simp only
      exact w2
    · unfold setNextCell
      simp only
      exact w3
    · unfold setNextCell
      simp only
      exact w4
    · unfold setNextCell
      simp only
      rw [aseg]
      exact p5
    · intro e2 st hget hin
      unfold setNextCell at hget ⊢
      simp only at hget ⊢
      by_cases he2 : e2 = e
      · subst he2
        by_cases hlt : e < m1.fst.stipe.length
        · rw [asself hlt] at hget
          have hstv : st = { check := tr.label, terminal := T } := by
            injection hget with hh
            exact hh.symm
          rw [hstv] at hin
          simp only at hin
          have hnx : ((m2.fst.next.set e i).getD e 0) = i := by
            apply getD_set_self
            rw [anext, p1]
            exact hlt
          rw [hnx, aso]
          rw [areg] at hrt
          refine p7 tr.destination i hrt ?_
          rw [← hT, ← hin]
        · rw [asnone hlt] at hget
          exact Option.noConfusion hget
      · rw [asne e2 he2] at hget
        have hfind := p6 e2 st hget hin
        have hnx : ((m2.fst.next.set e i).getD e2 0) = m1.fst.next.getD e2 0 := by
          rw [getD_set_any, if_neg (by intro hc; exact he2 hc.1.symm), anext]
        rw [hnx, aso]
        exact hfind
    · intro bi b2 hb2 hcl
      unfold setNextCell at hb2 ⊢
      simp only at hb2 ⊢
      rw [areg] at hb2
      rw [aso]
      exact p7 bi b2 hb2 hcl
    · intro hin
      unfold setNextCell at hin ⊢
      simp only at hin ⊢
      rw [aszero] at hin
      rw [aso]
      exact p8 hin


/-- The arc fold over one state's transitions preserves the packer
invariant. -/
theorem transFold_pinv (states : List (BState O)) (ib s_i : Nat) :
    ∀ (trs : List (Transition O)) (m : Intermediary O), PInv states m →
      ∀ {m2 : Intermediary O}, transFold states ib s_i m trs = some (.ok m2) →
        PInv states m2 := by
  intro trs
  induction trs with
  | nil =>
    intro m h m2 hr
    unfold transFold at hr
    simp only [Option.some.injEq, Except.ok.injEq] at hr
    rw [← hr]
    exact h
  | cons tr rest ih =>
    intro m h m2 hr
    unfold transFold at hr
    rcases hs : transStep states ib s_i m tr with _ | r
    · rw [hs] at hr; exact Option.noConfusion hr
    rcases r with e | mm
    · rw [hs] at hr
      simp only [Option.some.injEq] at hr
      exact Except.noConfusion hr
    · rw [hs] at hr
      exact ih mm (transStep_pinv states ib s_i m tr h hs) hr

/-- The depth-first stack loop preserves the packer invariant. -/
theorem dfsLoop_pinv (states : List (BState O)) (ib : Nat) :
    ∀ (fuel : Nat) (m : Intermediary O), PInv states m →
      ∀ {m2 : Intermediary O}, dfsLoop states ib fuel m = some (.ok m2) →
        PInv states m2 := by
  intro fuel
  induction fuel with
  | zero => intro m h m2 hr; exact Option.noConfusion hr
  | succ n ih =>
    intro m h m2 hr
    unfold dfsLoop at hr
    rcases hst : m.stack with _ | ⟨s_i, stk⟩
    · rw [hst] at hr
      simp only [Option.some.injEq, Except.ok.injEq] at hr
      rw [← hr]
      exact h
    · rw [hst] at hr
      simp only at hr
      rcases hf : transFold states ib s_i { m with stack := stk }
          (states.getD s_i BState.empty).transitions with _ | r
      · rw [hf] at hr; exact Option.noConfusion hr
      rcases r with e | mm
      · rw [hf] at hr
        simp only [Option.some.injEq] at hr
        exact Except.noConfusion hr
      · rw [hf] at hr
        have hm : PInv states { m with stack := stk } := h
        exact ih mm (transFold_pinv states ib s_i _ _ hm hf) hr

/-- A successful `settle_index` returns the index it was asked for. -/
theorem settle_index_some (s : IndexSegments) (symbols : List Nat) (i : Nat)
    {b : Nat} {s2 : IndexSegments} (h : s.settle_index symbols i = (some b, s2)) :
    b = i := by
  unfold IndexSegments.settle_index at h
  rcases hg : s.links.get? i with _ | l
  · rw [hg] at h; exact absurd h (by simp)
  · rw [hg] at h
    simp only at h
    split at h
    · simp only [Prod.mk.injEq, Option.some.injEq] at h
      exact h.1.symm
    · exact absurd h (by simp)

/-- `settle_index` keeps the block size. -/
theorem settle_index_block (s : IndexSegments) (symbols : List Nat) (i : Nat) :
    (s.settle_index symbols i).2.block_size = s.block_size := by
  unfold IndexSegments.settle_index
  rcases s.links.get? i with _ | l
  · rfl
  · simp only
    split
    · rw [foldl_affix_block, affix_block]
    · rfl

/-- A replicated `none` registry answers `none` everywhere. -/
theorem replicate_getD_none (n bi : Nat) :
    (List.replicate n (none : Option Nat)).getD bi none = none := by
  by_cases hlt : bi < n
  · rw [getD_lt _ _ _ (by simpa using hlt)]
    simp
  · rw [List.getD_eq_getElem?_getD, List.getElem?_eq_none (by simpa using hlt)]
    rfl

/-- The root bookkeeping establishes the packer invariant on a fresh
packer state whose cells are all default, whose registry is empty, and
whose root base is cell 0. -/
theorem rootSetup_pinv (states : List (BState O)) (b_root : Nat) (m3 : Intermediary O)
    (hlen1 : m3.fst.next.length = m3.fst.stipe.length)
    (hlen2 : m3.fst.output.length = m3.fst.stipe.length)
    (hpos : 0 < m3.fst.stipe.length)
    (hmul : ∃ k, m3.fst.stipe.length = 256 * k)
    (hblk : m3.segments.block_size = 256)
    (hdef : ∀ e st, m3.fst.stipe.get? e = some st → st = Stipe.base)
    (hregn : ∀ bi, m3.registry.getD bi none = none) :
    PInv states (rootSetup (states.getD b_root BState.empty) b_root m3 0) := by
  have key : ∀ (X : Terminal) (so2 : List (Nat × O)),
      (X = Terminal.Inner → (so2.find? (fun p => p.1 = 0)).isSome = true) →
      (classifyState (states.getD b_root BState.empty) = Terminal.Inner →
        (so2.find? (fun p => p.1 = 0)).isSome = true) →
      PInv states
        { m3 with
            fst := { m3.fst with
                next := m3.fst.next.set 0 0,
                stipe := m3.fst.stipe.set 0
                  { m3.fst.stipe.getD 0 Stipe.base with terminal := X },
                state_output := so2 },
            registry := m3.registry.set b_root (some 0),
            stack := [b_root] } := by
    intro X so2 hso hcl2
    refine ⟨?_, ?_, ?_, ?_, ?_, ?_, ?_, ?_⟩
    · simp only [List.length_set]
      exact hlen1
    · simp only [List.length_set]
      exact hlen2
    · simp only [List.length_set]
      exact hpos
    · simp only [List.length_set]
      exact hmul
    · exact hblk
    · intro e st hget hin
      simp only at hget ⊢
      by_cases he : e = 0
      · subst he
        rw [get?_set_self _ _ _ hpos] at hget
        have hstv : st = { m3.fst.stipe.getD 0 Stipe.base with terminal := X } := by
          injection hget with hh
          exact hh.symm
        rw [hstv] at hin
        simp only at hin
        rw [getD_set_self _ _ _ _ (by rw [hlen1]; exact hpos)]
        exact hso hin
      · rw [get?_set_ne _ _ _ _ (fun hh => he hh.symm)] at hget
        have hb := hdef e st hget
        rw [hb] at hin
        exact absurd hin (by simp [Stipe.base])
    · intro bi base hb hcl
      simp only at hb ⊢
      rw [getD_set_any] at hb
      split at hb
      · rename_i hc
        have hbv : base = 0 := by injection hb with hh; exact hh.symm
        rw [hbv]
        rw [← hc.1] at hcl
        exact hcl2 hcl
      · rw [hregn bi] at hb
        exact Option.noConfusion hb
    · intro hin
      simp only at hin ⊢
      rw [getD_set_self _ _ _ _ hpos] at hin
      simp only at hin
      exact hso hin
  unfold rootSetup
  simp only
  by_cases ht : (states.getD b_root BState.empty).terminal
  · by_cases hz : (states.getD b_root BState.empty).final_output = 0
    · rw [if_pos ht, if_pos hz]
      refine key Terminal.Empty m3.fst.state_output (by intro hh; exact absurd hh (by simp)) ?_
      intro hcl
      exact absurd hcl (by unfold classifyState; rw [if_pos ht, if_pos hz]; simp)
    · rw [if_pos ht, if_neg hz]
      refine key Terminal.Inner
        (m3.fst.state_output ++ [(0, (states.getD b_root BState.empty).final_output)])
        (fun _ => find?_append_key _ _) (fun _ => find?_append_key _ _)
  · rw [if_neg ht]
    refine key Terminal.Not m3.fst.state_output (by intro hh; exact absurd hh (by simp)) ?_
    intro hcl
    exact absurd hcl (by unfold classifyState; rw [if_neg ht]; simp)

/-- C10.  Query totality of every packed FST: `from_builder` produces
three parallel vectors of one length, a positive multiple of the 256-cell
block, so the unconditional `stipe[0]` read and every `next[e]`/`output[e]`
read guarded by a successful `stipe` lookup are in bounds; and the
state-output map holds an entry for every state index consulted under an
`Inner` tag — for every cell tagged `Inner` the entry at its `next` index,
and for the root state when `stipe[0]` is tagged `Inner`.  Hence
`contains`, `get`, `transition` and both prefix iterators complete on
every query without panicking. -/
theorem from_builder_parallel_arrays_and_inner_entries (b : Builder O) (f : Fst O)
    (hr : fromBuilderR b = some (Except.ok f)) :
    (f.next.length = f.stipe.length ∧ f.output.length = f.stipe.length
      ∧ ∃ k, 0 < k ∧ f.stipe.length = 256 * k)
    ∧ (∀ e st, f.stipe.get? e = some st → st.terminal = Terminal.Inner →
        (f.state_output.find? (fun p => p.1 = f.next.getD e 0)).isSome = true)
    ∧ ((f.stipe.getD 0 Stipe.base).terminal = Terminal.Inner →
        (f.state_output.find? (fun p => p.1 = 0)).isSome = true) := by
  unfold fromBuilderR at hr
  simp only at hr
  set states := materializeStates b with hstates
  set m0 : Intermediary O :=
    { stack := [], registry := List.replicate b.registry.length none,
      segments := IndexSegments.base, fst := Fst.base } with hm0
  have s1 := expand_fst_shape m0 rfl rfl
  have m1len1 : m0.expand.fst.next.length = m0.expand.fst.stipe.length := by
    rw [s1.1, s1.2.1]
    simp [hm0, Fst.base]
  have m1len2 : m0.expand.fst.output.length = m0.expand.fst.stipe.length := by
    rw [s1.1, s1.2.2.1]
    simp [hm0, Fst.base]
  have s2 := expand_fst_shape m0.expand m1len1 m1len2
  have hblk1 : m0.segments.block_size = 256 := rfl
  have hblk2 : m0.expand.segments.block_size = 256 := by
    show m0.segments.expand.block_size = 256
    rw [iseg_expand_block]
    exact hblk1
  have hfst0 : m0.fst.stipe.length = 0 := rfl
  have m2len0 : m0.expand.expand.fst.stipe.length = 512 := by
    rw [s2.1, s1.1, List.length_append, List.length_append, List.length_replicate,
      List.length_replicate, hfst0, hblk1, hblk2]
  have m2len1 : m0.expand.expand.fst.next.length = m0.expand.expand.fst.stipe.length := by
    rw [s2.1, s2.2.1]
    simp only [List.length_append, List.length_replicate]
    omega
  have m2len2 : m0.expand.expand.fst.output.length = m0.expand.expand.fst.stipe.length := by
    rw [s2.1, s2.2.2.1]
    simp only [List.length_append, List.length_replicate]
    omega
  have hdef2 : ∀ e st, m0.expand.expand.fst.stipe.get? e = some st → st = Stipe.base := by
    intro e st hg
    rw [s2.1] at hg
    rcases get?_append_replicate _ _ _ _ hg with hg1 | hb
    · rw [s1.1] at hg1
      rcases get?_append_replicate _ _ _ _ hg1 with hg2 | hb
      · simp [hm0, Fst.base] at hg2
      · exact hb
    · exact hb
  split at hr
  · exact Option.noConfusion hr
  · rename_i base segs heq
    have hbase : base = 0 := settle_index_some _ _ _ heq
    subst hbase
    rw [show asIndex b.ibound 0 = 0 from by unfold asIndex; exact Nat.zero_mod _] at hr
    split at hr
    · exact Option.noConfusion hr
    · simp only [Option.some.injEq] at hr
      exact Except.noConfusion hr
    · rename_i m5 heq2
      simp only [Option.some.injEq, Except.ok.injEq] at hr
      have hsegsblk : segs.block_size = 256 := by
        have hsb := settle_index_block m0.expand.expand.segments
          (((states.getD b.root BState.empty).transitions.map (fun t => t.label))) 0
        rw [heq] at hsb
        simp only at hsb
        rw [hsb]
        show m0.segments.expand.expand.block_size = 256
        rw [iseg_expand_block, iseg_expand_block]
        exact hblk1
      have hP : PInv states
          (rootSetup (states.getD b.root BState.empty) b.root
            { m0.expand.expand with segments := segs } 0) := by
        refine rootSetup_pinv states b.root _ ?_ ?_ ?_ ?_ ?_ ?_ ?_
        · exact m2len1
        · exact m2len2
        · rw [m2len0]; omega
        · exact ⟨2, by rw [m2len0]⟩
        · exact hsegsblk
        · exact hdef2
        · intro bi
          exact replicate_getD_none _ _
      have hP5 := dfsLoop_pinv states b.ibound _ _ hP heq2
      obtain ⟨q1, q2, q3, q4, q5, q6, q7, q8⟩ := hP5
      rw [← hr]
      obtain ⟨k, hk⟩ := q4
      exact ⟨⟨q1, q2, ⟨k, by omega, hk⟩⟩, q6, q8⟩

/-- Witness for C10: the theorem applied to the packed FST of the single
pair `([97], 1)`. -/
theorem from_builder_parallel_arrays_witness :
    (exampleFstA.next.length = exampleFstA.stipe.length
      ∧ exampleFstA.output.length = exampleFstA.stipe.length
      ∧ ∃ k, 0 < k ∧ exampleFstA.stipe.length = 256 * k)
    ∧ (∀ e st, exampleFstA.stipe.get? e = some st → st.terminal = Terminal.Inner →
        (exampleFstA.state_output.find?
          (fun p => p.1 = exampleFstA.next.getD e 0)).isSome = true)
    ∧ ((exampleFstA.stipe.getD 0 Stipe.base).terminal = Terminal.Inner →
        (exampleFstA.state_output.find? (fun p => p.1 = 0)).isSome = true) :=
  from_builder_parallel_arrays_and_inner_entries exampleBuilderA exampleFstA rfl

end PackerClaims

section BuilderValueClaims

variable {O : Type} [AddCommGroup O] [DecidableEq O] (pf : O → O → O)

/-- Finding in an append when the left part already succeeds. -/
theorem find?_append_isSome_eq {α : Type} (l l2 : List α) (p : α → Bool)
    (h : (l.find? p).isSome = true) : (l ++ l2).find? p = l.find? p := by
  rw [List.find?_append]
  rcases hf : l.find? p with _ | x
  · rw [hf] at h; simp at h
  · simp

/-- Finding in an append when the left part fails. -/
theorem find?_append_none_eq {α : Type} (l l2 : List α) (p : α → Bool)
    (h : l.find? p = none) : (l ++ l2).find? p = l2.find? p := by
  rw [List.find?_append, h]
  simp

/-- Membership of an in-range `getD` read. -/
theorem getD_mem {α : Type} {l : List α} {n : Nat} (d : α) (h : n < l.length) :
    l.getD n d ∈ l := by
  have he : l.getD n d = l[n] := by
    rw [List.getD_eq_getElem?_getD, List.getElem?_eq_getElem h]
    rfl
  rw [he]
  exact List.getElem_mem h

/-- Reading `getD` inside a `take` window. -/
theorem getD_take {α : Type} (l : List α) (n j : Nat) (d : α) (h : j < n) :
    (l.take n).getD j d = l.getD j d := by
  rw [List.getD_eq_getElem?_getD, List.getD_eq_getElem?_getD, List.getElem?_take]
  simp [h]

/-- Reading `getD` before the last element ignores `dropLast`. -/
theorem getD_dropLast {α : Type} (l : List α) (j : Nat) (d : α) (h : j + 1 < l.length) :
    l.dropLast.getD j d = l.getD j d := by
  rw [List.dropLast_eq_take]
  exact getD_take l (l.length - 1) j d (by omega)

/-- Reading `getD` past the left part of an append. -/
theorem getD_append_right {α : Type} (l l2 : List α) (k : Nat) (d : α) :
    (l ++ l2).getD (l.length + k) d = l2.getD k d := by
  rw [List.getD_eq_getElem?_getD, List.getD_eq_getElem?_getD,
    List.getElem?_append_right (by omega)]
  rw [show l.length + k - l.length = k from by omega]

/-- Decomposition of a list at its optional last element. -/
theorem eq_dropLast_concat {α : Type} {l : List α} {a : α} (h : l.getLast? = some a) :
    l = l.dropLast ++ [a] := by
  induction l with
  | nil => cases h
  | cons x xs ih =>
    cases hxs : xs with
    | nil =>
      subst hxs
      simp only [List.getLast?_singleton, Option.some.injEq] at h
      simp [h]
    | cons y ys =>
      subst hxs
      rw [List.getLast?_cons_cons] at h
      have hy := ih h
      show x :: (y :: ys) = (x :: y :: ys).dropLast ++ [a]
      rw [show (x :: y :: ys).dropLast = x :: (y :: ys).dropLast from rfl,
        List.cons_append, ← hy]

/-- Optional last element as a `getD` read. -/
theorem getLast?_eq_getD {α : Type} (l : List α) (d : α) (h : l ≠ []) :
    l.getLast? = some (l.getD (l.length - 1) d) := by
  have hpos : 0 < l.length := List.length_pos.mpr h
  rw [List.getLast?_eq_getElem?, List.getD_eq_getElem?_getD,
    List.getElem?_eq_getElem (by omega)]
  rfl

/-- Nothing is lexicographically below the empty string. -/
theorem lexLt_nil_right (k : List Nat) : lexLt k [] = false := by
  cases k <;> rfl

/-- The empty string is lexicographically below every nonempty string. -/
theorem lexLt_nil_left (c : Nat) (p : List Nat) : lexLt [] (c :: p) = true := rfl

/-- Characterisation of the longest common prefix of a key that is neither
equal to nor below the previous key: the match stops inside the key, the
prefixes agree, and at the stop either the previous key ran out or its byte
is strictly smaller. -/
theorem lcp_facts : ∀ (key p : List Nat), key ≠ p → lexLt key p = false →
    lcpLen key p < key.length ∧ key.take (lcpLen key p) = p.take (lcpLen key p)
      ∧ (lcpLen key p = p.length ∨
          (lcpLen key p < p.length ∧ p.getD (lcpLen key p) 0 < key.getD (lcpLen key p) 0))
  | [], p, hne, hlex => by
    cases p with
    | nil => exact absurd rfl hne
    | cons c ps => rw [lexLt_nil_left] at hlex; cases hlex
  | c :: ks, [], _, _ =>
    ⟨by simp [lcpLen], by simp [lcpLen], Or.inl (by simp [lcpLen])⟩
  | c :: ks, d :: ps, hne, hlex => by
    by_cases hcd : c = d
    · subst hcd
      have hstep : lexLt (c :: ks) (c :: ps) = lexLt ks ps := by
        simp [lexLt]
      rw [hstep] at hlex
      have hne' : ks ≠ ps := fun h => hne (by rw [h])
      obtain ⟨h1, h2, h3⟩ := lcp_facts ks ps hne' hlex
      have hl : lcpLen (c :: ks) (c :: ps) = lcpLen ks ps + 1 := by simp [lcpLen]
      refine ⟨by simp [hl]; omega, by simp [hl, h2], ?_⟩
      rcases h3 with h3 | ⟨h3a, h3b⟩
      · exact Or.inl (by simp [hl, h3])
      · exact Or.inr ⟨by simp [hl]; omega, by simpa [hl] using h3b⟩
    · have hl : lcpLen (c :: ks) (d :: ps) = 0 := by simp [lcpLen, hcd]
      have hnlt : ¬ c < d := by
        intro hlt
        simp [lexLt, hlt] at hlex
      have hdc : d < c := by omega
      exact ⟨by simp [hl], by simp [hl], Or.inr ⟨by simp [hl], by simpa [hl] using hdc⟩⟩

/-- Finding a transition by label commutes with shifting outputs. -/
theorem find?_map_out (ts : List (Transition O)) (c : Nat) (diff : O) :
    (ts.map (fun t => { t with output := t.output + diff })).find? (fun t => t.label = c)
      = (ts.find? (fun t => t.label = c)).map (fun t => { t with output := t.output + diff }) := by
  induction ts with
  | nil => rfl
  | cons t ts ih =>
    by_cases h : t.label = c
    · simp [List.find?_cons, h]
    · simp only [List.map_cons, List.find?_cons]
      simp [h, ih]

/-- Pushing `diff` into a dangling state shifts the accumulator of every
walk entering it. -/
theorem dangVal_redistribute (reg : List (BState O × Nat)) (e : DanglingState O)
    (tl : List (DanglingState O)) (diff : O) (κ : List Nat) (a : O) :
    dangVal reg (DanglingState.redistribute_output e diff :: tl) κ a
      = dangVal reg (e :: tl) κ (a + diff) := by
  by_cases hd : diff = 0
  · subst hd
    rw [DanglingState.redistribute_output, if_pos rfl, add_zero]
  · rw [DanglingState.redistribute_output, if_neg hd]
    cases κ with
    | nil =>
      by_cases ht : e.state.terminal
      · simp only [dangVal, ht, if_true]
        congr 1
        abel
      · simp [dangVal, ht]
    | cons c ks =>
      simp only [dangVal]
      cases hla : e.last_arc with
      | none =>
        simp only [hla, Option.map_none']
        rw [find?_map_out]
        cases hf : e.state.transitions.find? (fun t => t.label = c) with
        | none => simp
        | some t =>
          simp only [Option.map_some']
          congr 1
          abel
      | some aa =>
        simp only [hla, Option.map_some']
        by_cases hlab : aa.label = c
        · simp only [hlab, if_true]
          congr 1
          abel
        · simp only [hlab, if_false]
          rw [find?_map_out]
          cases hf : e.state.transitions.find? (fun t => t.label = c) with
          | none => simp
          | some t =>
            simp only [Option.map_some']
            congr 1
            abel

/-- Output redistribution along the matched prefix changes no walk value:
the part removed from an arc is pushed into the state below it. -/
theorem dangVal_redistLoop (reg : List (BState O × Nat)) :
    ∀ (ks : List Nat) (stk : List (DanglingState O)) (out : O) (κ : List Nat) (acc : O),
      dangVal reg (redistLoop pf stk ks out).1 κ acc = dangVal reg stk κ acc := by
  intro ks
  induction ks with
  | nil =>
    intro stk out κ acc
    cases stk <;> rfl
  | cons c ks' ih =>
    intro stk out κ acc
    cases stk with
    | nil => rfl
    | cons d rest =>
      cases hla : d.last_arc with
      | none => simp [redistLoop, hla]
      | some t =>
        by_cases hlab : t.label = c
        · simp only [redistLoop, hla, hlab, eq_self_iff_true, if_true]
          cases κ with
          | nil => simp [dangVal]
          | cons c' κs =>
            simp only [dangVal, hla]
            by_cases hcc : c = c'
            · rw [hlab, if_pos hcc, if_pos hcc, ih]
              cases rest with
              | nil => rfl
              | cons e tl =>
                rw [dangVal_redistribute]
                congr 1
                abel
            · rw [hlab, if_neg hcc, if_neg hcc]
        · simp [redistLoop, hla, hlab]

/-- The matched arc outputs plus the remaining output reassemble the
inserted value. -/
theorem redistLoop_sum :
    ∀ (ks : List Nat) (stk : List (DanglingState O)) (out : O),
      arcOuts (redistLoop pf stk ks out).1 (redistLoop pf stk ks out).2.1
        + (redistLoop pf stk ks out).2.2 = out := by
  intro ks
  induction ks with
  | nil =>
    intro stk out
    cases stk <;> simp [redistLoop, arcOuts]
  | cons c ks' ih =>
    intro stk out
    cases stk with
    | nil => simp [redistLoop, arcOuts]
    | cons d rest =>
      cases hla : d.last_arc with
      | none => simp [redistLoop, hla, arcOuts]
      | some t =>
        by_cases hlab : t.label = c
        · simp only [redistLoop, hla, hlab, if_true]
          simp only [arcOuts]
          rw [add_assoc, ih]
          abel
        · simp [redistLoop, hla, hlab, arcOuts]

/-- Arc-output sums only read the first `n` states. -/
theorem arcOuts_take (n : Nat) :
    ∀ (l : List (DanglingState O)), arcOuts (l.take n) n = arcOuts l n := by
  induction n with
  | zero =>
    intro l
    cases l <;> rfl
  | succ n ih =>
    intro l
    cases l with
    | nil => rfl
    | cons d rest =>
      show arcOuts (d :: rest.take n) (n + 1) = arcOuts (d :: rest) (n + 1)
      simp only [arcOuts]
      rw [ih]

/-- Fresh suffix states all carry zero arc outputs. -/
theorem arcOuts_from_label (ls : List Nat) :
    arcOuts (ls.map (DanglingState.from_label (O := O))) ls.length = 0 := by
  induction ls with
  | nil => rfl
  | cons c cs ih =>
    show arcOuts (DanglingState.from_label c :: cs.map _) (cs.length + 1) = 0
    simp only [arcOuts, DanglingState.from_label, DanglingArc.from_label]
    rw [ih, add_zero]

/-- Walking a stack segment whose pending arcs spell the consumed bytes
adds exactly the segment's arc outputs to the accumulator. -/
theorem dangVal_walk (reg : List (BState O × Nat)) :
    ∀ (E : List (DanglingState O)) (ks : List Nat) (S : List (DanglingState O))
      (κ : List Nat) (acc : O),
      E.length = ks.length →
      (∀ j, j < E.length → ∃ a, (E.getD j DanglingState.base).last_arc = some a
        ∧ a.label = ks.getD j 0) →
      dangVal reg (E ++ S) (ks ++ κ) acc = dangVal reg S κ (acc + arcOuts E E.length) := by
  intro E
  induction E with
  | nil =>
    intro ks S κ acc hlen _
    have hks : ks = [] := List.length_eq_zero.mp (by simpa using hlen.symm)
    subst hks
    simp [arcOuts]
  | cons d E' ih =>
    intro ks S κ acc hlen harc
    cases ks with
    | nil => simp at hlen
    | cons k ks' =>
      obtain ⟨a, ha, hal⟩ := harc 0 (by simp)
      simp only [List.getD_cons_zero] at ha hal
      show dangVal reg (d :: (E' ++ S)) (k :: (ks' ++ κ)) acc = _
      simp only [dangVal, ha, hal, if_true]
      rw [ih ks' S κ (acc + a.output) (by simpa using hlen)
        (fun j hj => by simpa [List.getD_cons_succ] using harc (j + 1) (by simpa using hj))]
      simp only [arcOuts, ha]
      congr 1
      abel

/-- Redistribution keeps the stack length. -/
theorem redistLoop_length :
    ∀ (ks : List Nat) (stk : List (DanglingState O)) (out : O),
      (redistLoop pf stk ks out).1.length = stk.length := by
  intro ks
  induction ks with
  | nil =>
    intro stk out
    cases stk <;> rfl
  | cons c ks' ih =>
    intro stk out
    cases stk with
    | nil => rfl
    | cons d rest =>
      cases hla : d.last_arc with
      | none => simp [redistLoop, hla]
      | some t =>
        by_cases hlab : t.label = c
        · simp only [redistLoop, hla, hlab, if_true, List.length_cons]
          rw [ih]
          cases rest <;> simp
        · simp [redistLoop, hla, hlab]

/-- Pushing an output difference keeps labels, destinations and
terminality. -/
theorem redistribute_labels (e : DanglingState O) (diff : O) :
    (DanglingState.redistribute_output e diff).last_arc.map (fun a => a.label)
        = e.last_arc.map (fun a => a.label)
    ∧ (DanglingState.redistribute_output e diff).state.transitions.map
          (fun t => (t.label, t.destination))
        = e.state.transitions.map (fun t => (t.label, t.destination))
    ∧ (DanglingState.redistribute_output e diff).state.terminal = e.state.terminal := by
  rw [DanglingState.redistribute_output]
  by_cases hd : diff = 0
  · simp [hd]
  · refine ⟨?_, ?_, ?_⟩
    · simp [hd, Option.map_map]
      rfl
    · simp [hd, List.map_map]
    · simp [hd]

/-- Redistribution keeps every state's labels, destinations and
terminality. -/
theorem redistLoop_labels :
    ∀ (ks : List Nat) (stk : List (DanglingState O)) (out : O) (j : Nat),
      ((redistLoop pf stk ks out).1.getD j DanglingState.base).last_arc.map (fun a => a.label)
          = ((stk.getD j DanglingState.base).last_arc.map (fun a => a.label))
      ∧ ((redistLoop pf stk ks out).1.getD j DanglingState.base).state.transitions.map
            (fun t => (t.label, t.destination))
          = ((stk.getD j DanglingState.base).state.transitions.map
              (fun t => (t.label, t.destination)))
      ∧ ((redistLoop pf stk ks out).1.getD j DanglingState.base).state.terminal
          = (stk.getD j DanglingState.base).state.terminal := by
  intro ks
  induction ks with
  | nil =>
    intro stk out j
    cases stk <;> exact ⟨rfl, rfl, rfl⟩
  | cons c ks' ih =>
    intro stk out j
    cases stk with
    | nil => exact ⟨rfl, rfl, rfl⟩
    | cons d rest =>
      cases hla : d.last_arc with
      | none => simp [redistLoop, hla]
      | some t =>
        by_cases hlab : t.label = c
        · simp only [redistLoop, hla, hlab, if_true]
          cases j with
          | zero => simp [List.getD_cons_zero, hla, hlab]
          | succ j' =>
            simp only [List.getD_cons_succ]
            cases rest with
            | nil =>
              obtain ⟨i1, i2, i3⟩ := ih [] (out - pf t.output out) j'
              exact ⟨i1, i2, i3⟩
            | cons e tl =>
              obtain ⟨i1, i2, i3⟩ :=
                ih (DanglingState.redistribute_output e (t.output - pf t.output out) :: tl)
                  (out - pf t.output out) j'
              obtain ⟨r1, r2, r3⟩ := redistribute_labels e (t.output - pf t.output out)
              cases j' with
              | zero =>
                simp only [List.getD_cons_zero] at i1 i2 i3 ⊢
                exact ⟨i1.trans r1, i2.trans r2, i3.trans r3⟩
              | succ j'' =>
                simp only [List.getD_cons_succ] at i1 i2 i3 ⊢
                exact ⟨i1, i2, i3⟩
        · simp [redistLoop, hla, hlab]

/-- The matched length of the redistribution walk over a stack whose
pending arcs spell `p` is the longest common prefix of the key and `p`. -/
theorem redistLoop_matched :
    ∀ (ks p : List Nat) (stk : List (DanglingState O)) (out : O),
      stk.length = p.length + 1 →
      (∀ j, j < p.length → ((stk.getD j DanglingState.base).last_arc).map (fun a => a.label)
        = some (p.getD j 0)) →
      (stk.getD p.length DanglingState.base).last_arc = none →
      (redistLoop pf stk ks out).2.1 = lcpLen ks p := by
  intro ks
  induction ks with
  | nil =>
    intro p stk out hlen _ _
    cases stk with
    | nil => simp at hlen
    | cons d rest => cases p <;> rfl
  | cons c ks' ih =>
    intro p stk out hlen harc hdeep
    cases stk with
    | nil => simp at hlen
    | cons d rest =>
      cases p with
      | nil =>
        have hdeep' : d.last_arc = none := by simpa using hdeep
        simp [redistLoop, hdeep', lcpLen]
      | cons q p' =>
        have h0 := harc 0 (by simp)
        simp only [List.getD_cons_zero] at h0
        cases hla : d.last_arc with
        | none => rw [hla] at h0; simp at h0
        | some t =>
          rw [hla] at h0
          have hq : t.label = q := by simpa using h0
          by_cases hc : t.label = c
          · have hcq : c = q := by rw [← hc, hq]
            simp only [redistLoop, hla, hc, eq_self_iff_true, if_true]
            rw [show lcpLen (c :: ks') (q :: p') = lcpLen ks' p' + 1 from by
              simp [lcpLen, hcq]]
            cases rest with
            | nil => simp at hlen
            | cons e tl =>
              have hlen' : tl.length + 1 = p'.length + 1 := by simpa using hlen
              rw [ih p'
                (DanglingState.redistribute_output e (t.output - pf t.output out) :: tl)
                (out - pf t.output out) hlen' ?_ ?_]
              · intro j hj
                cases j with
                | zero =>
                  obtain ⟨r1, _, _⟩ :=
                    redistribute_labels e (t.output - pf t.output out)
                  have h1 := harc 1 (by simp only [List.length_cons]; omega)
                  simp only [List.getD_cons_succ, List.getD_cons_zero] at h1
                  simp only [List.getD_cons_zero]
                  rw [r1]
                  simpa using h1
                | succ j'' =>
                  have h2 := harc (j'' + 2) (by simp only [List.length_cons]; omega)
                  simp only [List.getD_cons_succ] at h2 ⊢
                  exact h2
              · cases hp' : p'.length with
                | zero =>
                  obtain ⟨r1, _, _⟩ :=
                    redistribute_labels e (t.output - pf t.output out)
                  have hd2 := hdeep
                  simp only [List.length_cons, List.getD_cons_succ] at hd2
                  rw [hp'] at hd2
                  simp only [List.getD_cons_zero] at hd2
                  simp only [List.getD_cons_zero]
                  rw [hd2] at r1
                  simpa using r1
                | succ m =>
                  have hd2 := hdeep
                  simp only [List.length_cons, List.getD_cons_succ] at hd2
                  rw [hp'] at hd2
                  simp only [List.getD_cons_succ] at hd2
                  simp only [hp', List.getD_cons_succ]
                  exact hd2
          · have hcq : ¬ c = q := by rw [← hq]; intro hh; exact hc hh.symm
            simp only [redistLoop, hla, hc, if_false]
            simp [lcpLen, hcq]

/-- Redistribution keeps the stack's spelled shape. -/
theorem spells_redistLoop (stk : List (DanglingState O)) (p ks : List Nat) (out : O)
    (hs : Spells stk p) : Spells (redistLoop pf stk ks out).1 p := by
  obtain ⟨hlen, harc, dl, hdl, hdla, hdlt⟩ := hs
  refine ⟨by rw [redistLoop_length]; exact hlen, ?_, ?_⟩
  · intro j hj
    obtain ⟨a, ha, hal, hfr⟩ := harc j hj
    obtain ⟨l1, l2, _⟩ := redistLoop_labels pf ks stk out j
    rw [ha] at l1
    cases hna : ((redistLoop pf stk ks out).1.getD j DanglingState.base).last_arc with
    | none => rw [hna] at l1; simp at l1
    | some a' =>
      rw [hna] at l1
      simp only [Option.map_some', Option.some.injEq] at l1
      refine ⟨a', rfl, by rw [l1, hal], ?_⟩
      intro t ht
      have hmem : (t.label, t.destination) ∈
          ((stk.getD j DanglingState.base).state.transitions.map
            (fun t => (t.label, t.destination))) := by
        rw [← l2]
        exact List.mem_map_of_mem _ ht
      obtain ⟨t0, ht0, hpair⟩ := List.mem_map.mp hmem
      have hlab0 : t0.label = t.label := congrArg Prod.fst hpair
      rw [l1, ← hlab0]
      exact hfr t0 ht0
  · have hlen1 : (redistLoop pf stk ks out).1.length = p.length + 1 := by
      rw [redistLoop_length]; exact hlen
    have hne : (redistLoop pf stk ks out).1 ≠ [] := by
      intro hh; rw [hh] at hlen1; simp at hlen1
    have hsne : stk ≠ [] := by
      intro hh; rw [hh] at hlen; simp at hlen
    have hdl0 : stk.getD (stk.length - 1) DanglingState.base = dl := by
      have := getLast?_eq_getD stk DanglingState.base hsne
      rw [hdl] at this
      exact (Option.some.injEq _ _).mp this.symm
    rw [hlen] at hdl0
    simp only [Nat.add_sub_cancel] at hdl0
    obtain ⟨l1, l2, _⟩ := redistLoop_labels pf ks stk out p.length
    rw [hdl0] at l1 l2
    refine ⟨_, getLast?_eq_getD _ DanglingState.base hne, ?_, ?_⟩
    · rw [hlen1]
      simp only [Nat.add_sub_cancel]
      rw [hdla] at l1
      simpa using l1
    · rw [hlen1]
      simp only [Nat.add_sub_cancel]
      rw [hdlt] at l2
      simpa using l2

/-- Finding with a predicate that singles out one position returns the
element there. -/
theorem find?_of_getElem {α : Type} :
    ∀ (l : List α) (p : α → Bool) (j : Nat) (hj : j < l.length),
      (∀ m (hm : m < l.length), p (l.get ⟨m, hm⟩) = true ↔ m = j) →
      l.find? p = some (l.get ⟨j, hj⟩) := by
  intro l
  induction l with
  | nil => intro p j hj; simp at hj
  | cons a l ih =>
    intro p j hj hp
    cases j with
    | zero =>
      have hpa : p a = true := (hp 0 (by simp)).mpr rfl
      rw [List.find?_cons_of_pos _ hpa]
      rfl
    | succ j' =>
      have h0 : p a = false := by
        rcases hpa : p a with _ | _
        · rfl
        · have := (hp 0 (by simp)).mp hpa
          omega
      rw [List.find?_cons_of_neg _ (by simp [h0])]
      exact ih p j' (by simpa using hj) (fun m hm => by
        have := hp (m + 1) (by simpa using hm)
        simpa using this)

/-- In a densely indexed registry, the entry at position `j` carries
index `j`. -/
theorem reg_idx_getElem (reg : List (BState O × Nat))
    (hidx : reg.map (fun e => e.2) = List.range reg.length)
    (j : Nat) (hj : j < reg.length) : (reg.get ⟨j, hj⟩).2 = j := by
  have h3 : (reg.map (fun e => e.2))[j]? = (List.range reg.length)[j]? := by rw [hidx]
  rw [List.getElem?_map, List.getElem?_range hj, List.getElem?_eq_getElem hj] at h3
  simpa using h3

/-- Finding by index in a densely indexed registry returns the entry at
that position. -/
theorem reg_find_idx (reg : List (BState O × Nat))
    (hidx : reg.map (fun e => e.2) = List.range reg.length)
    (j : Nat) (hj : j < reg.length) :
    reg.find? (fun x => x.2 = j) = some (reg.get ⟨j, hj⟩) := by
  apply find?_of_getElem reg _ j hj
  intro m hm
  constructor
  · intro hpm
    have hm2 := reg_idx_getElem reg hidx m hm
    have : (reg.get ⟨m, hm⟩).2 = j := by simpa using hpm
    omega
  · intro hmj
    subst hmj
    simp only [decide_eq_true_eq]
    exact reg_idx_getElem reg hidx m hm

/-- Finding an index past the dense range fails. -/
theorem reg_find_idx_none (reg : List (BState O × Nat))
    (hidx : reg.map (fun e => e.2) = List.range reg.length)
    (j : Nat) (hj : reg.length ≤ j) :
    reg.find? (fun x => x.2 = j) = none := by
  apply List.find?_eq_none.mpr
  intro x hx
  obtain ⟨n, hxn⟩ := List.mem_iff_get.mp hx
  have := reg_idx_getElem reg hidx n.1 n.2
  rw [hxn] at this
  simp only [decide_eq_true_eq]
  omega

/-- Destination closure survives appending registry entries. -/
theorem regClosed_append (reg Δ : List (BState O × Nat)) (s : BState O)
    (h : regClosed reg s) : regClosed (reg ++ Δ) s := by
  intro t ht
  exact find?_isSome_append _ _ _ (h t ht)

/-- Looking up a present index ignores appended entries. -/
theorem lookupState_append_of_isSome (reg Δ : List (BState O × Nat)) (j : Nat)
    (hj : (reg.find? (fun x => x.2 = j)).isSome = true) :
    lookupState (reg ++ Δ) j = lookupState reg j := by
  unfold lookupState
  rw [find?_append_isSome_eq _ _ _ hj]

/-- Walking the registry from a present index ignores appended entries,
thanks to destination closure. -/
theorem regVal_append (reg Δ : List (BState O × Nat))
    (hcl : ∀ e ∈ reg, regClosed reg e.1) :
    ∀ (κ : List Nat) (j : Nat) (acc : O),
      (reg.find? (fun x => x.2 = j)).isSome = true →
      regVal (reg ++ Δ) j κ acc = regVal reg j κ acc := by
  intro κ
  induction κ with
  | nil =>
    intro j acc hj
    unfold regVal
    rw [lookupState_append_of_isSome reg Δ j hj]
  | cons c ks ih =>
    intro j acc hj
    unfold regVal
    rw [lookupState_append_of_isSome reg Δ j hj]
    cases hf : reg.find? (fun x => x.2 = j) with
    | none => rw [hf] at hj; simp at hj
    | some e =>
      unfold lookupState
      rw [hf]
      simp only [Option.map_some']
      cases hft : e.1.transitions.find? (fun t => t.label = c) with
      | none => rfl
      | some t =>
        apply ih
        exact hcl e (List.mem_of_find?_eq_some hf) t (List.mem_of_find?_eq_some hft)

/-- Walk congruence over a closed stack segment: appended registry entries
and a rewritten tail change nothing before the tail is reached. -/
theorem dangVal_cong_append (reg Δ : List (BState O × Nat))
    (S1 S2 : List (DanglingState O))
    (hclreg : ∀ e ∈ reg, regClosed reg e.1)
    (htail : ∀ (κ : List Nat) (acc : O),
      dangVal (reg ++ Δ) S2 κ acc = dangVal reg S1 κ acc) :
    ∀ (E : List (DanglingState O)), (∀ d ∈ E, regClosed reg d.state) →
      ∀ (κ : List Nat) (acc : O),
        dangVal (reg ++ Δ) (E ++ S2) κ acc = dangVal reg (E ++ S1) κ acc := by
  intro E
  induction E with
  | nil =>
    intro _ κ acc
    exact htail κ acc
  | cons d E' ih =>
    intro hclE κ acc
    cases κ with
    | nil => rfl
    | cons c ks =>
      show dangVal _ (d :: (E' ++ S2)) (c :: ks) acc
        = dangVal _ (d :: (E' ++ S1)) (c :: ks) acc
      simp only [dangVal]
      cases hla : d.last_arc with
      | some a =>
        by_cases hl : a.label = c
        · simp only [hl, if_true]
          exact ih (fun d' hd' => hclE d' (by simp [hd'])) ks (acc + a.output)
        · simp only [hl, if_false]
          cases hft : d.state.transitions.find? (fun t => t.label = c) with
          | none => rfl
          | some t =>
            exact regVal_append reg Δ hclreg ks t.destination _
              (hclE d (by simp) t (List.mem_of_find?_eq_some hft))
      | none =>
        cases hft : d.state.transitions.find? (fun t => t.label = c) with
        | none => rfl
        | some t =>
          exact regVal_append reg Δ hclreg ks t.destination _
            (hclE d (by simp) t (List.mem_of_find?_eq_some hft))

/-- Conditional walk congruence under a common prefix: successful walks
survive a rewritten tail. -/
theorem dangVal_cong_tail (reg : List (BState O × Nat))
    (S1 S2 : List (DanglingState O))
    (htail : ∀ (κ : List Nat) (acc : O) (w : O),
      dangVal reg S1 κ acc = some w → dangVal reg S2 κ acc = some w) :
    ∀ (E : List (DanglingState O)) (κ : List Nat) (acc : O) (w : O),
      dangVal reg (E ++ S1) κ acc = some w → dangVal reg (E ++ S2) κ acc = some w := by
  intro E
  induction E with
  | nil =>
    intro κ acc w h
    exact htail κ acc w h
  | cons d E' ih =>
    intro κ acc w h
    cases κ with
    | nil => exact h
    | cons c ks =>
      cases hla : d.last_arc with
      | some a =>
        simp only [dangVal, hla] at h ⊢
        by_cases hl : a.label = c
        · rw [if_pos hl] at h ⊢
          exact ih ks (acc + a.output) w h
        · rw [if_neg hl] at h ⊢
          exact h
      | none =>
        simp only [dangVal, hla] at h ⊢
        exact h

/-- A registered copy of a dangling state with no pending arc walks the
same as the dangling state. -/
theorem regVal_eq_dangVal_single (reg : List (BState O × Nat)) (d : DanglingState O)
    (i : Nat) (hla : d.last_arc = none) (hlk : lookupState reg i = some d.state) :
    ∀ (κ : List Nat) (acc : O), regVal reg i κ acc = dangVal reg [d] κ acc := by
  intro κ acc
  cases κ with
  | nil =>
    unfold regVal
    rw [hlk]
    rfl
  | cons c ks =>
    unfold regVal
    rw [hlk]
    simp only [dangVal, hla]

/-- Successful interning of a state in a well-formed registry: dense
indices are kept, the registry grows by at most the new entry, and the
returned index resolves to the state. -/
theorem registerR_ok (b : Builder O) (s : BState O) (b' : Builder O) (i : Nat)
    (hidx : b.registry.map (fun e => e.2) = List.range b.registry.length)
    (husable : b.usable_index = b.registry.length)
    (h : registerR b s = (b', Except.ok i)) :
    b'.registry.map (fun e => e.2) = List.range b'.registry.length
    ∧ b'.usable_index = b'.registry.length
    ∧ (∃ Δ, b'.registry = b.registry ++ Δ ∧ (Δ = [] ∨ Δ = [(s, b.registry.length)]))
    ∧ (b'.registry.find? (fun x => x.2 = i)).isSome = true
    ∧ lookupState b'.registry i = some s
    ∧ b'.dangling = b.dangling ∧ b'.previous_key = b.previous_key
    ∧ b'.root = b.root ∧ b'.ibound = b.ibound ∧ b'.language_size = b.language_size := by
  unfold registerR at h
  cases hf : b.registry.find? (fun e => e.1 = s) with
  | some e =>
    rw [hf] at h
    simp only [Prod.mk.injEq] at h
    obtain ⟨hb, hi⟩ := h
    injection hi with hi'
    subst hb
    have hmem : e ∈ b.registry := List.mem_of_find?_eq_some hf
    have hes : e.1 = s := by
      have := List.find?_some hf
      simpa using this
    obtain ⟨n, hn⟩ := List.mem_iff_get.mp hmem
    have he2 : e.2 = n.1 := by rw [← hn]; exact reg_idx_getElem b.registry hidx n.1 n.2
    have hjlt : e.2 < b.registry.length := by rw [he2]; exact n.2
    have hfind := reg_find_idx b.registry hidx e.2 hjlt
    have hgete : b.registry.get ⟨e.2, hjlt⟩ = e := by
      rw [show (⟨e.2, hjlt⟩ : Fin b.registry.length) = n from Fin.ext he2]
      exact hn
    refine ⟨hidx, husable, ⟨[], by simp, Or.inl rfl⟩, ?_, ?_, rfl, rfl, rfl, rfl, rfl⟩
    · rw [← hi', hfind]
      rfl
    · unfold lookupState
      rw [← hi', hfind]
      simp only [Option.map_some', Option.some.injEq]
      exact (congrArg Prod.fst hgete).trans hes
  | none =>
    rw [hf] at h
    simp only at h
    by_cases hg : b.usable_index > b.ibound
        ∨ b.transition_count + s.transitions.length > b.ibound
    · rw [if_pos hg] at h
      simp only [Prod.mk.injEq] at h
      cases h.2
    · rw [if_neg hg] at h
      simp only [Prod.mk.injEq] at h
      obtain ⟨hb, hi⟩ := h
      injection hi with hi'
      push_neg at hg
      have hasx : asIndex b.ibound b.usable_index = b.usable_index := by
        unfold asIndex
        exact Nat.mod_eq_of_lt (by omega)
      subst hb
      have hkey : asIndex b.ibound b.usable_index = b.registry.length := by
        rw [hasx, husable]
      have hnewreg : b.registry ++ [(s, asIndex b.ibound b.usable_index)]
          = b.registry ++ [(s, b.registry.length)] := by rw [hkey]
      have hlen : (b.registry ++ [(s, asIndex b.ibound b.usable_index)]).length
          = b.registry.length + 1 := by simp
      have hfnone : b.registry.find? (fun x => x.2 = b.registry.length) = none :=
        reg_find_idx_none b.registry hidx b.registry.length (le_refl _)
      have hfnew : (b.registry ++ [(s, b.registry.length)]).find?
          (fun x => x.2 = b.registry.length) = some (s, b.registry.length) := by
        rw [find?_append_none_eq _ _ _ hfnone]
        simp
      refine ⟨?_, ?_, ⟨[(s, b.registry.length)], by simpa using hnewreg, Or.inr rfl⟩,
        ?_, ?_, rfl, rfl, rfl, rfl, rfl⟩
      · show (b.registry ++ [(s, asIndex b.ibound b.usable_index)]).map (fun e => e.2)
          = List.range (b.registry ++ [(s, asIndex b.ibound b.usable_index)]).length
        rw [hnewreg]
        simp only [List.map_append, hidx, List.length_append, List.map_cons, List.map_nil,
          List.length_cons, List.length_nil]
        rw [show b.registry.length + (0 + 1) = b.registry.length + 1 from by omega,
          List.range_succ]
      · show b.usable_index + 1 = (b.registry ++ [(s, asIndex b.ibound b.usable_index)]).length
        rw [hlen, husable]
      · show ((b.registry ++ [(s, asIndex b.ibound b.usable_index)]).find?
          (fun x => x.2 = i)).isSome = true
        rw [hnewreg, ← hi', hkey, hfnew]
        rfl
      · show lookupState (b.registry ++ [(s, asIndex b.ibound b.usable_index)]) i = some s
        unfold lookupState
        rw [hnewreg, ← hi', hkey, hfnew]
        rfl

/-- Freezing step for one popped state: affixing its pending arc with the
index of the state just interned walks the same as keeping both states on
the stack. -/
theorem dangVal_pop_step (reg Δ : List (BState O × Nat)) (x popped : DanglingState O)
    (a : DanglingArc O) (i' : Nat)
    (hclreg : ∀ e ∈ reg, regClosed reg e.1)
    (hx : x.last_arc = some a)
    (hfz : ∀ t ∈ x.state.transitions, t.label < a.label)
    (hpop : popped.last_arc = none)
    (hlk : lookupState (reg ++ Δ) i' = some popped.state)
    (hclx : regClosed reg x.state)
    (hclpop : regClosed reg popped.state) :
    ∀ (κ : List Nat) (acc : O),
      dangVal (reg ++ Δ) [x.affix_last i'] κ acc = dangVal reg [x, popped] κ acc := by
  intro κ acc
  cases κ with
  | nil =>
    simp only [DanglingState.affix_last, hx]
    rfl
  | cons c ks =>
    simp only [DanglingState.affix_last, hx]
    simp only [dangVal, hx]
    by_cases hab : a.label = c
    · rw [if_pos hab]
      have hnone : x.state.transitions.find? (fun t => t.label = c) = none := by
        apply List.find?_eq_none.mpr
        intro t ht
        have := hfz t ht
        simp only [decide_eq_true_eq]
        omega
      rw [find?_append_none_eq _ _ _ hnone]
      rw [show ([(⟨a.label, a.output, i'⟩ : Transition O)]).find? (fun t => t.label = c)
          = some ⟨a.label, a.output, i'⟩ from by simp [List.find?_cons, hab]]
      show regVal (reg ++ Δ) i' ks (acc + a.output) = dangVal reg [popped] ks (acc + a.output)
      rw [regVal_eq_dangVal_single (reg ++ Δ) popped i' hpop hlk]
      have := dangVal_cong_append reg Δ [] [] hclreg (fun _ _ => rfl) [popped]
        (fun d hd => by
          have hdp : d = popped := by simpa using hd
          rw [hdp]; exact hclpop) ks (acc + a.output)
      simpa using this
    · rw [if_neg hab]
      cases hft : x.state.transitions.find? (fun t => t.label = c) with
      | none =>
        rw [find?_append_none_eq _ _ _ hft]
        simp [List.find?_cons, hab]
      | some t =>
        rw [find?_append_isSome_eq _ _ _ (by rw [hft]; rfl), hft]
        exact regVal_append reg Δ hclreg ks t.destination _
          (hclx t (List.mem_of_find?_eq_some hft))

/-- Attaching the new suffix arc to the divergence state keeps every
walk that used to succeed: the new label is above every frozen label. -/
theorem dangVal_addSuffix_tail (reg : List (BState O × Nat)) (x : DanglingState O)
    (c : Nat) (o : O) (REST : List (DanglingState O))
    (hla : x.last_arc = none)
    (hfr : ∀ t ∈ x.state.transitions, t.label < c) :
    ∀ (κ : List Nat) (acc : O) (w : O),
      dangVal reg [x] κ acc = some w →
      dangVal reg ({ x with last_arc := some ⟨c, o⟩ } :: REST) κ acc = some w := by
  intro κ acc w h
  cases κ with
  | nil => exact h
  | cons b ks =>
    simp only [dangVal] at h ⊢
    rw [hla] at h
    by_cases hbc : c = b
    · exfalso
      cases hft : x.state.transitions.find? (fun t => t.label = b) with
      | none => rw [hft] at h; cases h
      | some t =>
        have h1 := List.find?_some hft
        have h2 := hfr t (List.mem_of_find?_eq_some hft)
        simp only [decide_eq_true_eq] at h1
        omega
    · rw [if_neg hbc]
      exact h

/-- Affixing always discharges the pending arc. -/
theorem affix_last_arc (d : DanglingState O) (i : Nat) :
    (DanglingState.affix_last d i).last_arc = none := by
  cases h : d.last_arc <;> simp [DanglingState.affix_last, h]

/-- Affixing a state with no pending arc changes nothing. -/
theorem affix_last_state_none (d : DanglingState O) (i : Nat) (h : d.last_arc = none) :
    DanglingState.affix_last d i = d := by
  simp [DanglingState.affix_last, h]

/-- Affixing a state with a pending arc freezes it with the destination. -/
theorem affix_last_state_some (d : DanglingState O) (a : DanglingArc O) (i : Nat)
    (h : d.last_arc = some a) :
    DanglingState.affix_last d i
      = { state :=
            { terminal := d.state.terminal
            , final_output := d.state.final_output
            , transitions := d.state.transitions ++ [⟨a.label, a.output, i⟩] }
        , last_arc := none } := by
  simp [DanglingState.affix_last, h]

/-- The last finalisation step only rewrites the dangling stack. -/
theorem finalizeLast_eq (b : Builder O) (idx : Option Nat) :
    finalizeLast b idx = { b with dangling := affixTop b.dangling idx } := by
  cases idx with
  | none => rfl
  | some i =>
    unfold finalizeLast affixTop
    cases hgl : b.dangling.getLast? <;> simp [hgl]

/-- Semantic invariance of the freeze loop: a successful run walks every
key to the same value as the stack it started from (with the incoming
index affixed), the popped states living on in the registry. -/
theorem fsLoop_sem (ps : Nat) :
    ∀ (fuel : Nat) (b : Builder O) (idx : Option Nat) (b' : Builder O),
      b.registry.map (fun e => e.2) = List.range b.registry.length →
      b.usable_index = b.registry.length →
      (∀ e ∈ b.registry, regClosed b.registry e.1) →
      (∀ d ∈ b.dangling, regClosed b.registry d.state) →
      (∀ j, j + 1 < b.dangling.length →
        ∃ a, (b.dangling.getD j DanglingState.base).last_arc = some a
          ∧ ∀ t ∈ (b.dangling.getD j DanglingState.base).state.transitions, t.label < a.label) →
      (idx = none → ∀ dl, b.dangling.getLast? = some dl → dl.last_arc = none) →
      (∀ i0, idx = some i0 → (b.registry.find? (fun x => x.2 = i0)).isSome = true) →
      fsLoop ps fuel b idx = (b', none) →
      ∀ (κ : List Nat) (acc : O),
        dangVal b'.registry b'.dangling κ acc
          = dangVal b.registry (affixTop b.dangling idx) κ acc := by
  intro fuel
  induction fuel with
  | zero =>
    intro b idx b' _ _ _ _ _ _ _ h κ acc
    simp only [fsLoop] at h
    have hb' : finalizeLast b idx = b' := congrArg Prod.fst h
    rw [← hb', finalizeLast_eq]
  | succ fuel ih =>
    intro b idx b' hidx husable hclreg hclD harc hdeep hpres h κ acc
    unfold fsLoop at h
    split at h
    · rename_i hlt
      rcases hgl : b.dangling.getLast? with _ | d
      · exfalso
        by_cases hne : b.dangling = []
        · rw [hne] at hlt; simp at hlt
        · rw [getLast?_eq_getD b.dangling DanglingState.base hne] at hgl; cases hgl
      · rw [hgl] at h
        simp only at h
        rcases hreg : registerR { b with dangling := b.dangling.dropLast }
            (match idx with | some i0 => d.affix_last i0 | none => d).state with ⟨b2, r⟩
        rcases r with e' | i'
        · rw [hreg] at h
          simp [Prod.mk.injEq] at h
        · rw [hreg] at h
          set popped := (match idx with | some i0 => d.affix_last i0 | none => d) with hpop
          obtain ⟨hidx2, husable2, ⟨Δ, hΔ0, hΔcase⟩, hfind', hlk, hdang0, hprev2, hroot2,
            hib2, hlang2⟩ := registerR_ok { b with dangling := b.dangling.dropLast }
              popped.state b2 i' hidx husable hreg
          have hΔ : b2.registry = b.registry ++ Δ := hΔ0
          have hdang2 : b2.dangling = b.dangling.dropLast := hdang0
          have hdmem : d ∈ b.dangling := by
            rw [eq_dropLast_concat hgl]; simp
          have hpopla : popped.last_arc = none := by
            rw [hpop]
            cases idx with
            | none => exact hdeep rfl d hgl
            | some i0 => exact affix_last_arc d i0
          have hclpop : regClosed b.registry popped.state := by
            rw [hpop]
            cases idx with
            | none => exact hclD d hdmem
            | some i0 =>
              show regClosed b.registry (d.affix_last i0).state
              cases hdla : d.last_arc with
              | none => rw [affix_last_state_none d i0 hdla]; exact hclD d hdmem
              | some a0 =>
                rw [affix_last_state_some d a0 i0 hdla]
                intro t ht
                rcases List.mem_append.mp ht with ht | ht
                · exact hclD d hdmem t ht
                · have hta : t = ⟨a0.label, a0.output, i0⟩ := by simpa using ht
                  rw [hta]
                  exact hpres i0 rfl
          have hclreg2 : ∀ e ∈ b2.registry, regClosed b2.registry e.1 := by
            intro e he
            rw [hΔ] at he ⊢
            rcases List.mem_append.mp he with he | he
            · exact regClosed_append _ _ _ (hclreg e he)
            · rcases hΔcase with hc | hc
              · rw [hc] at he; simp at he
              · rw [hc] at he
                have hee : e = (popped.state, b.registry.length) := by simpa using he
                rw [hee]
                exact regClosed_append _ _ _ hclpop
          have hclD2 : ∀ d' ∈ b2.dangling, regClosed b2.registry d'.state := by
            intro d' hd'
            rw [hdang2] at hd'
            have hmm : d' ∈ b.dangling := by
              rw [eq_dropLast_concat hgl]
              exact List.mem_append_left _ hd'
            rw [hΔ]
            exact regClosed_append _ _ _ (hclD d' hmm)
          have harc2 : ∀ j, j + 1 < b2.dangling.length →
              ∃ a, (b2.dangling.getD j DanglingState.base).last_arc = some a
                ∧ ∀ t ∈ (b2.dangling.getD j DanglingState.base).state.transitions,
                    t.label < a.label := by
            intro j hj
            rw [hdang2, List.length_dropLast] at hj
            rw [hdang2, getD_dropLast _ _ _ (by omega)]
            exact harc j (by omega)
          have hdeep2 : (some i' : Option Nat) = none →
              ∀ dl, b2.dangling.getLast? = some dl → dl.last_arc = none := by
            intro hc; cases hc
          have hpres2 : ∀ i0, (some i' : Option Nat) = some i0 →
              (b2.registry.find? (fun x => x.2 = i0)).isSome = true := by
            intro i0 hi0
            injection hi0 with hi0
            rw [← hi0]
            exact hfind'
          have ihres := ih b2 (some i') b' hidx2 husable2 hclreg2 hclD2 harc2 hdeep2 hpres2 h κ acc
          rw [ihres]
          have hne' : b.dangling.dropLast ≠ [] := by
            have hll : b.dangling.dropLast.length = b.dangling.length - 1 :=
              List.length_dropLast _
            intro hc
            rw [hc] at hll
            simp at hll
            omega
          have hx := getLast?_eq_getD (b.dangling.dropLast) DanglingState.base hne'
          set x := b.dangling.dropLast.getD (b.dangling.dropLast.length - 1) DanglingState.base
            with hxdef
          have hxD : x = b.dangling.getD (b.dangling.length - 2) DanglingState.base := by
            rw [hxdef, List.length_dropLast, getD_dropLast _ _ _ (by omega),
              show b.dangling.length - 1 - 1 = b.dangling.length - 2 from by omega]
          obtain ⟨a, ha, hfz⟩ := harc (b.dangling.length - 2) (by omega)
          rw [← hxD] at ha hfz
          have haff1 : affixTop b.dangling.dropLast (some i')
              = b.dangling.dropLast.dropLast ++ [x.affix_last i'] := by
            unfold affixTop
            rw [hx]
          have hlk' : lookupState (b.registry ++ Δ) i' = some popped.state := by
            rw [← hΔ]; exact hlk
          have hclx : regClosed b.registry x.state := by
            have hxm : x ∈ b.dangling := by
              rw [hxD]; exact getD_mem _ (by omega)
            exact hclD x hxm
          have hstep := dangVal_pop_step b.registry Δ x popped a i' hclreg ha hfz
            hpopla hlk' hclx hclpop
          have hclE : ∀ d' ∈ b.dangling.dropLast.dropLast, regClosed b.registry d'.state := by
            intro d' hd'
            have h1 : d' ∈ b.dangling.dropLast := by
              rw [eq_dropLast_concat hx]
              exact List.mem_append_left _ hd'
            have h2 : d' ∈ b.dangling := by
              rw [eq_dropLast_concat hgl]
              exact List.mem_append_left _ h1
            exact hclD d' h2
          have hcong := dangVal_cong_append b.registry Δ [x, popped] [x.affix_last i']
            hclreg hstep (b.dangling.dropLast.dropLast) hclE κ acc
          have hlist : b.dangling.dropLast.dropLast ++ [x, popped]
              = b.dangling.dropLast ++ [popped] := by
            rw [show ([x, popped] : List (DanglingState O)) = [x] ++ [popped] from rfl,
              ← List.append_assoc, ← eq_dropLast_concat hx]
          have haff2 : affixTop b.dangling idx = b.dangling.dropLast ++ [popped] := by
            cases idx with
            | none =>
              have hpd : popped = d := by rw [hpop]
              rw [hpd]
              show b.dangling = _
              exact eq_dropLast_concat hgl
            | some i0 =>
              have hpd : popped = d.affix_last i0 := by rw [hpop]
              rw [hpd]
              unfold affixTop
              rw [hgl]
          rw [hdang2, hΔ, haff1, hcong, hlist, ← haff2]
    · rename_i hnlt
      have hb' : finalizeLast b idx = b' := congrArg Prod.fst h
      rw [← hb', finalizeLast_eq]

/-- Structural effect of a successful freeze loop: the registry grows by
states affixed from popped stack positions beyond `ps` and stays densely
indexed and closed; the dangling stack is cut at `ps`, its new top
carrying the frozen arc of the old state there. -/
theorem fsLoop_dang (ps : Nat) :
    ∀ (fuel : Nat) (b : Builder O) (idx : Option Nat) (b' : Builder O),
      b.registry.map (fun e => e.2) = List.range b.registry.length →
      b.usable_index = b.registry.length →
      (∀ e ∈ b.registry, regClosed b.registry e.1) →
      (∀ d ∈ b.dangling, regClosed b.registry d.state) →
      (∀ j, j + 1 < b.dangling.length →
        ∃ a, (b.dangling.getD j DanglingState.base).last_arc = some a
          ∧ ∀ t ∈ (b.dangling.getD j DanglingState.base).state.transitions, t.label < a.label) →
      (idx = none → ∀ dl, b.dangling.getLast? = some dl → dl.last_arc = none) →
      (∀ i0, idx = some i0 → (b.registry.find? (fun x => x.2 = i0)).isSome = true) →
      b.dangling.length ≤ fuel + ps + 1 →
      fsLoop ps fuel b idx = (b', none) →
      (∃ Δ, b'.registry = b.registry ++ Δ
        ∧ ∀ e ∈ Δ, ∃ j, ps < j ∧ j < b.dangling.length
            ∧ ∃ i2, e.1 = ((b.dangling.getD j DanglingState.base).affix_last i2).state)
      ∧ b'.registry.map (fun e => e.2) = List.range b'.registry.length
      ∧ b'.usable_index = b'.registry.length
      ∧ (∀ e ∈ b'.registry, regClosed b'.registry e.1)
      ∧ b'.previous_key = b.previous_key
      ∧ b'.root = b.root ∧ b'.ibound = b.ibound ∧ b'.language_size = b.language_size
      ∧ ((¬ ps + 1 < b.dangling.length ∧ b'.dangling = affixTop b.dangling idx)
         ∨ (ps + 1 < b.dangling.length ∧ ∃ a di,
              (b.dangling.getD ps DanglingState.base).last_arc = some a
              ∧ (b'.registry.find? (fun x => x.2 = di)).isSome = true
              ∧ b'.dangling = b.dangling.take ps ++
                  [{ state :=
                       { terminal := (b.dangling.getD ps DanglingState.base).state.terminal
                       , final_output := (b.dangling.getD ps DanglingState.base).state.final_output
                       , transitions := (b.dangling.getD ps DanglingState.base).state.transitions
                           ++ [⟨a.label, a.output, di⟩] }
                   , last_arc := none }])) := by
  intro fuel
  induction fuel with
  | zero =>
    intro b idx b' hidx husable hclreg hclD harc hdeep hpres hfuel h
    simp only [fsLoop] at h
    have hb' : finalizeLast b idx = b' := congrArg Prod.fst h
    rw [← hb', finalizeLast_eq]
    exact ⟨⟨[], by simp, by simp⟩, hidx, husable, hclreg, rfl, rfl, rfl, rfl,
      Or.inl ⟨by omega, rfl⟩⟩
  | succ fuel ih =>
    intro b idx b' hidx husable hclreg hclD harc hdeep hpres hfuel h
    unfold fsLoop at h
    split at h
    · rename_i hlt
      rcases hgl : b.dangling.getLast? with _ | d
      · exfalso
        by_cases hne : b.dangling = []
        · rw [hne] at hlt; simp at hlt
        · rw [getLast?_eq_getD b.dangling DanglingState.base hne] at hgl; cases hgl
      · rw [hgl] at h
        simp only at h
        rcases hreg : registerR { b with dangling := b.dangling.dropLast }
            (match idx with | some i0 => d.affix_last i0 | none => d).state with ⟨b2, r⟩
        rcases r with e' | i'
        · rw [hreg] at h
          simp [Prod.mk.injEq] at h
        · rw [hreg] at h
          set popped := (match idx with | some i0 => d.affix_last i0 | none => d) with hpop
          obtain ⟨hidx2, husable2, ⟨Δ0, hΔ00, hΔcase⟩, hfind', hlk, hdang0, hprev2, hroot2,
            hib2, hlang2⟩ := registerR_ok { b with dangling := b.dangling.dropLast }
              popped.state b2 i' hidx husable hreg
          have hΔ0' : b2.registry = b.registry ++ Δ0 := hΔ00
          have hdang2 : b2.dangling = b.dangling.dropLast := hdang0
          have hdmem : d ∈ b.dangling := by
            rw [eq_dropLast_concat hgl]; simp
          have hdgetD : b.dangling.getD (b.dangling.length - 1) DanglingState.base = d := by
            have hne : b.dangling ≠ [] := by
              intro hc; rw [hc] at hgl; cases hgl
            have := getLast?_eq_getD b.dangling DanglingState.base hne
            rw [hgl] at this
            exact ((Option.some.injEq _ _).mp this.symm)
          have hclpop : regClosed b.registry popped.state := by
            rw [hpop]
            cases idx with
            | none => exact hclD d hdmem
            | some i0 =>
              show regClosed b.registry (d.affix_last i0).state
              cases hdla : d.last_arc with
              | none => rw [affix_last_state_none d i0 hdla]; exact hclD d hdmem
              | some a0 =>
                rw [affix_last_state_some d a0 i0 hdla]
                intro t ht
                rcases List.mem_append.mp ht with ht | ht
                · exact hclD d hdmem t ht
                · have hta : t = ⟨a0.label, a0.output, i0⟩ := by simpa using ht
                  rw [hta]
                  exact hpres i0 rfl
          have hclreg2 : ∀ e ∈ b2.registry, regClosed b2.registry e.1 := by
            intro e he
            rw [hΔ0'] at he ⊢
            rcases List.mem_append.mp he with he | he
            · exact regClosed_append _ _ _ (hclreg e he)
            · rcases hΔcase with hc | hc
              · rw [hc] at he; simp at he
              · rw [hc] at he
                have hee : e = (popped.state, b.registry.length) := by simpa using he
                rw [hee]
                exact regClosed_append _ _ _ hclpop
          have hclD2 : ∀ d' ∈ b2.dangling, regClosed b2.registry d'.state := by
            intro d' hd'
            rw [hdang2] at hd'
            have hmm : d' ∈ b.dangling := by
              rw [eq_dropLast_concat hgl]
              exact List.mem_append_left _ hd'
            rw [hΔ0']
            exact regClosed_append _ _ _ (hclD d' hmm)
          have harc2 : ∀ j, j + 1 < b2.dangling.length →
              ∃ a, (b2.dangling.getD j DanglingState.base).last_arc = some a
                ∧ ∀ t ∈ (b2.dangling.getD j DanglingState.base).state.transitions,
                    t.label < a.label := by
            intro j hj
            rw [hdang2, List.length_dropLast] at hj
            rw [hdang2, getD_dropLast _ _ _ (by omega)]
            exact harc j (by omega)
          have hdeep2 : (some i' : Option Nat) = none →
              ∀ dl, b2.dangling.getLast? = some dl → dl.last_arc = none := by
            intro hc; cases hc
          have hpres2 : ∀ i0, (some i' : Option Nat) = some i0 →
              (b2.registry.find? (fun x => x.2 = i0)).isSome = true := by
            intro i0 hi0
            injection hi0 with hi0
            rw [← hi0]
            exact hfind'
          have hfuel2 : b2.dangling.length ≤ fuel + ps + 1 := by
            rw [hdang2, List.length_dropLast]
            omega
          obtain ⟨⟨Δ', hΔ', hΔ'char⟩, ihidx, ihusable, ihclreg, ihprev, ihroot, ihib,
            ihlang, ihdang⟩ := ih b2 (some i') b' hidx2 husable2 hclreg2 hclD2 harc2
              hdeep2 hpres2 hfuel2 h
          refine ⟨⟨Δ0 ++ Δ', by rw [hΔ', hΔ0', List.append_assoc], ?_⟩,
            ihidx, ihusable, ihclreg,
            by rw [ihprev, hprev2], by rw [ihroot, hroot2], by rw [ihib, hib2],
            by rw [ihlang, hlang2], ?_⟩
          · intro e he
            rcases List.mem_append.mp he with he | he
            · rcases hΔcase with hc | hc
              · rw [hc] at he; simp at he
              · rw [hc] at he
                have hee : e = (popped.state, b.registry.length) := by simpa using he
                refine ⟨b.dangling.length - 1, by omega, by omega, ?_⟩
                rw [hee, hdgetD]
                cases idx with
                | none =>
                  refine ⟨0, ?_⟩
                  have hdla : d.last_arc = none := hdeep rfl d hgl
                  rw [affix_last_state_none d 0 hdla, hpop]
                | some i0 =>
                  refine ⟨i0, ?_⟩
                  rw [hpop]
            · obtain ⟨j, hj1, hj2, i2, hje⟩ := hΔ'char e he
              rw [hdang2, List.length_dropLast] at hj2
              rw [hdang2, getD_dropLast _ _ _ (by omega)] at hje
              exact ⟨j, hj1, by omega, i2, hje⟩
          · rcases ihdang with ⟨hnop, hdng⟩ | ⟨hpop2, a, di, hda, hdi, hdng⟩
            · -- the loop stopped right below: the stack now has ps + 1 states
              rw [hdang2, List.length_dropLast] at hnop
              have hlen2 : b.dangling.dropLast.length = b.dangling.length - 1 :=
                List.length_dropLast _
              have hexact : b.dangling.length = ps + 2 := by omega
              have hne' : b.dangling.dropLast ≠ [] := by
                intro hc
                rw [hc] at hlen2
                simp at hlen2
                omega
              have hx := getLast?_eq_getD (b.dangling.dropLast) DanglingState.base hne'
              have hxD : b.dangling.dropLast.getD (b.dangling.dropLast.length - 1)
                  DanglingState.base = b.dangling.getD ps DanglingState.base := by
                rw [hlen2, getD_dropLast _ _ _ (by omega),
                  show b.dangling.length - 1 - 1 = ps from by omega]
              obtain ⟨a, ha, _⟩ := harc ps (by omega)
              refine Or.inr ⟨hlt, a, i', ha, ?_, ?_⟩
              · rw [hΔ']
                exact find?_isSome_append _ _ _ hfind'
              · rw [hdng, hdang2]
                have haff : affixTop b.dangling.dropLast (some i')
                    = b.dangling.dropLast.dropLast ++
                      [(b.dangling.getD ps DanglingState.base).affix_last i'] := by
                  unfold affixTop
                  rw [hx, hxD]
                rw [haff, affix_last_state_some _ a i' ha]
                congr 1
                rw [List.dropLast_eq_take, List.dropLast_eq_take, List.take_take]
                congr 1
                simp only [List.length_take]
                omega
            · -- deeper pops: lift the description one level
              rw [hdang2, List.length_dropLast] at hpop2
              rw [hdang2, getD_dropLast _ _ _ (by omega)] at hda hdng
              refine Or.inr ⟨by omega, a, di, hda, hdi, ?_⟩
              rw [hdng]
              congr 1
              rw [List.dropLast_eq_take, List.take_take]
              congr 1
              omega
    · rename_i hnlt
      have hb' : finalizeLast b idx = b' := congrArg Prod.fst h
      rw [← hb', finalizeLast_eq]
      exact ⟨⟨[], by simp, by simp⟩, hidx, husable, hclreg, rfl, rfl, rfl, rfl,
        Or.inl ⟨hnlt, rfl⟩⟩

/-- Membership as a positional `getD` read. -/
theorem mem_getD {α : Type} {l : List α} {x : α} (h : x ∈ l) (d : α) :
    ∃ j, j < l.length ∧ l.getD j d = x := by
  obtain ⟨n, hn⟩ := List.mem_iff_get.mp h
  refine ⟨n.1, n.2, ?_⟩
  rw [List.getD_eq_getElem?_getD, List.getElem?_eq_getElem n.2]
  simpa using hn

/-- Positional read of the fresh suffix states. -/
theorem getD_map_from_label (ls : List Nat) (j : Nat) (h : j < ls.length) :
    (ls.map (DanglingState.from_label (O := O))).getD j DanglingState.base
      = DanglingState.from_label (ls.getD j 0) := by
  rw [List.getD_eq_getElem?_getD, List.getD_eq_getElem?_getD, List.getElem?_map,
    List.getElem?_eq_getElem h]
  rfl

/-- Positional read through `drop`. -/
theorem getD_drop {α : Type} (l : List α) (n m : Nat) (d : α) :
    (l.drop n).getD m d = l.getD (n + m) d := by
  rw [List.getD_eq_getElem?_getD, List.getD_eq_getElem?_getD, List.getElem?_drop]

/-- The last element of an append with a nonempty right part. -/
theorem getLast?_append_right {α : Type} (l1 l2 : List α) (h : l2 ≠ []) :
    (l1 ++ l2).getLast? = l2.getLast? := by
  have hx := getLast?_eq_getD l2 (by
    cases l2 with
    | nil => exact absurd rfl h
    | cons a _ => exact a) h
  rw [eq_dropLast_concat hx, ← List.append_assoc, List.getLast?_concat, List.getLast?_concat]

/-- Splitting a byte string at an in-range position. -/
theorem drop_getD_cons (l : List Nat) (n : Nat) (h : n < l.length) :
    l.drop n = l.getD n 0 :: l.drop (n + 1) := by
  rw [List.getD_eq_getElem?_getD, List.getElem?_eq_getElem h]
  exact List.drop_eq_getElem_cons h

/-- Equation of `add_suffix` on a nonempty suffix and stack. -/
theorem addSuffix_eq (stk : List (DanglingState O)) (c : Nat) (cs : List Nat) (out : O)
    (last : DanglingState O) (h : stk.getLast? = some last) :
    addSuffix stk (c :: cs) out
      = (stk.dropLast ++ [{ last with last_arc := some ⟨c, out⟩ }])
        ++ cs.map DanglingState.from_label ++ [DanglingState.empty_terminal] := by
  unfold addSuffix
  rw [h]

/-- Positional read at the seam of a concatenation. -/
theorem getD_append_at {α : Type} (l l2 : List α) (x d : α) :
    ((l ++ [x]) ++ l2).getD l.length d = x := by
  rw [List.append_assoc]
  have h := getD_append_right l ([x] ++ l2) 0 d
  rw [Nat.add_zero] at h
  rw [h]
  rfl

/-- Positional read past the left part of an append, subtraction form. -/
theorem getD_append_far {α : Type} (l l2 : List α) (d : α) (e : Nat) (h : l.length ≤ e) :
    (l ++ l2).getD e d = l2.getD (e - l.length) d := by
  have h2 := getD_append_right l l2 (e - l.length) d
  rw [show l.length + (e - l.length) = e from by omega] at h2
  exact h2

/-- Full effect of a successful nonempty-key insert body on a well-formed
builder: well-formedness is kept with the new key spelled by the stack,
the new key walks to its value, and every walk that succeeded before
still walks to the same value. -/
theorem insertBody_ok (b : Builder O) (p key : List Nat) (v : O) (b' : Builder O)
    (hidx : b.registry.map (fun e => e.2) = List.range b.registry.length)
    (husable : b.usable_index = b.registry.length)
    (hclreg : ∀ e ∈ b.registry, regClosed b.registry e.1)
    (hclD : ∀ d ∈ b.dangling, regClosed b.registry d.state)
    (hsp : Spells b.dangling p)
    (hnep : key ≠ p) (hlex : lexLt key p = false) (hkey : key ≠ [])
    (h : insertBody pf b key v = (b', none)) :
    b'.registry.map (fun e => e.2) = List.range b'.registry.length
    ∧ b'.usable_index = b'.registry.length
    ∧ (∀ e ∈ b'.registry, regClosed b'.registry e.1)
    ∧ (∀ d ∈ b'.dangling, regClosed b'.registry d.state)
    ∧ Spells b'.dangling key
    ∧ b'.previous_key = some key
    ∧ bval b' key = some v
    ∧ (∀ (κ : List Nat) (acc w : O), dangVal b.registry b.dangling κ acc = some w →
        dangVal b'.registry b'.dangling κ acc = some w)
    ∧ (∃ Δ last2,
        b'.registry = b.registry ++ Δ
        ∧ (∀ e ∈ Δ, ∃ j, lcpLen key p < j
            ∧ j < (redistLoop pf b.dangling key v).1.length
            ∧ ∃ i2, e.1 = (((redistLoop pf b.dangling key v).1.getD j
                DanglingState.base).affix_last i2).state)
        ∧ last2.last_arc = none
        ∧ (last2 = (redistLoop pf b.dangling key v).1.getD (lcpLen key p) DanglingState.base
           ∨ (∃ a0 di0, ((redistLoop pf b.dangling key v).1.getD (lcpLen key p)
                DanglingState.base).last_arc = some a0
              ∧ last2 = ⟨⟨((redistLoop pf b.dangling key v).1.getD (lcpLen key p)
                    DanglingState.base).state.terminal,
                  ((redistLoop pf b.dangling key v).1.getD (lcpLen key p)
                    DanglingState.base).state.final_output,
                  ((redistLoop pf b.dangling key v).1.getD (lcpLen key p)
                    DanglingState.base).state.transitions
                    ++ [⟨a0.label, a0.output, di0⟩]⟩, none⟩))
        ∧ b'.dangling = ((redistLoop pf b.dangling key v).1.take (lcpLen key p)
            ++ [{ last2 with last_arc := some ⟨key.getD (lcpLen key p) 0,
                (redistLoop pf b.dangling key v).2.2⟩ }])
          ++ ((key.drop (lcpLen key p + 1)).map DanglingState.from_label
              ++ [DanglingState.empty_terminal])) := by
  obtain ⟨hn1, hn2, hn3⟩ := lcp_facts key p hnep hlex
  obtain ⟨hslen, hsarc, dl, hdl, hdla, hdlt⟩ := hsp
  have hnle : lcpLen key p ≤ p.length := by
    rcases hn3 with h3 | ⟨h3, _⟩ <;> omega
  simp only [insertBody] at h
  rw [if_neg hkey] at h
  set n := lcpLen key p with hndef
  set r := redistLoop pf b.dangling key v with hrdef
  -- matched length
  have hmap : ∀ j, j < p.length →
      ((b.dangling.getD j DanglingState.base).last_arc).map (fun a => a.label)
        = some (p.getD j 0) := by
    intro j hj
    obtain ⟨a, ha, hal, _⟩ := hsarc j hj
    rw [ha]
    simp [hal]
  have hbne : b.dangling ≠ [] := by
    intro hc; rw [hc] at hslen; simp at hslen
  have hdeepD : (b.dangling.getD p.length DanglingState.base).last_arc = none := by
    have hgd := getLast?_eq_getD b.dangling DanglingState.base hbne
    rw [hdl] at hgd
    have hdleq : b.dangling.getD (b.dangling.length - 1) DanglingState.base = dl :=
      (Option.some.injEq _ _).mp hgd.symm
    rw [hslen, show p.length + 1 - 1 = p.length from by omega] at hdleq
    rw [hdleq]
    exact hdla
  have hnmatch : r.2.1 = n :=
    redistLoop_matched pf key p b.dangling v hslen hmap hdeepD
  have hsp1 : Spells r.1 p :=
    spells_redistLoop pf b.dangling p key v ⟨hslen, hsarc, dl, hdl, hdla, hdlt⟩
  obtain ⟨hsp1len, hsp1arc, dl', hdl', hdla', hdlt'⟩ := hsp1
  -- closure of the redistributed stack
  have hclD1 : ∀ d' ∈ r.1, regClosed b.registry d'.state := by
    intro d' hd'
    obtain ⟨j, hj, hjd⟩ := mem_getD hd' DanglingState.base
    obtain ⟨_, l2, _⟩ := redistLoop_labels pf key b.dangling v j
    intro t ht
    rw [← hjd] at ht
    have hmem2 : (t.label, t.destination) ∈
        ((b.dangling.getD j DanglingState.base).state.transitions.map
          (fun t => (t.label, t.destination))) := by
      rw [← hrdef] at l2
      rw [← l2]
      exact List.mem_map_of_mem _ ht
    obtain ⟨t0, ht0, hpair⟩ := List.mem_map.mp hmem2
    have hdest : t0.destination = t.destination := congrArg Prod.snd hpair
    rw [← hdest]
    have hjlen : j < b.dangling.length := by
      rw [← redistLoop_length pf key b.dangling v, ← hrdef]
      exact hj
    exact hclD _ (getD_mem _ hjlen) t0 ht0
  have harc1 : ∀ j, j + 1 < r.1.length →
      ∃ a, (r.1.getD j DanglingState.base).last_arc = some a
        ∧ ∀ t ∈ (r.1.getD j DanglingState.base).state.transitions, t.label < a.label := by
    intro j hj
    rw [hsp1len] at hj
    obtain ⟨a, ha, _, hfr⟩ := hsp1arc j (by omega)
    exact ⟨a, ha, hfr⟩
  have hdeep1 : ∀ dl0, r.1.getLast? = some dl0 → dl0.last_arc = none := by
    intro dl0 hdl0
    rw [hdl'] at hdl0
    have : dl0 = dl' := ((Option.some.injEq _ _).mp hdl0).symm
    rw [this]
    exact hdla'
  -- split the freeze
  split at h
  · rename_i b2 e2 heq
    simp [Prod.mk.injEq] at h
  · rename_i b2 heq
    simp only [Prod.mk.injEq] at h
    have hb' : b' = { b2 with
        dangling := addSuffix b2.dangling (key.drop r.2.1) r.2.2,
        language_size := b2.language_size + 1 } := h.1.symm
    have hfs : fsLoop r.2.1
        ({ b with previous_key := some key, dangling := r.1 } : Builder O).dangling.length
        { b with previous_key := some key, dangling := r.1 } none = (b2, none) := heq
    obtain ⟨⟨Δ, hΔ0, hΔchar⟩, hidx2, husable2, hclreg2, hprev20, hroot2, hib2, hlang2,
      hdangcase⟩ := fsLoop_dang r.2.1 _
        { b with previous_key := some key, dangling := r.1 } none b2
        hidx husable hclreg hclD1 harc1 (fun _ => hdeep1) (by intro i0 hc; cases hc)
        (by omega) hfs
    have hΔ : b2.registry = b.registry ++ Δ := hΔ0
    have hprev2 : b2.previous_key = some key := hprev20
    have hsem0 := fsLoop_sem r.2.1 _
      { b with previous_key := some key, dangling := r.1 } none b2
      hidx husable hclreg hclD1 harc1 (fun _ => hdeep1) (by intro i0 hc; cases hc) hfs
    have hsem : ∀ (κ : List Nat) (acc : O),
        dangVal b2.registry b2.dangling κ acc = dangVal b.registry r.1 κ acc := hsem0
    -- a uniform description of the stack after the freeze
    have hcommon : ∃ last2 : DanglingState O,
        b2.dangling = r.1.take n ++ [last2]
        ∧ last2.last_arc = none
        ∧ (∀ t ∈ last2.state.transitions, t.label < key.getD n 0)
        ∧ regClosed b2.registry last2.state
        ∧ (last2 = r.1.getD n DanglingState.base
           ∨ (∃ a0 di0, (r.1.getD n DanglingState.base).last_arc = some a0
              ∧ last2 = ⟨⟨(r.1.getD n DanglingState.base).state.terminal,
                  (r.1.getD n DanglingState.base).state.final_output,
                  (r.1.getD n DanglingState.base).state.transitions
                    ++ [⟨a0.label, a0.output, di0⟩]⟩, none⟩)) := by
      rcases hdangcase with ⟨hnop, hd2⟩ | ⟨hpops, a, di, hda, hdi, hd2⟩
      · -- no state popped: the key extends the whole previous key
        have hd2' : b2.dangling = r.1 := hd2
        have hnop' : ¬ r.2.1 + 1 < r.1.length := hnop
        rw [hnmatch, hsp1len] at hnop'
        have hnp : n = p.length := by omega
        have hdl'D : r.1.getD n DanglingState.base = dl' := by
          have hr1ne : r.1 ≠ [] := by
            intro hc; rw [hc] at hsp1len; simp at hsp1len
          have hgd := getLast?_eq_getD r.1 DanglingState.base hr1ne
          rw [hdl'] at hgd
          have := (Option.some.injEq _ _).mp hgd.symm
          rw [hsp1len, show p.length + 1 - 1 = n from by omega] at this
          exact this
        refine ⟨dl', ?_, hdla', ?_, ?_, Or.inl hdl'D.symm⟩
        · rw [hd2']
          have hdrop : r.1.dropLast = r.1.take n := by
            rw [List.dropLast_eq_take, hsp1len,
              show p.length + 1 - 1 = n from by omega]
          rw [← hdrop]
          exact eq_dropLast_concat hdl'
        · intro t ht
          rw [hdlt'] at ht
          cases ht
        · intro t ht
          rw [hdlt'] at ht
          cases ht
      · -- states popped: the old arc at the divergence depth is frozen
        have hpops' : n + 1 < p.length + 1 := by
          have := hpops
          rw [hnmatch] at this
          have h2 : r.1.length = p.length + 1 := hsp1len
          have h3 : ({ b with previous_key := some key, dangling := r.1 } :
            Builder O).dangling.length = r.1.length := rfl
          omega
        have hnlt : n < p.length := by omega
        obtain ⟨a', ha', hal', hfr'⟩ := hsp1arc n hnlt
        have hda' : (r.1.getD n DanglingState.base).last_arc = some a := by
          rw [← hnmatch]
          exact hda
        have haa : a = a' := by
          rw [ha'] at hda'
          exact ((Option.some.injEq _ _).mp hda').symm
        have hpn : p.getD n 0 < key.getD n 0 := by
          rcases hn3 with h3 | ⟨_, h3⟩
          · omega
          · exact h3
        refine ⟨⟨⟨(r.1.getD n DanglingState.base).state.terminal,
            (r.1.getD n DanglingState.base).state.final_output,
            (r.1.getD n DanglingState.base).state.transitions
              ++ [⟨a.label, a.output, di⟩]⟩, none⟩, ?_, rfl, ?_, ?_,
          Or.inr ⟨a, di, hda', rfl⟩⟩
        · rw [hd2, hnmatch]
        · intro t ht
          simp only at ht
          rcases List.mem_append.mp ht with ht | ht
          · have hlab := hfr' t ht
            rw [hal'] at hlab
            omega
          · have hta : t = ⟨a.label, a.output, di⟩ := by simpa using ht
            rw [hta]
            show a.label < key.getD n 0
            rw [haa, hal']
            omega
        · intro t ht
          simp only at ht
          rcases List.mem_append.mp ht with ht | ht
          · have hnlen : n < r.1.length := by rw [hsp1len]; omega
            have hcl := hclD1 _ (getD_mem DanglingState.base hnlen) t ht
            rw [hΔ]
            exact find?_isSome_append _ _ _ hcl
          · have hta : t = ⟨a.label, a.output, di⟩ := by simpa using ht
            rw [hta]
            exact hdi
    obtain ⟨last2, hB2, hla2, hfr2, hcl2, hchar2⟩ := hcommon
    -- the final builder
    have hdropn : key.drop n = key.getD n 0 :: key.drop (n + 1) :=
      drop_getD_cons key n hn1
    have hglast : b2.dangling.getLast? = some last2 := by
      rw [hB2]; exact List.getLast?_concat _
    have hdlast : b2.dangling.dropLast = r.1.take n := by
      rw [hB2]; exact List.dropLast_concat
    have haddS : addSuffix b2.dangling (key.drop n) r.2.2
        = (r.1.take n ++ [{ last2 with last_arc := some ⟨key.getD n 0, r.2.2⟩ }])
          ++ ((key.drop (n + 1)).map DanglingState.from_label
              ++ [DanglingState.empty_terminal]) := by
      rw [hdropn, addSuffix_eq _ _ _ _ last2 hglast, hdlast, List.append_assoc]
    have hbd' : b'.dangling
        = (r.1.take n ++ [{ last2 with last_arc := some ⟨key.getD n 0, r.2.2⟩ }])
          ++ ((key.drop (n + 1)).map DanglingState.from_label
              ++ [DanglingState.empty_terminal]) := by
      rw [hb']
      show addSuffix b2.dangling (key.drop r.2.1) r.2.2 = _
      rw [hnmatch, haddS]
    have hbreg' : b'.registry = b2.registry := by rw [hb']
    have hAlen : (r.1.take n).length = n := by
      simp only [List.length_take, hsp1len]
      omega
    have hkeyp : ∀ j, j < n → key.getD j 0 = p.getD j 0 := by
      intro j hj
      have h1 : (key.take n).getD j 0 = key.getD j 0 := getD_take _ _ _ _ hj
      have h2 : (p.take n).getD j 0 = p.getD j 0 := getD_take _ _ _ _ hj
      rw [← h1, hn2, h2]
    -- positional reads of the new stack
    have hgetA : ∀ j, j < n →
        b'.dangling.getD j DanglingState.base = r.1.getD j DanglingState.base := by
      intro j hj
      rw [hbd', getD_append_left _ _ _ _ (by simp [hAlen]; omega),
        getD_append_left _ _ _ _ (by omega : j < (r.1.take n).length),
        getD_take _ _ _ _ hj]
    have hgetN : b'.dangling.getD n DanglingState.base
        = { last2 with last_arc := some ⟨key.getD n 0, r.2.2⟩ } := by
      rw [hbd']
      have h0 := getD_append_at (r.1.take n)
        ((key.drop (n + 1)).map DanglingState.from_label ++ [DanglingState.empty_terminal])
        { last2 with last_arc := some ⟨key.getD n 0, r.2.2⟩ } DanglingState.base
      rw [hAlen] at h0
      exact h0
    have hgetF : ∀ j, n < j → j < key.length →
        b'.dangling.getD j DanglingState.base
          = DanglingState.from_label (key.getD j 0) := by
      intro j hj1 hj2
      have hfl : j - (n + 1) < (key.drop (n + 1)).length := by
        simp only [List.length_drop]
        omega
      have hlen1 : (r.1.take n ++
          [{ last2 with last_arc := some ⟨key.getD n 0, r.2.2⟩ }]).length = n + 1 := by
        simp [hAlen]
      rw [hbd', getD_append_far _ _ _ j (by rw [hlen1]; omega), hlen1,
        getD_append_left _ _ _ _ (by simpa using hfl),
        getD_map_from_label _ _ hfl, getD_drop,
        show n + 1 + (j - (n + 1)) = j from by omega]
    refine ⟨by rw [hb']; exact hidx2, by rw [hb']; exact husable2,
      by rw [hb']; exact hclreg2, ?_, ?_, by rw [hb']; exact hprev2, ?_, ?_, ?_⟩
    · -- closure of the new dangling states
      intro d' hd'
      rw [hbreg']
      rw [hbd'] at hd'
      rcases List.mem_append.mp hd' with hd' | hd'
      · rcases List.mem_append.mp hd' with hd' | hd'
        · have hmem : d' ∈ r.1 := List.take_subset _ _ hd'
          have := hclD1 d' hmem
          rw [hΔ]
          exact regClosed_append _ _ _ this
        · have hde : d' = { last2 with last_arc := some ⟨key.getD n 0, r.2.2⟩ } := by
            simpa using hd'
          rw [hde]
          exact hcl2
      · rcases List.mem_append.mp hd' with hd' | hd'
        · obtain ⟨c0, _, hc0⟩ := List.mem_map.mp hd'
          rw [← hc0]
          intro t ht
          simp [DanglingState.from_label, BState.empty] at ht
        · have hde : d' = DanglingState.empty_terminal := by simpa using hd'
          rw [hde]
          intro t ht
          simp [DanglingState.empty_terminal] at ht
    · -- the new stack spells the key
      have hlen' : b'.dangling.length = key.length + 1 := by
        rw [hbd']
        simp only [List.length_append, List.length_take, List.length_cons, List.length_nil,
          List.length_map, List.length_drop, hsp1len]
        omega
      refine ⟨hlen', ?_, ?_⟩
      · intro j hj
        rcases Nat.lt_trichotomy j n with hjn | hjn | hjn
        · rw [hgetA j hjn]
          obtain ⟨a, ha, hal, hfr⟩ := hsp1arc j (by omega)
          refine ⟨a, ha, ?_, hfr⟩
          rw [hal, hkeyp j hjn]
        · rw [hjn, hgetN]
          exact ⟨⟨key.getD n 0, r.2.2⟩, rfl, rfl, hfr2⟩
        · rw [hgetF j hjn hj]
          exact ⟨⟨key.getD j 0, 0⟩, rfl, rfl, by
            intro t ht
            simp [DanglingState.from_label, BState.empty] at ht⟩
      · refine ⟨DanglingState.empty_terminal, ?_, rfl, rfl⟩
        rw [hbd', ← List.append_assoc, List.getLast?_concat]
    · -- the new key walks to its value
      have hw1 := dangVal_walk b2.registry (r.1.take n) (key.take n)
        ([{ last2 with last_arc := some ⟨key.getD n 0, r.2.2⟩ }] ++
          ((key.drop (n + 1)).map DanglingState.from_label ++ [DanglingState.empty_terminal]))
        (key.getD n 0 :: key.drop (n + 1)) 0
        (by rw [hAlen, List.length_take]; omega)
        (by
          intro j hj
          rw [hAlen] at hj
          obtain ⟨a, ha, hal, _⟩ := hsp1arc j (by omega)
          rw [getD_take _ _ _ _ hj]
          exact ⟨a, ha, by rw [hal, getD_take _ _ _ _ hj, hkeyp j hj]⟩)
      have hw2 := dangVal_walk b2.registry ((key.drop (n + 1)).map DanglingState.from_label)
        (key.drop (n + 1)) [DanglingState.empty_terminal] []
        (0 + arcOuts (r.1.take n) (r.1.take n).length + r.2.2)
        (by simp)
        (by
          intro j hj
          rw [List.length_map] at hj
          rw [getD_map_from_label _ _ hj]
          exact ⟨⟨(key.drop (n + 1)).getD j 0, 0⟩, rfl, rfl⟩)
      rw [List.append_nil] at hw2
      have hsplit : key = key.take n ++ (key.getD n 0 :: key.drop (n + 1)) := by
        rw [← hdropn, List.take_append_drop]
      show dangVal b'.registry b'.dangling key 0 = some v
      rw [hbreg', hbd', List.append_assoc]
      calc dangVal b2.registry (r.1.take n ++
            ([{ last2 with last_arc := some ⟨key.getD n 0, r.2.2⟩ }] ++
              ((key.drop (n + 1)).map DanglingState.from_label
                ++ [DanglingState.empty_terminal]))) key 0
          = dangVal b2.registry (r.1.take n ++
            ([{ last2 with last_arc := some ⟨key.getD n 0, r.2.2⟩ }] ++
              ((key.drop (n + 1)).map DanglingState.from_label
                ++ [DanglingState.empty_terminal])))
            (key.take n ++ (key.getD n 0 :: key.drop (n + 1))) 0 := by rw [← hsplit]
        _ = some v := by
            rw [hw1, List.singleton_append]
            show dangVal b2.registry
                ({ last2 with last_arc := some ⟨key.getD n 0, r.2.2⟩ } ::
                  ((key.drop (n + 1)).map DanglingState.from_label
                    ++ [DanglingState.empty_terminal]))
                (key.getD n 0 :: key.drop (n + 1))
                (0 + arcOuts (r.1.take n) (r.1.take n).length) = some v
            simp only [dangVal]
            rw [if_true]
            rw [hw2]
            show (if DanglingState.empty_terminal.state.terminal = true then
                some ((0 + arcOuts (r.1.take n) (r.1.take n).length + r.2.2 +
                  arcOuts ((key.drop (n + 1)).map DanglingState.from_label)
                    ((key.drop (n + 1)).map DanglingState.from_label).length)
                  + DanglingState.empty_terminal.state.final_output) else none) = some v
            rw [if_pos (show DanglingState.empty_terminal.state.terminal = true from rfl)]
            have hz : arcOuts ((key.drop (n + 1)).map (DanglingState.from_label (O := O)))
                ((key.drop (n + 1)).map (DanglingState.from_label (O := O))).length = 0 := by
              rw [List.length_map]
              exact arcOuts_from_label _
            have hsum := redistLoop_sum pf key b.dangling v
            rw [← hrdef, hnmatch] at hsum
            have hao : arcOuts (r.1.take n) (r.1.take n).length = arcOuts r.1 n := by
              rw [hAlen]
              exact arcOuts_take n r.1
            rw [hz, hao]
            show some (0 + arcOuts r.1 n + r.2.2 + 0 + 0) = some v
            rw [zero_add, add_zero, add_zero, hsum]
    · -- preservation of earlier walks
      intro κ acc w hold
      have h1 : dangVal b.registry r.1 κ acc = some w := by
        rw [hrdef, dangVal_redistLoop]
        exact hold
      have h2 : dangVal b2.registry b2.dangling κ acc = some w := by
        rw [hsem]
        exact h1
      rw [hB2] at h2
      rw [hbreg', hbd', List.append_assoc]
      exact dangVal_cong_tail b2.registry [last2]
        ([{ last2 with last_arc := some ⟨key.getD n 0, r.2.2⟩ }] ++
          ((key.drop (n + 1)).map DanglingState.from_label
            ++ [DanglingState.empty_terminal]))
        (fun κ0 acc0 w0 h0 => dangVal_addSuffix_tail b2.registry last2
          (key.getD n 0) r.2.2 _ hla2 hfr2 κ0 acc0 w0 h0)
        (r.1.take n) κ acc w h2
    · -- structural summary for the output invariants
      refine ⟨Δ, last2, by rw [hbreg']; exact hΔ, ?_, hla2, hchar2, hbd'⟩
      intro e he
      obtain ⟨j, hj1, hj2, i2, hje⟩ := hΔchar e he
      have hj1' : n < j := by rw [← hnmatch]; exact hj1
      exact ⟨j, hj1', hj2, i2, hje⟩

/-- Effect of inserting the empty key into a fresh dangling path: the root
becomes terminal with the value, nothing else changes. -/
theorem insertBody_nil (b : Builder O) (v : O) (b' : Builder O)
    (hbd : b.dangling = [DanglingState.base])
    (h : insertBody pf b [] v = (b', none)) :
    b'.registry = b.registry
    ∧ b'.usable_index = b.usable_index
    ∧ b'.dangling = [⟨⟨true, v, []⟩, none⟩]
    ∧ b'.previous_key = some []
    ∧ bval b' [] = some v
    ∧ (∀ (κ : List Nat) (acc w : O), dangVal b.registry b.dangling κ acc = some w →
        dangVal b'.registry b'.dangling κ acc = some w) := by
  simp only [insertBody] at h
  rw [if_true] at h
  simp only [Prod.mk.injEq] at h
  have hb' : b' = { b with
      previous_key := some ([] : List Nat),
      dangling := setRootOutput b.dangling v,
      language_size := 1 } := h.1.symm
  have hroot : setRootOutput b.dangling v = [⟨⟨true, v, []⟩, none⟩] := by
    rw [hbd]
    rfl
  refine ⟨by rw [hb'], by rw [hb'], by rw [hb']; exact hroot, by rw [hb'], ?_, ?_⟩
  · show dangVal b'.registry b'.dangling [] 0 = some v
    rw [hb']
    show dangVal b.registry (setRootOutput b.dangling v) [] 0 = some v
    rw [hroot]
    simp [dangVal, zero_add]
  · intro κ acc w hold
    exfalso
    rw [hbd] at hold
    cases κ with
    | nil => simp [dangVal, DanglingState.base, BState.empty] at hold
    | cons c ks => simp [dangVal, DanglingState.base, BState.empty] at hold

/-- Well-formedness of the fresh builder of `from_iter`. -/
theorem bwf_new (ib : Nat) : BWF (newBuilder (O := O) ib) := by
  refine ⟨rfl, rfl, ?_, ?_, ?_⟩
  · intro e he
    simp [newBuilder] at he
  · intro d hd
    have hde : d = DanglingState.base := by simpa [newBuilder] using hd
    rw [hde]
    intro t ht
    simp [DanglingState.base, BState.empty] at ht
  · show (match (newBuilder (O := O) ib).previous_key with
      | none => (newBuilder (O := O) ib).dangling = [DanglingState.base]
      | some p => Spells (newBuilder (O := O) ib).dangling p)
    rfl

/-- The base dangling path spells the empty previous key. -/
theorem spells_base : Spells ([DanglingState.base] : List (DanglingState O)) [] := by
  refine ⟨rfl, ?_, DanglingState.base, rfl, rfl, rfl⟩
  intro j hj
  simp at hj

/-- One successful insert on a well-formed builder: well-formedness is
kept, the key is recorded as previous and walks to its value, and every
earlier value is preserved. -/
theorem insertR_ok (b : Builder O) (key : List Nat) (v : O) (b' : Builder O)
    (hw : BWF b) (h : insertR pf b key v = (b', none)) :
    BWF b' ∧ b'.previous_key = some key ∧ bval b' key = some v
    ∧ (∀ (κ : List Nat) (w : O), bval b κ = some w → bval b' κ = some w) := by
  obtain ⟨hidx, husable, hclreg, hclD, hshape⟩ := hw
  cases hprev : b.previous_key with
  | none =>
    simp only [insertR, hprev] at h
    rw [hprev] at hshape
    simp only at hshape
    by_cases hknil : key = []
    · subst hknil
      obtain ⟨hreg0, husable0, hdang0, hprev0, hbv0, hpres0⟩ :=
        insertBody_nil pf b v b' hshape h
      refine ⟨⟨by rw [hreg0]; exact hidx, by rw [hreg0, husable0]; exact husable,
        ?_, ?_, ?_⟩, hprev0, hbv0, fun κ w hh => hpres0 κ 0 w hh⟩
      · intro e he
        rw [hreg0] at he ⊢
        exact hclreg e he
      · intro d hd
        rw [hdang0] at hd
        have hde : d = ⟨⟨true, v, []⟩, none⟩ := by simpa using hd
        rw [hde]
        intro t ht
        simp at ht
      · rw [hprev0, hdang0]
        show Spells [(⟨⟨true, v, []⟩, none⟩ : DanglingState O)] []
        refine ⟨rfl, ?_, ⟨⟨true, v, []⟩, none⟩, rfl, rfl, rfl⟩
        intro j hj
        simp at hj
    · have hsp : Spells b.dangling [] := by rw [hshape]; exact spells_base
      obtain ⟨h1, h2, h3, h4, h5, h6, h7, h8, _⟩ :=
        insertBody_ok pf b [] key v b' hidx husable hclreg hclD hsp hknil
          (lexLt_nil_right key) hknil h
      exact ⟨⟨h1, h2, h3, h4, by rw [h6]; exact h5⟩, h6, h7, fun κ w hh => h8 κ 0 w hh⟩
  | some prev =>
    simp only [insertR, hprev] at h
    rw [hprev] at hshape
    simp only at hshape
    by_cases hdup : key = prev
    · rw [if_pos hdup] at h
      simp [Prod.mk.injEq] at h
    · rw [if_neg hdup] at h
      by_cases hord : lexLt key prev = true
      · rw [if_pos hord] at h
        simp [Prod.mk.injEq] at h
      · have hordf : lexLt key prev = false := by
          revert hord
          cases lexLt key prev <;> simp
        rw [if_neg (by simp [hordf])] at h
        have hkey : key ≠ [] := by
          intro hk
          subst hk
          cases prev with
          | nil => exact hdup rfl
          | cons c ps => rw [lexLt_nil_left] at hordf; cases hordf
        obtain ⟨h1, h2, h3, h4, h5, h6, h7, h8, _⟩ :=
          insertBody_ok pf b prev key v b' hidx husable hclreg hclD hshape hdup
            hordf hkey h
        exact ⟨⟨h1, h2, h3, h4, by rw [h6]; exact h5⟩, h6, h7, fun κ w hh => h8 κ 0 w hh⟩

/-- Values inserted along a successful run of the `from_iter` loop are all
present in the final builder. -/
theorem insertAll_values :
    ∀ (ps : List (List Nat × O)) (b b' : Builder O), BWF b →
      insertAll pf b ps = (b', none) →
      (∀ (κ : List Nat) (w : O), bval b κ = some w → bval b' κ = some w)
      ∧ ∀ kv ∈ ps, bval b' kv.1 = some kv.2 := by
  intro ps
  induction ps with
  | nil =>
    intro b b' _ h
    simp only [insertAll, Prod.mk.injEq] at h
    refine ⟨fun κ w hh => by rw [← h.1]; exact hh, by simp⟩
  | cons kv ps ih =>
    intro b b' hw h
    obtain ⟨k, v⟩ := kv
    simp only [insertAll] at h
    rcases hins : insertR pf b k v with ⟨b1, e1⟩
    rw [hins] at h
    rcases e1 with _ | e1
    case some => simp [Prod.mk.injEq] at h
    · obtain ⟨hw1, hprev1, hbv1, hpres1⟩ := insertR_ok pf b k v b1 hw hins
      obtain ⟨pres2, vals2⟩ := ih b1 b' hw1 h
      refine ⟨fun κ w hh => pres2 κ w (hpres1 κ w hh), ?_⟩
      intro kv2 hkv2
      rcases List.mem_cons.mp hkv2 with hkv2 | hkv2
      · rw [hkv2]
        exact pres2 k v hbv1
      · exact vals2 kv2 hkv2

/-- C3.  Builder value-preservation invariant: after every successful
insert (any successful run of the `from_iter` insertion loop from a fresh
builder), every key inserted so far walks through the builder's logical
transducer — dangling path and registry combined, summing arc outputs and
the final output of the terminal state reached — to exactly the value
supplied with it. -/
theorem builder_value_preservation (ib : Nat) (ps : List (List Nat × O)) (b' : Builder O)
    (h : insertAll pf (newBuilder ib) ps = (b', none)) :
    ∀ kv ∈ ps, bval b' kv.1 = some kv.2 :=
  (insertAll_values pf ps (newBuilder ib) b' (bwf_new ib) h).2

/-- Witness for C3: inserting the single pair `([97], 1)` over the signed
output monoid yields a builder in which key `[97]` walks to `1`. -/
theorem builder_value_preservation_witness :
    bval (insertAll signedLcp (newBuilder 100000) [([97], (1 : Int))]).1 [97]
      = some 1 :=
  builder_value_preservation signedLcp 100000 [([97], (1 : Int))]
    (insertAll signedLcp (newBuilder 100000) [([97], (1 : Int))]).1 rfl
    ([97], (1 : Int)) (by simp)

end BuilderValueClaims

section OutputPushClaims

variable {O : Type} [AddCommGroup O] [DecidableEq O]

/-! Claim C6: sign structure of the signed longest-common-prefix
operation, and the zero-fold invariant of non-root registered states. -/

/-- A positive signed prefix forces both arguments positive. -/
theorem signedLcp_pos (a b : Int) (h : 0 < signedLcp a b) : 0 < a ∧ 0 < b := by
  unfold signedLcp at h
  split_ifs at h <;> omega

/-- A negative signed prefix forces both arguments negative. -/
theorem signedLcp_neg (a b : Int) (h : signedLcp a b < 0) : a < 0 ∧ b < 0 := by
  unfold signedLcp at h
  split_ifs at h <;> omega

/-- After removing the common prefix, the two remainders have no common
prefix left: the core cancellation law of `redistribute_prefix`. -/
theorem signedLcp_kf (a b : Int) :
    signedLcp (a - signedLcp a b) (b - signedLcp a b) = 0 := by
  unfold signedLcp
  split_ifs <;> omega

/-- Sign shape of a pair with zero signed prefix. -/
theorem signedLcp_eq_zero (d r : Int) (h : signedLcp d r = 0) :
    (0 < d ∧ r ≤ 0) ∨ (d ≤ 0 ∧ 0 < r) ∨ d = 0 ∨ r = 0 := by
  unfold signedLcp at h
  split_ifs at h <;> omega

/-- The signed prefix with a zero argument is zero. -/
theorem signedLcp_zero_right (a : Int) : signedLcp a 0 = 0 := by
  unfold signedLcp
  split_ifs <;> omega

/-- Sign mixture only depends on membership. -/
theorem pz_congr (l l' : List Int) (h : ∀ x : Int, x ∈ l ↔ x ∈ l') (hp : PZ l) : PZ l' := by
  obtain ⟨⟨x, hx, hx0⟩, ⟨y, hy, hy0⟩⟩ := hp
  exact ⟨⟨x, (h x).mp hx, hx0⟩, ⟨y, (h y).mp hy, hy0⟩⟩

/-- Shifting a sign-mixed output list by one side of a zero-prefix pair
and appending the other side keeps the mixture: the stopped state of the
redistribution walk, with the grafted remainder, is sign-mixed. -/
theorem pz_stop (M : List Int) (d rem : Int) (hM : PZ M) (h : signedLcp d rem = 0) :
    PZ (M.map (fun x => x + d) ++ [rem]) := by
  obtain ⟨⟨x, hx, hx0⟩, ⟨y, hy, hy0⟩⟩ := hM
  have hxm : x + d ∈ M.map (fun z => z + d) ++ [rem] := by
    rw [List.mem_append]
    exact Or.inl (List.mem_map_of_mem _ hx)
  have hym : y + d ∈ M.map (fun z => z + d) ++ [rem] := by
    rw [List.mem_append]
    exact Or.inl (List.mem_map_of_mem _ hy)
  have hrm : rem ∈ M.map (fun z => z + d) ++ [rem] := by
    rw [List.mem_append]
    exact Or.inr (by simp)
  rcases signedLcp_eq_zero d rem h with ⟨hd, hr⟩ | ⟨hd, hr⟩ | hd | hr
  · exact ⟨⟨rem, hrm, hr⟩, ⟨y + d, hym, by omega⟩⟩
  · exact ⟨⟨x + d, hxm, by omega⟩, ⟨rem, hrm, by omega⟩⟩
  · exact ⟨⟨x + d, hxm, by omega⟩, ⟨y + d, hym, by omega⟩⟩
  · exact ⟨⟨rem, hrm, by omega⟩, ⟨rem, hrm, by omega⟩⟩

/-- Shifting the frozen outputs of a sign-mixed state and replacing its
matched arc output by the new common prefix keeps the mixture: the
matched case of the redistribution walk. -/
theorem pz_match (S : List Int) (t d cur : Int) (hM : PZ (S ++ [t]))
    (h : signedLcp d cur = 0) :
    PZ (S.map (fun x => x + d) ++ [signedLcp (t + d) cur]) := by
  obtain ⟨⟨x, hx, hx0⟩, ⟨y, hy, hy0⟩⟩ := hM
  have hpm : signedLcp (t + d) cur ∈ S.map (fun z => z + d) ++ [signedLcp (t + d) cur] := by
    rw [List.mem_append]
    exact Or.inr (by simp)
  have hmem : ∀ z : Int, z ∈ S → z + d ∈ S.map (fun w => w + d) ++ [signedLcp (t + d) cur] := by
    intro z hz
    rw [List.mem_append]
    exact Or.inl (List.mem_map_of_mem _ hz)
  have hx' : x ∈ S ∨ x = t := by
    rcases List.mem_append.mp hx with h1 | h1
    · exact Or.inl h1
    · exact Or.inr (by simpa using h1)
  have hy' : y ∈ S ∨ y = t := by
    rcases List.mem_append.mp hy with h1 | h1
    · exact Or.inl h1
    · exact Or.inr (by simpa using h1)
  rcases lt_trichotomy (signedLcp (t + d) cur) 0 with hplt | hpeq | hpgt
  · obtain ⟨hn1, hn2⟩ := signedLcp_neg (t + d) cur hplt
    refine ⟨⟨signedLcp (t + d) cur, hpm, le_of_lt hplt⟩, ?_⟩
    rcases hy' with hyS | hyt
    · refine ⟨y + d, hmem y hyS, ?_⟩
      rcases signedLcp_eq_zero d cur h with ⟨h1, h2⟩ | ⟨h1, h2⟩ | h1 | h1 <;> omega
    · exfalso
      rcases signedLcp_eq_zero d cur h with ⟨h1, h2⟩ | ⟨h1, h2⟩ | h1 | h1 <;> omega
  · exact ⟨⟨signedLcp (t + d) cur, hpm, le_of_eq hpeq⟩,
      ⟨signedLcp (t + d) cur, hpm, le_of_eq hpeq.symm⟩⟩
  · obtain ⟨hp1, hp2⟩ := signedLcp_pos (t + d) cur hpgt
    refine ⟨?_, ⟨signedLcp (t + d) cur, hpm, le_of_lt hpgt⟩⟩
    rcases hx' with hxS | hxt
    · refine ⟨x + d, hmem x hxS, ?_⟩
      rcases signedLcp_eq_zero d cur h with ⟨h1, h2⟩ | ⟨h1, h2⟩ | h1 | h1 <;> omega
    · exfalso
      rcases signedLcp_eq_zero d cur h with ⟨h1, h2⟩ | ⟨h1, h2⟩ | h1 | h1 <;> omega

/-- The output list of a state with no pending arc. -/
theorem mOuts_arc_none (d : DanglingState O) (h : d.last_arc = none) :
    mOuts d = stateOuts d.state := by
  simp [mOuts, h]

/-- The output list of a state with a pending arc. -/
theorem mOuts_arc_some (d : DanglingState O) (a : DanglingArc O) (h : d.last_arc = some a) :
    mOuts d = stateOuts d.state ++ [a.output] := by
  simp [mOuts, h]

/-- Pushing a difference into a state shifts every frozen output. -/
theorem stateOuts_redistribute (d : DanglingState O) (diff : O) :
    stateOuts (d.redistribute_output diff).state
      = (stateOuts d.state).map (fun x => x + diff) := by
  by_cases hd : diff = 0
  · rw [DanglingState.redistribute_output, if_pos hd, hd]
    simp
  · rw [DanglingState.redistribute_output, if_neg hd]
    by_cases ht : d.state.terminal <;>
      simp [stateOuts, ht, List.map_map, Function.comp]

/-- Pushing a difference into a state shifts its whole output list. -/
theorem mOuts_redistribute (d : DanglingState O) (diff : O) :
    mOuts (d.redistribute_output diff) = (mOuts d).map (fun x => x + diff) := by
  by_cases hd : diff = 0
  · rw [hd]
    simp [DanglingState.redistribute_output]
  · have harc : (DanglingState.redistribute_output d diff).last_arc
        = d.last_arc.map (fun a => { a with output := a.output + diff }) := by
      rw [DanglingState.redistribute_output, if_neg hd]
    unfold mOuts
    rw [stateOuts_redistribute, List.map_append, harc]
    congr 1
    cases d.last_arc <;> simp

/-- A pending arc surviving a push comes from a pending arc of the
original state, with shifted output. -/
theorem redistribute_arc_some (d : DanglingState O) (diff : O) (t : DanglingArc O)
    (h : (d.redistribute_output diff).last_arc = some t) :
    ∃ t0, d.last_arc = some t0 ∧ t.label = t0.label ∧ t.output = t0.output + diff := by
  by_cases hd : diff = 0
  · rw [DanglingState.redistribute_output, if_pos hd] at h
    exact ⟨t, h, rfl, by rw [hd, add_zero]⟩
  · rw [DanglingState.redistribute_output, if_neg hd] at h
    cases ha : d.last_arc with
    | none => rw [ha] at h; cases h
    | some a0 =>
      rw [ha] at h
      have h2 : ({ a0 with output := a0.output + diff } : DanglingArc O) = t := by
        simpa using h
      subst h2
      exact ⟨a0, rfl, rfl, rfl⟩

/-- Membership in an append is blind to moving a singleton across. -/
theorem mem_append_swap {α : Type} (A B : List α) (c : α) (x : α) :
    x ∈ (A ++ [c]) ++ B ↔ x ∈ (A ++ B) ++ [c] := by
  simp only [List.mem_append, List.mem_singleton]
  tauto

/-- Freezing the pending arc of a state keeps its output members. -/
theorem mem_stateOuts_affix (d : DanglingState O) (i : Nat) (x : O) :
    x ∈ stateOuts (d.affix_last i).state ↔ x ∈ mOuts d := by
  cases ha : d.last_arc with
  | none => rw [affix_last_state_none d i ha, mOuts_arc_none d ha]
  | some a =>
    rw [affix_last_state_some d a i ha, mOuts_arc_some d a ha]
    have h1 : stateOuts (⟨d.state.terminal, d.state.final_output,
        d.state.transitions ++ [⟨a.label, a.output, i⟩]⟩ : BState O)
        = (d.state.transitions.map (fun t => t.output) ++ [a.output])
          ++ (if d.state.terminal then [d.state.final_output] else []) := by
      simp [stateOuts]
    rw [h1]
    exact mem_append_swap _ _ _ x

/-- A fresh suffix state carries the single output zero: sign-mixed. -/
theorem pz_from_label (l : Nat) : PZ (mOuts (DanglingState.from_label (O := Int) l)) := by
  refine ⟨⟨0, ?_, le_refl 0⟩, ⟨0, ?_, le_refl 0⟩⟩ <;>
    simp [mOuts, stateOuts, DanglingState.from_label, BState.empty, DanglingArc.from_label]

/-- The fresh terminal state carries the single output zero: sign-mixed. -/
theorem pz_empty_terminal : PZ (mOuts (DanglingState.empty_terminal (O := Int))) := by
  refine ⟨⟨0, ?_, le_refl 0⟩, ⟨0, ?_, le_refl 0⟩⟩ <;>
    simp [mOuts, stateOuts, DanglingState.empty_terminal]

/-- The matched case of the redistribution walk keeps a state at depth at
least one sign-mixed. -/
theorem pz_match_state (d0 : DanglingState Int) (diff : Int) (t : DanglingArc Int) (out : Int)
    (hla : (d0.redistribute_output diff).last_arc = some t)
    (hd0 : PZ (mOuts d0)) (hkf : signedLcp diff out = 0) :
    PZ (mOuts { d0.redistribute_output diff with
        last_arc := some { t with output := signedLcp t.output out } }) := by
  obtain ⟨t0, ht0, ht0l, ht0o⟩ := redistribute_arc_some d0 diff t hla
  have hm : mOuts { d0.redistribute_output diff with
      last_arc := some { t with output := signedLcp t.output out } }
      = (stateOuts d0.state).map (fun x => x + diff) ++ [signedLcp (t0.output + diff) out] := by
    rw [mOuts_arc_some _ { t with output := signedLcp t.output out } rfl]
    rw [show ({ d0.redistribute_output diff with
        last_arc := some { t with output := signedLcp t.output out } } :
          DanglingState Int).state = (d0.redistribute_output diff).state from rfl]
    rw [stateOuts_redistribute]
    rw [show ({ t with output := signedLcp t.output out } : DanglingArc Int).output
        = signedLcp t.output out from rfl]
    rw [ht0o]
  rw [hm]
  apply pz_match (stateOuts d0.state) t0.output diff out ?_ hkf
  rw [← mOuts_arc_some d0 t0 ht0]
  exact hd0

/-- Sign mixture of the dangling states below the top through the
redistribution walk, started below an incoming push: every state except
the one the walk stops at stays sign-mixed, and the stopped state becomes
sign-mixed once the remaining output is appended. -/
theorem redistLoop_pz_aux :
    ∀ (ks : List Nat) (d0 : DanglingState Int) (diff : Int)
      (tl : List (DanglingState Int)) (out : Int)
      (res : List (DanglingState Int) × Nat × Int),
      redistLoop signedLcp (d0.redistribute_output diff :: tl) ks out = res →
      PZ (mOuts d0) → signedLcp diff out = 0 →
      (∀ j, j < tl.length → PZ (mOuts (tl.getD j DanglingState.base))) →
      (∀ j, j < res.1.length → j ≠ res.2.1 →
        PZ (mOuts (res.1.getD j DanglingState.base)))
      ∧ (res.2.1 < res.1.length →
          PZ (mOuts (res.1.getD res.2.1 DanglingState.base) ++ [res.2.2])) := by
  intro ks
  induction ks with
  | nil =>
    intro d0 diff tl out res hres hd0 hkf htl
    have heq : res = (d0.redistribute_output diff :: tl, 0, out) := by
      rw [← hres]
      simp [redistLoop]
    subst heq
    refine ⟨?_, ?_⟩
    · intro j hj hjne
      dsimp only at hj hjne ⊢
      cases j with
      | zero => exact absurd rfl hjne
      | succ j2 =>
        simp only [List.getD_cons_succ]
        exact htl j2 (by simpa using hj)
    · intro hlt
      dsimp only
      simp only [List.getD_cons_zero]
      rw [mOuts_redistribute]
      exact pz_stop (mOuts d0) diff out hd0 hkf
  | cons c ks2 ih =>
    intro d0 diff tl out res hres hd0 hkf htl
    cases hla : (d0.redistribute_output diff).last_arc with
    | none =>
      have heq : res = (d0.redistribute_output diff :: tl, 0, out) := by
        rw [← hres]
        simp [redistLoop, hla]
      subst heq
      refine ⟨?_, ?_⟩
      · intro j hj hjne
        dsimp only at hj hjne ⊢
        cases j with
        | zero => exact absurd rfl hjne
        | succ j2 =>
          simp only [List.getD_cons_succ]
          exact htl j2 (by simpa using hj)
      · intro hlt
        dsimp only
        simp only [List.getD_cons_zero]
        rw [mOuts_redistribute]
        exact pz_stop (mOuts d0) diff out hd0 hkf
    | some t =>
      by_cases hlab : t.label = c
      · cases tl with
        | nil =>
          have heq : res = ([{ d0.redistribute_output diff with
              last_arc := some { t with output := signedLcp t.output out } }],
              1, out - signedLcp t.output out) := by
            rw [← hres]
            simp [redistLoop, hla, hlab]
          subst heq
          refine ⟨?_, ?_⟩
          · intro j hj hjne
            dsimp only at hj hjne ⊢
            simp only [List.length_singleton] at hj
            have hj0 : j = 0 := by omega
            subst hj0
            simp only [List.getD_cons_zero]
            exact pz_match_state d0 diff t out hla hd0 hkf
          · intro hlt
            dsimp only at hlt
            simp at hlt
        | cons e tl2 =>
          have heq : res = ({ d0.redistribute_output diff with
              last_arc := some { t with output := signedLcp t.output out } } ::
                (redistLoop signedLcp
                  (e.redistribute_output (t.output - signedLcp t.output out) :: tl2)
                  ks2 (out - signedLcp t.output out)).1,
              (redistLoop signedLcp
                  (e.redistribute_output (t.output - signedLcp t.output out) :: tl2)
                  ks2 (out - signedLcp t.output out)).2.1 + 1,
              (redistLoop signedLcp
                  (e.redistribute_output (t.output - signedLcp t.output out) :: tl2)
                  ks2 (out - signedLcp t.output out)).2.2) := by
            rw [← hres]
            simp [redistLoop, hla, hlab]
          subst heq
          have hPZe : PZ (mOuts e) := by
            have h0 := htl 0 (by simp)
            simpa using h0
          have htl2 : ∀ j, j < tl2.length → PZ (mOuts (tl2.getD j DanglingState.base)) := by
            intro j hj
            have h1 := htl (j + 1) (by simp only [List.length_cons]; omega)
            simpa using h1
          obtain ⟨ihA, ihB⟩ := ih e (t.output - signedLcp t.output out) tl2
            (out - signedLcp t.output out) _ rfl hPZe (signedLcp_kf t.output out) htl2
          refine ⟨?_, ?_⟩
          · intro j hj hjne
            dsimp only at hj hjne ⊢
            cases j with
            | zero =>
              simp only [List.getD_cons_zero]
              exact pz_match_state d0 diff t out hla hd0 hkf
            | succ j2 =>
              simp only [List.getD_cons_succ]
              apply ihA j2
              · simpa using hj
              · intro hc
                exact hjne (by rw [hc])
          · intro hlt
            dsimp only at hlt ⊢
            simp only [List.getD_cons_succ]
            apply ihB
            simpa using hlt
      · have heq : res = (d0.redistribute_output diff :: tl, 0, out) := by
          rw [← hres]
          simp [redistLoop, hla, hlab]
        subst heq
        refine ⟨?_, ?_⟩
        · intro j hj hjne
          dsimp only at hj hjne ⊢
          cases j with
          | zero => exact absurd rfl hjne
          | succ j2 =>
            simp only [List.getD_cons_succ]
            exact htl j2 (by simpa using hj)
        · intro hlt
          dsimp only
          simp only [List.getD_cons_zero]
          rw [mOuts_redistribute]
          exact pz_stop (mOuts d0) diff out hd0 hkf

/-- Sign mixture through a full redistribution walk from the root: every
dangling state at depth at least one stays sign-mixed except the one the
walk stops at, which becomes sign-mixed once the remaining output is
appended. -/
theorem redistLoop_pz_top (ks : List Nat) (D : List (DanglingState Int)) (out : Int)
    (res : List (DanglingState Int) × Nat × Int)
    (hres : redistLoop signedLcp D ks out = res)
    (hD : ∀ j, 1 ≤ j → j < D.length → PZ (mOuts (D.getD j DanglingState.base))) :
    (∀ j, 1 ≤ j → j < res.1.length → j ≠ res.2.1 →
      PZ (mOuts (res.1.getD j DanglingState.base)))
    ∧ (1 ≤ res.2.1 → res.2.1 < res.1.length →
        PZ (mOuts (res.1.getD res.2.1 DanglingState.base) ++ [res.2.2])) := by
  cases D with
  | nil =>
    have heq : res = ([], 0, out) := by
      rw [← hres]
      simp [redistLoop]
    subst heq
    refine ⟨?_, ?_⟩
    · intro j hj1 hj2 hj3
      dsimp only at hj2
      simp at hj2
    · intro h1 h2
      dsimp only at h1
      exact absurd h1 (by omega)
  | cons d tl =>
    cases ks with
    | nil =>
      have heq : res = (d :: tl, 0, out) := by
        rw [← hres]
        simp [redistLoop]
      subst heq
      refine ⟨?_, ?_⟩
      · intro j hj1 hj2 hj3
        dsimp only at hj2 ⊢
        exact hD j hj1 hj2
      · intro h1 h2
        dsimp only at h1
        exact absurd h1 (by omega)
    | cons c ks2 =>
      cases hla : d.last_arc with
      | none =>
        have heq : res = (d :: tl, 0, out) := by
          rw [← hres]
          simp [redistLoop, hla]
        subst heq
        refine ⟨?_, ?_⟩
        · intro j hj1 hj2 hj3
          dsimp only at hj2 ⊢
          exact hD j hj1 hj2
        · intro h1 h2
          dsimp only at h1
          exact absurd h1 (by omega)
      | some t =>
        by_cases hlab : t.label = c
        · cases tl with
          | nil =>
            have heq : res = ([{ d with
                last_arc := some { t with output := signedLcp t.output out } }],
                1, out - signedLcp t.output out) := by
              rw [← hres]
              simp [redistLoop, hla, hlab]
            subst heq
            refine ⟨?_, ?_⟩
            · intro j hj1 hj2 hj3
              dsimp only at hj2
              simp only [List.length_singleton] at hj2
              exact absurd hj1 (by omega)
            · intro h1 h2
              dsimp only at h2
              simp only [List.length_singleton] at h2
              exact absurd h2 (by omega)
          | cons e tl2 =>
            have heq : res = ({ d with
                last_arc := some { t with output := signedLcp t.output out } } ::
                  (redistLoop signedLcp
                    (e.redistribute_output (t.output - signedLcp t.output out) :: tl2)
                    ks2 (out - signedLcp t.output out)).1,
                (redistLoop signedLcp
                    (e.redistribute_output (t.output - signedLcp t.output out) :: tl2)
                    ks2 (out - signedLcp t.output out)).2.1 + 1,
                (redistLoop signedLcp
                    (e.redistribute_output (t.output - signedLcp t.output out) :: tl2)
                    ks2 (out - signedLcp t.output out)).2.2) := by
              rw [← hres]
              simp [redistLoop, hla, hlab]
            subst heq
            have hPZe : PZ (mOuts e) := by
              have h0 := hD 1 (by omega) (by simp only [List.length_cons]; omega)
              simpa using h0
            have htl2 : ∀ j, j < tl2.length → PZ (mOuts (tl2.getD j DanglingState.base)) := by
              intro j hj
              have h1 := hD (j + 2) (by omega) (by simp only [List.length_cons]; omega)
              simpa using h1
            obtain ⟨ihA, ihB⟩ := redistLoop_pz_aux ks2 e
              (t.output - signedLcp t.output out) tl2
              (out - signedLcp t.output out) _ rfl hPZe (signedLcp_kf t.output out) htl2
            refine ⟨?_, ?_⟩
            · intro j hj1 hj2 hj3
              dsimp only at hj2 hj3 ⊢
              cases j with
              | zero => exact absurd hj1 (by omega)
              | succ j2 =>
                simp only [List.getD_cons_succ]
                apply ihA j2
                · simpa using hj2
                · intro hc
                  exact hj3 (by rw [hc])
            · intro h1 h2
              dsimp only at h1 h2 ⊢
              simp only [List.getD_cons_succ]
              apply ihB
              simpa using h2
        · have heq : res = (d :: tl, 0, out) := by
            rw [← hres]
            simp [redistLoop, hla, hlab]
          subst heq
          refine ⟨?_, ?_⟩
          · intro j hj1 hj2 hj3
            dsimp only at hj2 ⊢
            exact hD j hj1 hj2
          · intro h1 h2
            dsimp only at h1
            exact absurd h1 (by omega)

/-- Grafting the new pending arc onto the state the walk stopped at (as
frozen by the divergence pops) keeps it sign-mixed. -/
theorem pz_graft (g last2 : DanglingState Int) (c : Nat) (rem : Int)
    (hl : last2.last_arc = none)
    (hchar : last2 = g
      ∨ (∃ a0 di0, g.last_arc = some a0
          ∧ last2 = ⟨⟨g.state.terminal, g.state.final_output,
              g.state.transitions ++ [⟨a0.label, a0.output, di0⟩]⟩, none⟩))
    (hpz : PZ (mOuts g ++ [rem])) :
    PZ (mOuts { last2 with last_arc := some (⟨c, rem⟩ : DanglingArc Int) }) := by
  have hm : mOuts { last2 with last_arc := some (⟨c, rem⟩ : DanglingArc Int) }
      = stateOuts last2.state ++ [rem] := by
    rw [mOuts_arc_some _ (⟨c, rem⟩ : DanglingArc Int) rfl]
  rw [hm]
  rcases hchar with hA | ⟨a0, di0, hg, hB⟩
  · subst hA
    rw [mOuts_arc_none last2 hl] at hpz
    exact hpz
  · subst hB
    refine pz_congr (mOuts g ++ [rem]) _ ?_ hpz
    intro x
    rw [List.mem_append, List.mem_append]
    have hiff : x ∈ stateOuts (⟨⟨g.state.terminal, g.state.final_output,
        g.state.transitions ++ [⟨a0.label, a0.output, di0⟩]⟩, none⟩ :
          DanglingState Int).state ↔ x ∈ mOuts g := by
      rw [show (⟨⟨g.state.terminal, g.state.final_output,
          g.state.transitions ++ [⟨a0.label, a0.output, di0⟩]⟩, none⟩ :
            DanglingState Int).state = (g.affix_last di0).state from by
        rw [affix_last_state_some g a0 di0 hg]]
      exact mem_stateOuts_affix g di0 x
    rw [hiff]

/-- Sign mixture through one successful nonempty-key insert on a
well-formed builder: every registered state stays sign-mixed, and every
dangling state at depth at least one is sign-mixed. -/
theorem insertBody_pz (b : Builder Int) (p key : List Nat) (v : Int) (b' : Builder Int)
    (hidx : b.registry.map (fun e => e.2) = List.range b.registry.length)
    (husable : b.usable_index = b.registry.length)
    (hclreg : ∀ e ∈ b.registry, regClosed b.registry e.1)
    (hclD : ∀ d ∈ b.dangling, regClosed b.registry d.state)
    (hsp : Spells b.dangling p)
    (hnep : key ≠ p) (hlex : lexLt key p = false) (hkey : key ≠ [])
    (h : insertBody signedLcp b key v = (b', none))
    (hreg : ∀ e ∈ b.registry, PZ (stateOuts e.1))
    (hdang : ∀ j, 1 ≤ j → j < b.dangling.length →
      PZ (mOuts (b.dangling.getD j DanglingState.base))) :
    (∀ e ∈ b'.registry, PZ (stateOuts e.1))
    ∧ (∀ j, 1 ≤ j → j < b'.dangling.length →
        PZ (mOuts (b'.dangling.getD j DanglingState.base))) := by
  obtain ⟨-, -, -, -, -, -, -, -, Δ, last2, hΔreg, hΔchar, hla2, hchar, hbd⟩ :=
    insertBody_ok signedLcp b p key v b' hidx husable hclreg hclD hsp hnep hlex hkey h
  obtain ⟨hslen, hsarc, dl, hdl, hdla, hdlt⟩ := hsp
  set n := lcpLen key p with hn
  set r := redistLoop signedLcp b.dangling key v with hr
  have hnle : n ≤ p.length := by
    obtain ⟨h1, h2, h3⟩ := lcp_facts key p hnep hlex
    rcases h3 with h3 | ⟨h3, -⟩ <;> omega
  have hkn : n < key.length := by
    have h1 := (lcp_facts key p hnep hlex).1
    omega
  have hrlen : r.1.length = p.length + 1 := by
    rw [hr, redistLoop_length]
    exact hslen
  have hmap : ∀ j, j < p.length →
      ((b.dangling.getD j DanglingState.base).last_arc).map (fun a => a.label)
        = some (p.getD j 0) := by
    intro j hj
    obtain ⟨a, ha, hal, -⟩ := hsarc j hj
    rw [ha]
    simp [hal]
  have hbne : b.dangling ≠ [] := by
    intro hc
    rw [hc] at hslen
    simp at hslen
  have hdeepD : (b.dangling.getD p.length DanglingState.base).last_arc = none := by
    have hgd := getLast?_eq_getD b.dangling DanglingState.base hbne
    rw [hdl] at hgd
    have hdleq : b.dangling.getD (b.dangling.length - 1) DanglingState.base = dl :=
      (Option.some.injEq _ _).mp hgd.symm
    rw [hslen, show p.length + 1 - 1 = p.length from by omega] at hdleq
    rw [hdleq]
    exact hdla
  have hmatch : r.2.1 = n := by
    rw [hr, hn]
    exact redistLoop_matched signedLcp key p b.dangling v hslen hmap hdeepD
  obtain ⟨hA, hB⟩ := redistLoop_pz_top key b.dangling v r hr.symm hdang
  refine ⟨?_, ?_⟩
  · intro e he
    rw [hΔreg] at he
    rcases List.mem_append.mp he with h1 | h1
    · exact hreg e h1
    · obtain ⟨j, hj1, hj2, i2, hej⟩ := hΔchar e h1
      rw [hej]
      refine pz_congr (mOuts (r.1.getD j DanglingState.base)) _
        (fun x => (mem_stateOuts_affix _ i2 x).symm) ?_
      exact hA j (by omega) hj2 (by omega)
  · intro j hj1 hjlen
    rw [hbd] at hjlen ⊢
    have htklen : (r.1.take n).length = n := by
      rw [List.length_take]
      omega
    simp only [List.length_append, List.length_map, List.length_singleton,
      htklen] at hjlen
    rcases lt_trichotomy j n with hjn | hjn | hjn
    · rw [getD_append_left _ _ _ _ (by
        rw [List.length_append, htklen]
        simp only [List.length_singleton]
        omega)]
      rw [getD_append_left _ _ _ _ (by rw [htklen]; omega)]
      rw [getD_take _ _ _ _ hjn]
      exact hA j hj1 (by omega) (by omega)
    · have hat := getD_append_at (r.1.take n)
        ((key.drop (n + 1)).map DanglingState.from_label ++ [DanglingState.empty_terminal])
        ({ last2 with last_arc := some (⟨key.getD n 0, r.2.2⟩ : DanglingArc Int) })
        DanglingState.base
      rw [htklen] at hat
      rw [hjn, hat]
      refine pz_graft (r.1.getD n DanglingState.base) last2 (key.getD n 0) r.2.2
        hla2 hchar ?_
      have hBapp := hB (by omega) (by omega)
      rw [hmatch] at hBapp
      exact hBapp
    · have hl2 : (r.1.take n
          ++ [({ last2 with last_arc := some (⟨key.getD n 0, r.2.2⟩ : DanglingArc Int) } :
            DanglingState Int)]).length = n + 1 := by
        rw [List.length_append, htklen]
        rfl
      rw [getD_append_far _ _ _ _ (by rw [hl2]; omega)]
      rw [hl2]
      by_cases hk : j - (n + 1) < (key.drop (n + 1)).length
      · rw [getD_append_left _ _ _ _ (by rw [List.length_map]; exact hk)]
        rw [getD_map_from_label _ _ hk]
        exact pz_from_label _
      · rw [getD_append_far _ _ _ _ (by rw [List.length_map]; omega)]
        rw [List.length_map]
        rw [show j - (n + 1) - (key.drop (n + 1)).length = 0 from by omega]
        simp only [List.getD_cons_zero]
        exact pz_empty_terminal

/-- Registry effect of a successful registration: either the state was
found (registry unchanged, the found index returned) or it is appended
with the returned index. -/
theorem registerR_cases (b : Builder O) (s : BState O) (b2 : Builder O) (i : Nat)
    (h : registerR b s = (b2, Except.ok i)) :
    b2.registry = b.registry ∨ b2.registry = b.registry ++ [(s, i)] := by
  unfold registerR at h
  cases hf : b.registry.find? (fun e => e.1 = s) with
  | some e0 =>
    rw [hf] at h
    have h2 : ((b, Except.ok e0.2) : Builder O × Except Error Nat) = (b2, Except.ok i) := h
    obtain ⟨hb2, -⟩ := (Prod.mk.injEq _ _ _ _).mp h2
    exact Or.inl (by rw [← hb2])
  | none =>
    rw [hf] at h
    have h2 : (if b.usable_index > b.ibound
          ∨ b.transition_count + s.transitions.length > b.ibound
        then (({ b with
            usable_index := b.usable_index + 1,
            transition_count := b.transition_count + s.transitions.length } : Builder O),
          (Except.error (Error.OutOfBounds
            (max b.usable_index (b.transition_count + s.transitions.length)) b.ibound) :
              Except Error Nat))
        else ({ b with
            usable_index := b.usable_index + 1,
            transition_count := b.transition_count + s.transitions.length,
            registry := b.registry ++ [(s, asIndex b.ibound b.usable_index)] },
          Except.ok (asIndex b.ibound b.usable_index))) = (b2, Except.ok i) := h
    split at h2
    · simp at h2
    · obtain ⟨hb2, hok⟩ := (Prod.mk.injEq _ _ _ _).mp h2
      injection hok with hie
      refine Or.inr ?_
      rw [← hb2, ← hie]

/-- Sign mixture through one successful insert on a well-formed builder. -/
theorem insertR_pz (b : Builder Int) (key : List Nat) (v : Int) (b' : Builder Int)
    (hw : BWF b)
    (hreg : ∀ e ∈ b.registry, PZ (stateOuts e.1))
    (hdang : ∀ j, 1 ≤ j → j < b.dangling.length →
      PZ (mOuts (b.dangling.getD j DanglingState.base)))
    (h : insertR signedLcp b key v = (b', none)) :
    (∀ e ∈ b'.registry, PZ (stateOuts e.1))
    ∧ (∀ j, 1 ≤ j → j < b'.dangling.length →
        PZ (mOuts (b'.dangling.getD j DanglingState.base))) := by
  obtain ⟨hidx, husable, hclreg, hclD, hshape⟩ := hw
  cases hprev : b.previous_key with
  | none =>
    simp only [insertR, hprev] at h
    rw [hprev] at hshape
    simp only at hshape
    by_cases hknil : key = []
    · subst hknil
      obtain ⟨hreg0, -, hdang0, -, -, -⟩ := insertBody_nil signedLcp b v b' hshape h
      refine ⟨by rw [hreg0]; exact hreg, ?_⟩
      intro j hj1 hj2
      exfalso
      rw [hdang0] at hj2
      simp only [List.length_singleton] at hj2
      omega
    · have hsp2 : Spells b.dangling [] := by rw [hshape]; exact spells_base
      exact insertBody_pz b [] key v b' hidx husable hclreg hclD hsp2 hknil
        (lexLt_nil_right key) hknil h hreg hdang
  | some prev =>
    simp only [insertR, hprev] at h
    rw [hprev] at hshape
    simp only at hshape
    by_cases hdup : key = prev
    · rw [if_pos hdup] at h
      simp [Prod.mk.injEq] at h
    · rw [if_neg hdup] at h
      by_cases hord : lexLt key prev = true
      · rw [if_pos hord] at h
        simp [Prod.mk.injEq] at h
      · have hordf : lexLt key prev = false := by
          revert hord
          cases lexLt key prev <;> simp
        rw [if_neg (by simp [hordf])] at h
        have hkey : key ≠ [] := by
          intro hk
          subst hk
          cases prev with
          | nil => exact hdup rfl
          | cons c ps => rw [lexLt_nil_left] at hordf; cases hordf
        exact insertBody_pz b prev key v b' hidx husable hclreg hclD hshape hdup
          hordf hkey h hreg hdang

/-- Sign mixture through a successful run of the insertion loop. -/
theorem insertAll_pz :
    ∀ (ps : List (List Nat × Int)) (b b' : Builder Int), BWF b →
      (∀ e ∈ b.registry, PZ (stateOuts e.1)) →
      (∀ j, 1 ≤ j → j < b.dangling.length →
        PZ (mOuts (b.dangling.getD j DanglingState.base))) →
      insertAll signedLcp b ps = (b', none) →
      BWF b'
      ∧ (∀ e ∈ b'.registry, PZ (stateOuts e.1))
      ∧ (∀ j, 1 ≤ j → j < b'.dangling.length →
          PZ (mOuts (b'.dangling.getD j DanglingState.base))) := by
  intro ps
  induction ps with
  | nil =>
    intro b b' hw hr hd h
    simp only [insertAll, Prod.mk.injEq] at h
    obtain ⟨h1, -⟩ := h
    subst h1
    exact ⟨hw, hr, hd⟩
  | cons kv ps ih =>
    intro b b' hw hr hd h
    obtain ⟨k, v⟩ := kv
    simp only [insertAll] at h
    rcases hins : insertR signedLcp b k v with ⟨b1, e1⟩
    rw [hins] at h
    rcases e1 with _ | e1
    case some => simp [Prod.mk.injEq] at h
    · obtain ⟨hw1, -, -, -⟩ := insertR_ok signedLcp b k v b1 hw hins
      obtain ⟨hr1, hd1⟩ := insertR_pz b k v b1 ⟨hw.1, hw.2.1, hw.2.2.1, hw.2.2.2.1,
        hw.2.2.2.2⟩ hr hd hins
      exact ih b1 b' hw1 hr1 hd1 h

/-- After `finish`, every non-root registry entry is sign-mixed. -/
theorem finishR_pz (b b' : Builder Int) (hw : BWF b)
    (hr : ∀ e ∈ b.registry, PZ (stateOuts e.1))
    (hd : ∀ j, 1 ≤ j → j < b.dangling.length →
      PZ (mOuts (b.dangling.getD j DanglingState.base)))
    (h : finishR b = (b', none)) :
    ∀ e ∈ b'.registry, e.2 ≠ b'.root → PZ (stateOuts e.1) := by
  obtain ⟨hidx, husable, hclreg, hclD, hshape⟩ := hw
  have hstack : (∀ j, j + 1 < b.dangling.length →
      ∃ a, (b.dangling.getD j DanglingState.base).last_arc = some a
        ∧ ∀ t ∈ (b.dangling.getD j DanglingState.base).state.transitions,
          t.label < a.label)
      ∧ (∀ dl, b.dangling.getLast? = some dl → dl.last_arc = none) := by
    cases hprev : b.previous_key with
    | none =>
      rw [hprev] at hshape
      simp only at hshape
      constructor
      · intro j hj
        exfalso
        rw [hshape] at hj
        simp only [List.length_singleton] at hj
        omega
      · intro dl hdl2
        rw [hshape] at hdl2
        have h3 : ([DanglingState.base] : List (DanglingState Int)).getLast?
            = some DanglingState.base := rfl
        rw [h3] at hdl2
        have h2 := (Option.some.injEq _ _).mp hdl2
        rw [← h2]
        rfl
    | some pk =>
      rw [hprev] at hshape
      simp only at hshape
      obtain ⟨hslen, hsarc, dl0, hdl0, hdla0, -⟩ := hshape
      constructor
      · intro j hj
        rw [hslen] at hj
        obtain ⟨a, ha, hal, hfr⟩ := hsarc j (by omega)
        exact ⟨a, ha, hfr⟩
      · intro dl hdl2
        rw [hdl0] at hdl2
        have h2 := (Option.some.injEq _ _).mp hdl2
        rw [← h2]
        exact hdla0
  unfold finishR at h
  split at h
  · rename_i b1 e1 heq
    simp [Prod.mk.injEq] at h
  · rename_i b1 heq
    have hfs2 : fsLoop 0 b.dangling.length b none = (b1, none) := heq
    obtain ⟨⟨Δ, hΔ0, hΔchar⟩, -, -, -, -, -, -, -, -⟩ :=
      fsLoop_dang 0 b.dangling.length b none b1 hidx husable hclreg hclD
        hstack.1 (fun _ => hstack.2) (by intro i0 hc; cases hc) (by omega) hfs2
    have hr1 : ∀ e ∈ b1.registry, PZ (stateOuts e.1) := by
      intro e he
      rw [hΔ0] at he
      rcases List.mem_append.mp he with h1 | h1
      · exact hr e h1
      · obtain ⟨j, hj1, hj2, i2, hej⟩ := hΔchar e h1
        rw [hej]
        refine pz_congr (mOuts (b.dangling.getD j DanglingState.base)) _
          (fun x => (mem_stateOuts_affix _ i2 x).symm) ?_
        exact hd j (by omega) hj2
    rcases hb1d : b1.dangling with _ | ⟨rr, _ | ⟨rr2, rest2⟩⟩
    · have h2 : ((b1, none) : Builder Int × Option Error) = (b', none) := by
        rw [hb1d] at h
        exact h
      obtain ⟨hb1b, -⟩ := (Prod.mk.injEq _ _ _ _).mp h2
      subst hb1b
      exact fun e he _ => hr1 e he
    · simp only [hb1d] at h
      rcases hreg3 : registerR ({ b1 with dangling := [] } : Builder Int) rr.state
        with ⟨b3, er⟩
      rw [hreg3] at h
      cases er with
      | error e3 =>
        have h5 : ((b3, some e3) : Builder Int × Option Error) = (b', none) := h
        simp [Prod.mk.injEq] at h5
      | ok i3 =>
        have h5 : (({ b3 with root := i3 }, none) : Builder Int × Option Error)
            = (b', none) := h
        obtain ⟨hb', -⟩ := (Prod.mk.injEq _ _ _ _).mp h5
        have hbreg' : b'.registry = b3.registry := by rw [← hb']
        have hbroot' : b'.root = i3 := by rw [← hb']
        intro e he hne
        rw [hbreg'] at he
        rw [hbroot'] at hne
        rcases registerR_cases ({ b1 with dangling := [] } : Builder Int) rr.state
            b3 i3 hreg3 with hb3reg | hb3reg
        · rw [hb3reg] at he
          exact hr1 e he
        · rw [hb3reg] at he
          rcases List.mem_append.mp he with h1 | h1
          · exact hr1 e h1
          · exfalso
            have he2 : e = (rr.state, i3) := by simpa using h1
            rw [he2] at hne
            exact hne rfl
    · have h2 : ((b1, none) : Builder Int × Option Error) = (b', none) := by
        rw [hb1d] at h
        exact h
      obtain ⟨hb1b, -⟩ := (Prod.mk.injEq _ _ _ _).mp h2
      subst hb1b
      exact fun e he _ => hr1 e he

/-- A positive fold of the signed prefix forces every entry positive. -/
theorem foldl_signedLcp_pos :
    ∀ (l : List Int) (a : Int), 0 < l.foldl signedLcp a → 0 < a ∧ ∀ x ∈ l, 0 < x := by
  intro l
  induction l with
  | nil =>
    intro a h
    exact ⟨h, fun x hx => absurd hx (List.not_mem_nil x)⟩
  | cons x xs ih =>
    intro a h
    rw [List.foldl_cons] at h
    obtain ⟨h1, h2⟩ := ih (signedLcp a x) h
    obtain ⟨ha, hx⟩ := signedLcp_pos a x h1
    refine ⟨ha, ?_⟩
    intro y hy
    rcases List.mem_cons.mp hy with hy | hy
    · rw [hy]; exact hx
    · exact h2 y hy

/-- A negative fold of the signed prefix forces every entry negative. -/
theorem foldl_signedLcp_neg :
    ∀ (l : List Int) (a : Int), l.foldl signedLcp a < 0 → a < 0 ∧ ∀ x ∈ l, x < 0 := by
  intro l
  induction l with
  | nil =>
    intro a h
    exact ⟨h, fun x hx => absurd hx (List.not_mem_nil x)⟩
  | cons x xs ih =>
    intro a h
    rw [List.foldl_cons] at h
    obtain ⟨h1, h2⟩ := ih (signedLcp a x) h
    obtain ⟨ha, hx⟩ := signedLcp_neg a x h1
    refine ⟨ha, ?_⟩
    intro y hy
    rcases List.mem_cons.mp hy with hy | hy
    · rw [hy]; exact hx
    · exact h2 y hy

/-- A sign-mixed output list folds to zero under the signed prefix. -/
theorem pz_lcpFold (l : List Int) (h : PZ l) : lcpFold l = 0 := by
  obtain ⟨⟨x, hx, hx0⟩, ⟨y, hy, hy0⟩⟩ := h
  cases l with
  | nil => rfl
  | cons a as =>
    rcases lt_trichotomy (as.foldl signedLcp a) 0 with hlt | heq | hgt
    · exfalso
      obtain ⟨h1, h2⟩ := foldl_signedLcp_neg as a hlt
      rcases List.mem_cons.mp hy with hy2 | hy2
      · rw [hy2] at hy0; omega
      · have h3 := h2 y hy2; omega
    · exact heq
    · exfalso
      obtain ⟨h1, h2⟩ := foldl_signedLcp_pos as a hgt
      rcases List.mem_cons.mp hx with hx2 | hx2
      · rw [hx2] at hx0; omega
      · have h3 := h2 x hx2; omega

/-- C6 (amended).  Output-pushing after finish: for every signed-output
builder driven to `finish` through a successful `from_iter` run, every
non-root registered state has the fold of the `prefix` operation over its
outputs — its arc outputs together with its final output when it is
terminal — equal to zero.  (The claim's pairwise form is false; see the
counterexample theorem.) -/
theorem nonroot_state_outputs_lcp_fold_zero (ib : Nat) (ps : List (List Nat × Int))
    (b' : Builder Int) (h : fromIter signedLcp ib ps = (b', none)) :
    ∀ e ∈ b'.registry, e.2 ≠ b'.root → lcpFold (stateOuts e.1) = 0 := by
  unfold fromIter at h
  split at h
  · rename_i b1 e1 heq
    simp [Prod.mk.injEq] at h
  · rename_i b1 heq
    obtain ⟨hw1, hr1, hd1⟩ := insertAll_pz ps (newBuilder ib) b1 (bwf_new ib)
      (by intro e he; simp [newBuilder] at he)
      (by
        intro j hj1 hj2
        exfalso
        simp only [newBuilder, List.length_singleton] at hj2
        omega) heq
    intro e he hne
    exact pz_lcpFold _ (finishR_pz b1 b' hw1 hr1 hd1 h e he hne)

/-- Witness for C6 (amended): building from the single pair `([97], 1)`
and finishing yields the registry
`[((true, 0, []), 0), ((false, 0, [(97, 1, 0)]), 1)]` with root `1`; the
non-root entry at index `0` has output list `[0]`, which folds to zero. -/
theorem nonroot_state_outputs_lcp_fold_zero_witness :
    lcpFold (stateOuts (⟨true, 0, []⟩ : BState Int)) = 0 :=
  nonroot_state_outputs_lcp_fold_zero 100000 [([97], (1 : Int))]
    (fromIter signedLcp 100000 [([97], (1 : Int))]).1 rfl
    ((⟨true, 0, []⟩ : BState Int), 0)
    (by
      rw [show (fromIter signedLcp 100000 [([97], (1 : Int))]).1.registry
        = [((⟨true, 0, []⟩ : BState Int), 0), (⟨false, 0, [⟨97, 1, 0⟩]⟩, 1)] from rfl]
      simp)
    (by
      rw [show (fromIter signedLcp 100000 [([97], (1 : Int))]).1.root = 1 from rfl]
      omega)

end OutputPushClaims

end Atlatl
